import Mathlib

/-!
A shallow embedding of `src/figproc.c` (figproc).

The program reads a Netpbm stream (P1..P6) from standard input and writes a
converted stream to standard output.  Standard input is a list of bytes with
the one byte of push-back that `ungetc` provides, standard output is the list
of bytes written so far.  `check_error` ends the process; the bytes already
written stay written.

`int` values are integers.  Where a short input can make C arithmetic leave the
range of a 32-bit `int` (the digit accumulator of `get_ascii_num`, `3 * width`,
the weighted sum of `luminosity`) the result is reduced by `wrap32`.  The
counter of a `for` loop is an `int` as well: when its increment would leave the
range of `int` the behaviour of the C program is undefined, and the run is not
followed any further (`Res.stuck`).
-/

namespace Figproc

/-! ## Process state -/

/-- Standard input still unread and standard output written so far. -/
structure St where
  inp : List Nat
  out : List Nat
deriving DecidableEq

/-- Outcome of running a piece of the program: it returns a value in a new
state, the process ends through `check_error` (with the bytes written so far),
or the run is not followed any further (`stuck`): the counter of a `for` loop
would leave the range of `int`, or a loop of the embedding ran out of its
iteration budget.  A `stuck` run has not returned. -/
inductive Res (α : Type) where
  | ok : α → St → Res α
  | exit : List Nat → Res α
  | stuck : Res α
deriving DecidableEq

/-- A piece of the program: a function from the state to an outcome. -/
def Prog (α : Type) : Type := St → Res α

/-- Sequencing: the second statement runs in the state the first one left. -/
def Prog.bind {α β : Type} (x : Prog α) (f : α → Prog β) : Prog β := fun s =>
  match x s with
  | .ok a s' => f a s'
  | .exit o => .exit o
  | .stuck => .stuck

instance : Monad Prog where
  pure a := fun s => .ok a s
  bind := Prog.bind

/-! ## The C library -/

/-- The value `getchar` returns at end of stream. -/
def EOF : Int := -1

/-- Reduction of an integer to the range of a 32-bit two's complement `int`. -/
def wrap32 (x : Int) : Int := (x + 2147483648) % 4294967296 - 2147483648

/-- `getchar()`: the next byte, or `EOF` (the stream stays at its end). -/
def getchar : Prog Int := fun s =>
  match s.inp with
  | [] => .ok EOF s
  | c :: cs => .ok (c : Int) { s with inp := cs }

/-- `ungetc(ch, stdin)`: pushes the byte back; pushing `EOF` back does nothing. -/
def ungetc (ch : Int) : Prog Unit := fun s =>
  if ch = EOF then .ok () s else .ok () { s with inp := ch.toNat :: s.inp }

/-- `putchar(c)`: writes `c` converted to `unsigned char`. -/
def putchar (c : Int) : Prog Unit := fun s =>
  .ok () { s with out := s.out ++ [(c % 256).toNat] }

/-- Writes the bytes of an already formatted text. -/
def puts (bs : List Nat) : Prog Unit := fun s =>
  .ok () { s with out := s.out ++ bs }

/-- `isspace(ch)` in the C locale: space, `\t`, `\n`, `\v`, `\f`, `\r`. -/
def isspace (ch : Int) : Bool := ch == 32 || (9 ≤ ch && ch ≤ 13)

/-- `isdigit(ch)`. -/
def isdigit (ch : Int) : Bool := 48 ≤ ch && ch ≤ 57

/-- Decimal digits (as ASCII codes) of a natural number, most significant first. -/
def decDigitsAux : Nat → Nat → List Nat → List Nat
  | 0, _, acc => acc
  | fuel + 1, n, acc =>
    if n < 10 then (48 + n) :: acc
    else decDigitsAux fuel (n / 10) ((48 + n % 10) :: acc)

/-- Decimal digits of `n`; `n + 1` steps are always enough. -/
def decDigits (n : Nat) : List Nat := decDigitsAux (n + 1) n []

/-- The text `printf` produces for `%d`. -/
def fmt_d (v : Int) : List Nat :=
  if v < 0 then 45 :: decDigits v.natAbs else decDigits v.toNat

/-- The text `printf` produces for `%3d`: `%d` padded on the left with spaces
to at least three characters. -/
def fmt_3d (v : Int) : List Nat :=
  List.replicate (3 - (fmt_d v).length) 32 ++ fmt_d v

/-! ## `figproc.c` -/

/-- `check_error`: a non-zero argument ends the process. -/
def check_error (error : Bool) : Prog Unit := fun s =>
  if error then .exit s.out else .ok () s

/-- `check_last`. -/
def check_last (i j width height : Int) : Bool := (i == height) && (j == width)

/-- The `while` loop of `ignore_whitespace`: the last byte read (`EOF` at the
end of the stream) and the input after it. -/
def ignore_whitespace_loop : List Nat → Int × List Nat
  | [] => (EOF, [])
  | c :: cs => if isspace c then ignore_whitespace_loop cs else ((c : Int), cs)

/-- `ignore_whitespace`. -/
def ignore_whitespace (finished : Bool) : Prog Int := fun s =>
  let r := ignore_whitespace_loop s.inp
  (do
    check_error (r.1 == EOF && !finished)
    ungetc r.1
    pure 0) { s with inp := r.2 }

/-- The loop of `ignore_comments`, returning the value of `ch` when it is left.
Every round consumes at least one byte, so the budget `fuel` is the number of
unread bytes plus one. -/
def ignore_comments_loop : Nat → Bool → Prog Int
  | 0, _ => fun _ => .stuck
  | fuel + 1, found_hash => do
    let ch ← getchar
    if ch == EOF then pure ch
    else
      let p ← (if ch == 35 then pure (true, ch)
        else if ch == 10 then (do
          let _ ← ignore_whitespace false
          let ch2 ← getchar
          pure (false, ch2))
        else pure (found_hash, ch) : Prog (Bool × Int))
      if !p.1 then
        if isdigit p.2 then pure p.2
        else if p.2 == 35 then (do
          ungetc p.2
          ignore_comments_loop fuel p.1)
        else (do
          check_error true
          ignore_comments_loop fuel p.1)
      else ignore_comments_loop fuel p.1

/-- `ignore_comments`. -/
def ignore_comments : Prog Unit := do
  let _ ← ignore_whitespace false
  let ch ← (fun s => ignore_comments_loop (s.inp.length + 1) false s : Prog Int)
  check_error (ch == EOF)
  ungetc ch

/-- `luminosity`, in `int` arithmetic with division truncating toward zero. -/
def luminosity (r g b : Int) : Int :=
  Int.tdiv (wrap32 (299 * r + 587 * g + 114 * b)) 1000

/-- `get_binary_num`. -/
def get_binary_num (max_color : Int) : Prog Int := do
  let ch ← getchar
  check_error (ch == EOF)
  check_error (ch > max_color)
  pure ch

/-- The `while` loop of `get_ascii_num`: `none` when `check_error` fires in
the body, otherwise the terminating byte, the number and the input after it.
At the end of the stream `ch` is `EOF`, which is not a space, so the body runs
and `check_error(!isdigit(ch))` fires. -/
def get_ascii_num_loop : List Nat → Int → Option (Int × Int × List Nat)
  | [], _ => none
  | c :: cs, num =>
    if isspace c then some ((c : Int), num, cs)
    else if !isdigit c then none
    else get_ascii_num_loop cs (wrap32 (num * 10 + ((c : Int) - 48)))

/-- `get_ascii_num`. -/
def get_ascii_num (max_color : Int) (finished : Bool) : Prog Int := fun s =>
  match get_ascii_num_loop s.inp 0 with
  | none => .exit s.out
  | some (ch, num, rest) =>
    (do
      check_error (ch == EOF)
      check_error (max_color != 0 && num > max_color)
      let _ ← ignore_whitespace finished
      pure num) { s with inp := rest }

/-- `for (i = start; i <= hi; i += step) body`, threading the local variables
`b` that the body updates.  The counter is an `int`: after a round whose
increment `i += step` would exceed `INT_MAX` = 2147483647 the C program has no
defined behaviour (compiled code wraps the counter to a negative value and
stays in the loop), so the loop is `stuck` there and does not return.  With
`start = 1` and `step ≥ 1` the loop makes at most `hi` rounds, which is the
budget it is always given. -/
def forLoop {β : Type} (hi step : Int) (body : Int → β → Prog β) : Nat → Int → β → Prog β
  | 0, i, b => if i ≤ hi then (fun _ => .stuck) else pure b
  | fuel + 1, i, b =>
    if i ≤ hi then (do
      let b2 ← body i b
      if i + step > 2147483647 then (fun _ => .stuck)
      else forLoop hi step body fuel (i + step) b2)
    else pure b

/-- `for (i = 1; i <= hi; i += step) body` for a body without local state. -/
def forTo (hi step : Int) (body : Int → Prog Unit) : Prog Unit :=
  forLoop hi step (fun i _ => body i) hi.toNat 1 ()

/-- Upper bound of the bit loop: `width - j + 1`, capped at 8. -/
def upper_bound (width j : Int) : Int :=
  if width - j + 1 ≥ 8 then 8 else width - j + 1

/-- `1 << (8 - k)`. -/
def bitmask (k : Int) : Nat := 1 <<< (8 - k).toNat

/-- `to_bnw_binary` (P5 -> P4). -/
def to_bnw_binary (width height max_color : Int) : Prog Unit :=
  forTo height 1 fun _ =>
    forTo width 8 fun j => do
      let byte ← forLoop (upper_bound width j) 1 (fun k (byte : Nat) => do
          let color ← get_binary_num max_color
          pure (if color > Int.tdiv (max_color + 1) 2 then byte ^^^ bitmask k else byte))
        (upper_bound width j).toNat 1 255
      putchar byte

/-- `to_bnw_ascii` (P2 -> P1). -/
def to_bnw_ascii (width height max_color : Int) : Prog Unit :=
  forTo height 1 fun i => do
    forTo width 1 fun j => do
      let is_last := check_last i j width height
      let color ← get_ascii_num max_color is_last
      if color > Int.tdiv (max_color + 1) 2 then puts [48, 32] else puts [49, 32]
    putchar 10

/-- `to_gray_scale_binary` (P6 -> P5). -/
def to_gray_scale_binary (width height max_color : Int) : Prog Unit :=
  forTo height 1 fun _ =>
    forTo width 1 fun _ => do
      let r ← get_binary_num max_color
      let g ← get_binary_num max_color
      let b ← get_binary_num max_color
      putchar (luminosity r g b)

/-- `to_gray_scale_ascii` (P3 -> P2). -/
def to_gray_scale_ascii (width height max_color : Int) : Prog Unit :=
  forTo height 1 fun i => do
    forTo width 1 fun j => do
      let is_last := check_last i j width height
      let r ← get_ascii_num max_color is_last
      let g ← get_ascii_num max_color is_last
      let b ← get_ascii_num max_color is_last
      puts (fmt_3d (luminosity r g b) ++ [32])
    putchar 10

/-- `binary_to_ascii_bnw` (P4 -> P1). -/
def binary_to_ascii_bnw (width height max_color : Int) : Prog Unit :=
  forTo height 1 fun _ => do
    forTo width 8 fun j => do
      let color ← get_binary_num max_color
      forLoop (upper_bound width j) 1 (fun k (_ : Unit) =>
          puts (fmt_d (if color.toNat &&& bitmask k ≠ 0 then 1 else 0) ++ [32]))
        (upper_bound width j).toNat 1 ()
    putchar 10

/-- `binary_to_ascii_cg` (P6 -> P3 and P5 -> P2). -/
def binary_to_ascii_cg (width height max_color : Int) : Prog Unit :=
  forTo height 1 fun _ => do
    forTo width 1 fun _ => do
      let color ← get_binary_num max_color
      puts (fmt_3d color ++ [32])
    putchar 10

/-- `ascii_to_binary_bnw` (P1 -> P4). -/
def ascii_to_binary_bnw (width height max_color : Int) : Prog Unit :=
  forTo height 1 fun i =>
    forTo width 8 fun j => do
      let byte ← forLoop (upper_bound width j) 1 (fun k (byte : Nat) => do
          let is_last := check_last i (j + k - 1) width height
          let color ← get_ascii_num max_color is_last
          pure (if color == 0 then byte ^^^ bitmask k else byte))
        (upper_bound width j).toNat 1 255
      putchar byte

/-- `ascii_to_binary_cg` (P3 -> P6 and P2 -> P5). -/
def ascii_to_binary_cg (width height max_color : Int) : Prog Unit :=
  forTo height 1 fun i =>
    forTo width 1 fun j => do
      let is_last := check_last i j width height
      let color ← get_ascii_num max_color is_last
      putchar color

/-- The two builds of the program: `-DTRANSFORM` and `-DCONVERT`. -/
inductive Mode where
  | TRANSFORM
  | CONVERT
deriving DecidableEq

/-- The header fields `main` holds after its header reads. -/
structure Header where
  type : Int
  width : Int
  height : Int
  max_color : Int
deriving DecidableEq

/-- First part of `main`: magic number, comments, width, height and, unless the
type is 1 or 4, the maximum colour value.  For types 1 and 4 the variable
`max_color` is never assigned; `garbage` is the value it happens to hold. -/
def read_header (garbage : Int) : Prog Header := do
  let c ← getchar
  check_error (c != 80)
  let c2 ← getchar
  let type := c2 - 48
  check_error (type < 1 || type > 6)
  ignore_comments
  let width ← get_ascii_num 0 false
  let height ← get_ascii_num 0 false
  if type != 1 && type != 4 then do
    let max_color ← get_ascii_num 0 false
    check_error (max_color > 255)
    pure ⟨type, width, height, max_color⟩
  else pure ⟨type, width, height, garbage⟩

/-- The `TRANSFORM` part of `main`. -/
def transform (h : Header) : Prog Unit := do
  if h.type == 1 || h.type == 4 then check_error true
  else if h.type == 2 || h.type == 5 then
    puts ([80] ++ fmt_d (h.type - 1) ++ [32] ++ fmt_d h.width ++ [32] ++ fmt_d h.height ++ [10])
  else
    puts ([80] ++ fmt_d (h.type - 1) ++ [32] ++ fmt_d h.width ++ [32] ++ fmt_d h.height
      ++ [32] ++ fmt_d h.max_color ++ [10])
  if h.type == 2 then to_bnw_ascii h.width h.height h.max_color
  else if h.type == 3 then to_gray_scale_ascii h.width h.height h.max_color
  else if h.type == 5 then to_bnw_binary h.width h.height h.max_color
  else if h.type == 6 then to_gray_scale_binary h.width h.height h.max_color
  else pure ()

/-- The `CONVERT` part of `main`. -/
def convert (h : Header) : Prog Unit := do
  let new_type := if h.type > 3 then h.type - 3 else h.type + 3
  if h.type != 1 && h.type != 4 then
    puts ([80] ++ fmt_d new_type ++ [32] ++ fmt_d h.width ++ [32] ++ fmt_d h.height
      ++ [32] ++ fmt_d h.max_color ++ [10])
  else
    puts ([80] ++ fmt_d new_type ++ [32] ++ fmt_d h.width ++ [32] ++ fmt_d h.height ++ [10])
  if h.type == 1 then ascii_to_binary_bnw h.width h.height h.max_color
  else if h.type == 2 then ascii_to_binary_cg h.width h.height h.max_color
  else if h.type == 3 then ascii_to_binary_cg (wrap32 (3 * h.width)) h.height h.max_color
  else if h.type == 4 then binary_to_ascii_bnw h.width h.height h.max_color
  else if h.type == 5 then binary_to_ascii_cg h.width h.height h.max_color
  else if h.type == 6 then binary_to_ascii_cg (wrap32 (3 * h.width)) h.height h.max_color
  else pure ()

/-- The part of `main` after the header reads, for the given build. -/
def transcode (mode : Mode) (h : Header) : Prog Unit :=
  match mode with
  | .TRANSFORM => transform h
  | .CONVERT => convert h

/-- `main`. -/
def main (mode : Mode) (garbage : Int) : Prog Unit := do
  let h ← read_header garbage
  transcode mode h

/-- A run of the program on the input stream `X`, standard output empty. -/
def run (mode : Mode) (garbage : Int) (X : List Nat) : Res Unit :=
  main mode garbage ⟨X, []⟩

/-! ## Specification-side helpers -/

/-- The input with its leading white space removed. -/
def dropWs : List Nat → List Nat
  | [] => []
  | c :: cs => if isspace c then dropWs cs else c :: cs

/-- Value of a string of decimal digits. -/
def decVal (ds : List Nat) : Nat := ds.foldl (fun a d => a * 10 + (d - 48)) 0

/-- An ASCII sample as it stands in the input: its digits and the white space
that follows it. -/
structure Tok where
  digits : List Nat
  sep : List Nat
deriving DecidableEq

/-- The bytes of a token. -/
def Tok.bytes (t : Tok) : List Nat := t.digits ++ t.sep

/-- The number a token denotes. -/
def Tok.val (t : Tok) : Nat := decVal t.digits

/-- A well-formed token: at least one digit, only digits, followed by at least
one white space byte and only white space. -/
def Tok.WF (t : Tok) : Prop :=
  t.digits ≠ [] ∧ (∀ d ∈ t.digits, isdigit ((d : Nat) : Int) = true) ∧
    t.sep ≠ [] ∧ (∀ c ∈ t.sep, isspace ((c : Nat) : Int) = true)

/-- The byte the packing loops hold after the first `k` samples of a group:
it starts as `0xFF`, and sample `i` (counted from 0) clears bit `7 - i` when
its bit value `bits[i]` is false. -/
def packUpto (bits : List Bool) : Nat → Nat
  | 0 => 255
  | k + 1 => if bits.getD k true then packUpto bits k else packUpto bits k ^^^ (1 <<< (7 - k))

/-- The byte built from a group of at most eight bit values. -/
def packByte (bits : List Bool) : Nat := packUpto bits bits.length

/-- The first `n` groups of eight consecutive elements of a row (the last
group may be shorter). -/
def chunks8 {α : Type} : Nat → List α → List (List α)
  | 0, _ => []
  | n + 1, l => l.take 8 :: chunks8 n (l.drop 8)

/-- A row of bit values packed eight to a byte, most significant bit first. -/
def packRow (bits : List Bool) : List Nat :=
  (chunks8 ((bits.length + 7) / 8) bits).map packByte

/-- The bit value the gray -> bilevel reduction gives a sample: false (0,
white) when the sample exceeds `(m + 1) / 2`, true (1, black) otherwise. -/
def thresholdBit (m s : Nat) : Bool := !decide (s > (m + 1) / 2)

/-- The bytes of rows of tokens. -/
def rowsBytes (rows : List (List Tok)) : List Nat :=
  rows.flatMap (fun row => row.flatMap Tok.bytes)

/-- The bytes of a colour pixel given by its three tokens. -/
def pixBytes (p : Tok × Tok × Tok) : List Nat := p.1.bytes ++ (p.2.1.bytes ++ p.2.2.bytes)

/-- A colour pixel whose three tokens are well formed, with values up to `m`. -/
def PixOK (m : Nat) (p : Tok × Tok × Tok) : Prop :=
  (p.1.WF ∧ p.1.val ≤ m) ∧ (p.2.1.WF ∧ p.2.1.val ≤ m) ∧ (p.2.2.WF ∧ p.2.2.val ≤ m)

instance (t : Tok) : Decidable t.WF := by
  unfold Tok.WF
  infer_instance

instance (m : Nat) (p : Tok × Tok × Tok) : Decidable (PixOK m p) := by
  unfold PixOK
  infer_instance

/-- The P2 stream `P2 4 1 255\n255 0 128 129\n`. -/
def grayAsciiExample : List Nat :=
  [80, 50, 32, 52, 32, 49, 32, 50, 53, 53, 10,
    50, 53, 53, 32, 48, 32, 49, 50, 56, 32, 49, 50, 57, 10]

/-- The tokens of the one row of `grayAsciiExample`: 255, 0, 128, 129. -/
def grayAsciiExampleToks : List (List Tok) :=
  [[⟨[50, 53, 53], [32]⟩, ⟨[48], [32]⟩, ⟨[49, 50, 56], [32]⟩, ⟨[49, 50, 57], [10]⟩]]

/-- The P5 stream `P5 4 1 255\n` followed by the bytes 255, 0, 128, 129. -/
def grayBinaryExample : List Nat :=
  [80, 53, 32, 52, 32, 49, 32, 50, 53, 53, 10, 255, 0, 128, 129]

/-- The P3 stream `P3 2 2 255\n0 0 0 255 0 0\n0 255 0 0 0 255\n`. -/
def colourAsciiExample : List Nat :=
  [80, 51, 32, 50, 32, 50, 32, 50, 53, 53, 10,
    48, 32, 48, 32, 48, 32, 50, 53, 53, 32, 48, 32, 48, 10,
    48, 32, 50, 53, 53, 32, 48, 32, 48, 32, 48, 32, 50, 53, 53, 10]

/-- The pixels of `colourAsciiExample`, row by row. -/
def colourAsciiExamplePix : List (List (Tok × Tok × Tok)) :=
  [[(⟨[48], [32]⟩, ⟨[48], [32]⟩, ⟨[48], [32]⟩), (⟨[50, 53, 53], [32]⟩, ⟨[48], [32]⟩, ⟨[48], [10]⟩)],
   [(⟨[48], [32]⟩, ⟨[50, 53, 53], [32]⟩, ⟨[48], [32]⟩), (⟨[48], [32]⟩, ⟨[48], [32]⟩, ⟨[50, 53, 53], [10]⟩)]]

/-- The P6 stream `P6 2 2 255\n` followed by the pixels (0,0,0), (255,0,0),
(0,255,0), (0,0,255). -/
def colourBinaryExample : List Nat :=
  [80, 54, 32, 50, 32, 50, 32, 50, 53, 53, 10, 0, 0, 0, 255, 0, 0, 0, 255, 0, 0, 0, 255]

/-- What the loop of `ignore_comments` does after the newline that ends a
comment: the white space is skipped, a digit ends the loop, a `#` starts the
next comment, anything else (or the end of the stream) ends the process. -/
def afterNewline (fuel : Nat) (rest out : List Nat) : Res Int :=
  match dropWs rest with
  | [] => .exit out
  | d :: ds =>
    if isdigit (d : Int) then .ok (d : Int) ⟨ds, out⟩
    else if d = 35 then ignore_comments_loop fuel false ⟨d :: ds, out⟩
    else .exit out

/-- Header text with comments: each segment is a run of white space followed by
a comment `#...\n` whose body is the second component. -/
def withComments (segs : List (List Nat × List Nat)) : List Nat :=
  segs.flatMap (fun p => p.1 ++ 35 :: (p.2 ++ [10]))

/-- The same header text with the comments removed: only the white space runs
remain. -/
def withoutComments (segs : List (List Nat × List Nat)) : List Nat :=
  segs.flatMap (fun p => p.1)

/-- Number of complete tokens of an input: the places where a byte that is not
white space is followed by a white space byte. -/
def termTokens : List Nat → Nat
  | [] => 0
  | [_] => 0
  | a :: b :: rest =>
    (if !isspace (a : Int) && isspace (b : Int) then 1 else 0) + termTokens (b :: rest)

/-- Number of tokens of an input: its maximal runs of bytes that are not white
space. -/
def tokenCount : List Nat → Nat
  | [] => 0
  | [a] => if isspace (a : Int) then 0 else 1
  | a :: b :: rest =>
    (if !isspace (a : Int) && isspace (b : Int) then 1 else 0) + tokenCount (b :: rest)

/-- A piece of the program that, whenever it returns from an input satisfying
`I`, leaves an input satisfying `I` on which the measure `μ` is smaller by at
least `c`. -/
def Consumes {α : Type} (I : List Nat → Prop) (μ : List Nat → Nat) (c : Nat) (x : Prog α) : Prop :=
  ∀ s a s', I s.inp → x s = .ok a s' → I s'.inp ∧ μ s'.inp + c ≤ μ s.inp

/-- The tokens of a row of a colour image grouped into pixels. -/
def triples : List Tok → List (Tok × Tok × Tok)
  | a :: b :: c :: rest => (a, b, c) :: triples rest
  | _ => []

/-- The P2 stream `P2 2 1 255\n7 9`: the stream ends after the last digit. -/
def endAtDigitExample : List Nat := [80, 50, 32, 50, 32, 49, 32, 50, 53, 53, 10, 55, 32, 57]

/-- The header the program writes: `P<t> <w> <h> <m>\n`. -/
def headerText (t w h m : Nat) : List Nat :=
  80 :: (decDigits t ++ 32 :: (decDigits w ++ 32 :: (decDigits h ++ 32 :: (decDigits m ++ [10]))))

/-- The ASCII pixel data the program writes: every sample as `%3d` and a space,
a newline after every row. -/
def asciiData (rows : List (List Nat)) : List Nat :=
  rows.flatMap (fun row => row.flatMap (fun v => fmt_3d (v : Int) ++ [32]) ++ [10])

/-- RADIX-CONVERT applied twice: the CONVERT build run on the input, then, if
that run returns, run again on what it wrote. -/
def convertTwice (g : Int) (X : List Nat) : Res Unit :=
  match run .CONVERT g X with
  | .ok _ s => run .CONVERT g s.out
  | .exit o => .exit o
  | .stuck => .stuck

/-- One row of ten P1 tokens: `1 0 1 1 0 0 0 1 1 0 `. -/
def bilevelRowExample : List (List Tok) :=
  [[⟨[49], [32]⟩, ⟨[48], [32]⟩, ⟨[49], [32]⟩, ⟨[49], [32]⟩, ⟨[48], [32]⟩,
    ⟨[48], [32]⟩, ⟨[48], [32]⟩, ⟨[49], [32]⟩, ⟨[49], [32]⟩, ⟨[48], [32]⟩]]

/-- A piece of the program that writes nothing: when it returns the output is
what it was, and when it ends the process the output is what it was. -/
def Silent {α : Type} (x : Prog α) : Prop :=
  ∀ s, (∀ a s', x s = .ok a s' → s'.out = s.out) ∧ (∀ o, x s = .exit o → o = s.out)

/-- The variable `new_type` of the `CONVERT` part of `main`: a binary type
(above 3) goes to `type - 3`, an ASCII type to `type + 3`. -/
def new_type (type : Int) : Int := if type > 3 then type - 3 else type + 3

/-- The type number in the output header: `type - 1` in the `TRANSFORM` build,
`new_type` in the `CONVERT` build. -/
def target_type (mode : Mode) (type : Int) : Int :=
  match mode with
  | .TRANSFORM => type - 1
  | .CONVERT => new_type type

/-- A piece of the program that only adds to the output: when it returns, the
output is what it was followed by what it wrote. -/
def Appends {α : Type} (x : Prog α) : Prop :=
  ∀ s a s', x s = .ok a s' → ∃ d, s'.out = s.out ++ d

/-- The P5 stream `P5 2 1 255\n` followed by the bytes 7 and 200. -/
def headerShapeExample : List Nat := [80, 53, 32, 50, 32, 49, 32, 50, 53, 53, 10, 7, 200]

/-- The bit values of the first `w` columns of a packed row: column `c` is bit
`7 - c % 8` of byte number `c / 8`. -/
def rowBits (w : Nat) (row : List Nat) : List Bool :=
  (List.range w).map (fun c => (row.getD (c / 8) 0).testBit (7 - c % 8))

/-- The P1 tokens of a row of bit values: `1 ` for a set bit, `0 ` for a clear
one. -/
def bitTokens (bits : List Bool) : List Nat :=
  bits.flatMap (fun b => [if b then 49 else 48, 32])

/-- The header line a run writes for the header fields it has read: `P`, the
target type, the width, the height and, unless the target type is 1 or 4, the
maximum, separated by single spaces and ended by a newline. -/
def outputHeader (mode : Mode) (hd : Header) : List Nat :=
  [80] ++ fmt_d (target_type mode hd.type) ++ [32] ++ fmt_d hd.width ++ [32] ++ fmt_d hd.height
    ++ (if target_type mode hd.type = 1 ∨ target_type mode hd.type = 4 then []
      else [32] ++ fmt_d hd.max_color)
    ++ [10]

/-- The path P5 -> P2 -> P1 -> P4: the `CONVERT` build, the `TRANSFORM` build on
what it wrote, and the `CONVERT` build on what that wrote.  Every run is a
process of its own; `g` is the value the unassigned `max_color` holds in the
last one, which reads a stream of type 1. -/
def downsampleByPath (g : Int) (X : List Nat) : Res Unit :=
  match run .CONVERT g X with
  | .ok _ s1 =>
    match run .TRANSFORM g s1.out with
    | .ok _ s2 => run .CONVERT g s2.out
    | .exit o => .exit o
    | .stuck => .stuck
  | .exit o => .exit o
  | .stuck => .stuck

/-- The P5 stream `P5 2 1 255\n` followed by the bytes 200 and 7. -/
def grayPairExample : List Nat := [80, 53, 32, 50, 32, 49, 32, 50, 53, 53, 10, 200, 7]

/-- The tokens of a row of bit values as `to_bnw_ascii` writes it: every sample
is one digit followed by a space, and the newline that ends the row belongs to
the white space after the last sample. -/
def bitToks : List Bool → List Tok
  | [] => []
  | [b] => [⟨[if b then 49 else 48], [32, 10]⟩]
  | b :: b2 :: bs => ⟨[if b then 49 else 48], [32]⟩ :: bitToks (b2 :: bs)

/-- A piece of the program that, whenever it returns, has consumed only bytes
that pass the range check of `get_binary_num` against `mc`. -/
def ReadsUpTo {α : Type} (mc : Int) (x : Prog α) : Prop :=
  ∀ s a s', x s = .ok a s' → ∃ pre : List Nat, s.inp = pre ++ s'.inp ∧ ∀ v ∈ pre, (v : Int) ≤ mc

/-! ## Sequencing and loops -/

theorem pure_apply {α : Type} (a : α) (s : St) : (pure a : Prog α) s = .ok a s := rfl

theorem bind_apply {α β : Type} (x : Prog α) (f : α → Prog β) (s : St) :
    (x >>= f) s = match x s with
      | .ok a s' => f a s'
      | .exit o => .exit o
      | .stuck => .stuck := rfl

theorem bind_ok {α β : Type} {x : Prog α} {f : α → Prog β} {s s' : St} {a : α}
    (h : x s = .ok a s') : (x >>= f) s = f a s' := by
  rw [bind_apply, h]

theorem bind_exit {α β : Type} {x : Prog α} {f : α → Prog β} {s : St} {o : List Nat}
    (h : x s = .exit o) : (x >>= f) s = .exit o := by
  rw [bind_apply, h]

theorem bind_stuck {α β : Type} {x : Prog α} {f : α → Prog β} {s : St}
    (h : x s = .stuck) : (x >>= f) s = .stuck := by
  rw [bind_apply, h]

theorem forLoop_zero {β : Type} (hi step : Int) (body : Int → β → Prog β) (i : Int) (b : β) :
    forLoop hi step body 0 i b = (if i ≤ hi then (fun _ => .stuck) else pure b : Prog β) := rfl

theorem forLoop_succ {β : Type} (hi step : Int) (body : Int → β → Prog β) (fuel : Nat) (i : Int) (b : β) :
    forLoop hi step body (fuel + 1) i b =
      if i ≤ hi then (body i b >>= fun b2 =>
        if i + step > 2147483647 then (fun _ => Res.stuck)
        else forLoop hi step body fuel (i + step) b2) else pure b := rfl

theorem forLoop_round {β : Type} (hi step : Int) (body : Int → β → Prog β) (fuel : Nat) (i : Int)
    (b : β) (h : i ≤ hi) (hmax : i + step ≤ 2147483647) :
    forLoop hi step body (fuel + 1) i b =
      (body i b >>= fun b2 => forLoop hi step body fuel (i + step) b2) := by
  rw [forLoop_succ, if_pos h]
  congr 1
  funext b2
  rw [if_neg (by omega)]

theorem forLoop_overflow {β : Type} (hi step : Int) (body : Int → β → Prog β) (fuel : Nat) (i : Int)
    (b : β) (s : St) (h : i ≤ hi) (hmax : 2147483647 < i + step) :
    ∀ b2 s2, body i b s = .ok b2 s2 → forLoop hi step body (fuel + 1) i b s = .stuck := by
  intro b2 s2 hb
  rw [forLoop_succ, if_pos h, bind_ok hb, if_pos (by omega)]

theorem forLoop_done {β : Type} (hi step : Int) (body : Int → β → Prog β) (fuel : Nat) (i : Int)
    (b : β) (s : St) (h : ¬ i ≤ hi) : forLoop hi step body fuel i b s = .ok b s := by
  cases fuel <;> simp [forLoop_zero, forLoop_succ, h, pure_apply]

theorem forLoop_ok {β : Type} (hi step : Int) (body : Int → β → Prog β) (n : Nat) :
    ∀ (fuel : Nat) (start : Int) (σ : Nat → β × St), n ≤ fuel →
      (∀ k, k < n → start + k * step ≤ hi) → ¬ (start + n * step ≤ hi) →
      (∀ k, k < n → start + k * step + step ≤ 2147483647) →
      (∀ k, k < n → body (start + k * step) (σ k).1 (σ k).2 = .ok (σ (k + 1)).1 (σ (k + 1)).2) →
      forLoop hi step body fuel start (σ 0).1 (σ 0).2 = .ok (σ n).1 (σ n).2 := by
  induction n with
  | zero =>
    intro fuel start σ _ _ hend _ _
    exact forLoop_done _ _ _ _ _ _ _ (by simpa using hend)
  | succ n ih =>
    intro fuel start σ hfuel hle hend hmax hbody
    obtain ⟨f, rfl⟩ : ∃ f, fuel = f + 1 := ⟨fuel - 1, by omega⟩
    have h0 : start ≤ hi := by simpa using hle 0 (by omega)
    have hm0 : start + step ≤ 2147483647 := by simpa using hmax 0 (by omega)
    have hb0 := hbody 0 (by omega)
    simp only [Nat.cast_zero, zero_mul, add_zero, zero_add] at hb0
    rw [forLoop_round _ _ _ _ _ _ h0 hm0, bind_ok hb0]
    have := ih f (start + step) (fun k => σ (k + 1)) (by omega)
      (fun k hk => by have := hle (k + 1) (by omega); push_cast at this; linarith)
      (by intro h; apply hend; push_cast; linarith)
      (fun k hk => by have := hmax (k + 1) (by omega); push_cast at this; linarith)
      (fun k hk => by
        have := hbody (k + 1) (by omega)
        have e : start + step + (k : Int) * step = start + ((k + 1 : Nat) : Int) * step := by
          push_cast; ring
        rw [e]; exact this)
    simpa using this

theorem forLoop_exit {β : Type} (hi step : Int) (body : Int → β → Prog β) (n : Nat) (o : List Nat) :
    ∀ (fuel : Nat) (start : Int) (σ : Nat → β × St), n < fuel →
      (∀ k, k ≤ n → start + k * step ≤ hi) →
      (∀ k, k < n → start + k * step + step ≤ 2147483647) →
      (∀ k, k < n → body (start + k * step) (σ k).1 (σ k).2 = .ok (σ (k + 1)).1 (σ (k + 1)).2) →
      body (start + n * step) (σ n).1 (σ n).2 = .exit o →
      forLoop hi step body fuel start (σ 0).1 (σ 0).2 = .exit o := by
  induction n with
  | zero =>
    intro fuel start σ hfuel hle _ _ hex
    obtain ⟨f, rfl⟩ : ∃ f, fuel = f + 1 := ⟨fuel - 1, by omega⟩
    have h0 : start ≤ hi := by simpa using hle 0 (by omega)
    simp only [Nat.cast_zero, zero_mul, add_zero] at hex
    rw [forLoop_succ, if_pos h0, bind_exit hex]
  | succ n ih =>
    intro fuel start σ hfuel hle hmax hbody hex
    obtain ⟨f, rfl⟩ : ∃ f, fuel = f + 1 := ⟨fuel - 1, by omega⟩
    have h0 : start ≤ hi := by simpa using hle 0 (by omega)
    have hm0 : start + step ≤ 2147483647 := by simpa using hmax 0 (by omega)
    have hb0 := hbody 0 (by omega)
    simp only [Nat.cast_zero, zero_mul, add_zero, zero_add] at hb0
    rw [forLoop_round _ _ _ _ _ _ h0 hm0, bind_ok hb0]
    have := ih f (start + step) (fun k => σ (k + 1)) (by omega)
      (fun k hk => by have := hle (k + 1) (by omega); push_cast at this; linarith)
      (fun k hk => by have := hmax (k + 1) (by omega); push_cast at this; linarith)
      (fun k hk => by
        have := hbody (k + 1) (by omega)
        have e : start + step + (k : Int) * step = start + ((k + 1 : Nat) : Int) * step := by
          push_cast; ring
        rw [e]; exact this)
      (by
        have e : start + step + (n : Int) * step = start + ((n + 1 : Nat) : Int) * step := by
          push_cast; ring
        rw [e]; exact hex)
    simpa using this

theorem forLoop_inv {β : Type} (hi step : Int) (body : Int → β → Prog β) (start : Int)
    (P : Nat → β → St → Prop)
    (hP : ∀ j b s b' s', P j b s → start + j * step ≤ hi →
      body (start + j * step) b s = .ok b' s' → P (j + 1) b' s') :
    ∀ (fuel k : Nat) (b : β) (s : St) (b' : β) (s' : St), P k b s →
      forLoop hi step body fuel (start + k * step) b s = .ok b' s' →
      ∃ n, k ≤ n ∧ P n b' s' ∧ ¬ (start + n * step ≤ hi) ∧
        ∀ j, k ≤ j → j < n →
          start + j * step ≤ hi ∧ start + j * step + step ≤ 2147483647 := by
  intro fuel
  induction fuel with
  | zero =>
    intro k b s b' s' hk h
    rw [forLoop_zero] at h
    by_cases hc : start + k * step ≤ hi
    · simp [hc] at h
    · simp only [hc, if_false, pure_apply, Res.ok.injEq] at h
      obtain ⟨rfl, rfl⟩ := h
      exact ⟨k, le_refl _, hk, hc, fun j h1 h2 => by omega⟩
  | succ f ih =>
    intro k b s b' s' hk h
    rw [forLoop_succ] at h
    by_cases hc : start + k * step ≤ hi
    · simp only [hc, if_true, bind_apply] at h
      cases hb : body (start + k * step) b s with
      | ok b2 s2 =>
        rw [hb] at h
        by_cases hov : start + (k : Int) * step + step > 2147483647
        · simp [hov] at h
        · simp only [hov, if_false] at h
          have e : start + (k : Int) * step + step = start + ((k + 1 : Nat) : Int) * step := by
            push_cast; ring
          simp only [e] at h
          obtain ⟨n, hn, hPn, hend, hall⟩ := ih (k + 1) b2 s2 b' s' (hP k b s b2 s2 hk hc hb) h
          refine ⟨n, by omega, hPn, hend, fun j h1 h2 => ?_⟩
          by_cases hj : j = k
          · subst hj; exact ⟨hc, by omega⟩
          · exact hall j (by omega) h2
      | exit o => rw [hb] at h; simp at h
      | stuck => rw [hb] at h; simp at h
    · simp only [hc, if_false, pure_apply, Res.ok.injEq] at h
      obtain ⟨rfl, rfl⟩ := h
      exact ⟨k, le_refl _, hk, hc, fun j h1 h2 => by omega⟩

/-- A loop whose counter stays in the range of `int` (by an invariant `Q` of
the counter) and whose body is followed to its end is followed to its end. -/
theorem forLoop_ne_stuck {β : Type} (hi step : Int) (hstep : 1 ≤ step) (Q : Int → Prop)
    (hQ : ∀ i, Q i → i ≤ hi → i + step ≤ 2147483647 ∧ Q (i + step))
    (body : Int → β → Prog β)
    (hbody : ∀ i b s, body i b s ≠ .stuck) :
    ∀ (fuel : Nat) (i : Int) (b : β) (s : St), Q i → (hi + 1 - i).toNat ≤ fuel →
      forLoop hi step body fuel i b s ≠ .stuck := by
  intro fuel
  induction fuel with
  | zero =>
    intro i b s _ hf
    rw [forLoop_zero]
    have : ¬ i ≤ hi := by omega
    simp [this, pure_apply]
  | succ f ih =>
    intro i b s hq hf
    rw [forLoop_succ]
    by_cases hc : i ≤ hi
    · simp only [hc, if_true, bind_apply]
      cases hb : body i b s with
      | ok b2 s2 =>
        have hov : ¬ (i + step > 2147483647) := by have := (hQ i hq hc).1; omega
        simp only [hov, if_false]
        exact ih _ _ _ (hQ i hq hc).2 (by omega)
      | exit o => simp
      | stuck => exact absurd hb (hbody _ _ _)
    · simp [hc, pure_apply]

/-! ## Primitive steps -/

theorem getchar_nil (out : List Nat) : getchar ⟨[], out⟩ = .ok EOF ⟨[], out⟩ := rfl

theorem getchar_cons (c : Nat) (cs out : List Nat) :
    getchar ⟨c :: cs, out⟩ = .ok (c : Int) ⟨cs, out⟩ := rfl

theorem check_error_false (s : St) : check_error false s = .ok () s := rfl

theorem check_error_true (s : St) : check_error true s = .exit s.out := rfl

theorem putchar_apply (c : Int) (inp out : List Nat) :
    putchar c ⟨inp, out⟩ = .ok () ⟨inp, out ++ [(c % 256).toNat]⟩ := rfl

theorem puts_apply (bs inp out : List Nat) : puts bs ⟨inp, out⟩ = .ok () ⟨inp, out ++ bs⟩ := rfl

theorem natCast_ne_EOF (c : Nat) : ((c : Int) == EOF) = false := by
  simp only [EOF, beq_eq_false_iff_ne, ne_eq]; omega

theorem isspace_EOF : isspace EOF = false := by decide

theorem isdigit_EOF : isdigit EOF = false := by decide

theorem isspace_of_isdigit {c : Int} (h : isdigit c = true) : isspace c = false := by
  simp only [isdigit, isspace, Bool.and_eq_true, decide_eq_true_eq, Bool.or_eq_false_iff,
    beq_eq_false_iff_ne, ne_eq, Bool.and_eq_false_iff, decide_eq_false_iff_not] at *
  omega

/-! ## White space -/

theorem dropWs_idem (l : List Nat) : dropWs (dropWs l) = dropWs l := by
  induction l with
  | nil => rfl
  | cons c cs ih =>
    by_cases h : isspace (c : Int) = true
    · simp [dropWs, h, ih]
    · simp [dropWs, h]

theorem dropWs_cons_of_not_space {c : Nat} (cs : List Nat) (h : isspace (c : Int) = false) :
    dropWs (c :: cs) = c :: cs := by simp [dropWs, h]

theorem dropWs_cons_of_space {c : Nat} (cs : List Nat) (h : isspace (c : Int) = true) :
    dropWs (c :: cs) = dropWs cs := by simp [dropWs, h]

theorem dropWs_append_of_spaces (ws rest : List Nat) (h : ∀ c ∈ ws, isspace ((c : Nat) : Int) = true) :
    dropWs (ws ++ rest) = dropWs rest := by
  induction ws with
  | nil => rfl
  | cons c cs ih =>
    have hc := h c (List.mem_cons_self _ _)
    simp only [List.cons_append, dropWs, hc, if_true]
    exact ih (fun d hd => h d (List.mem_cons_of_mem _ hd))

theorem ignore_whitespace_loop_eq (l : List Nat) :
    ignore_whitespace_loop l =
      match dropWs l with
      | [] => (EOF, [])
      | c :: cs => ((c : Int), cs) := by
  induction l with
  | nil => rfl
  | cons c cs ih =>
    by_cases h : isspace (c : Int) = true
    · simp only [ignore_whitespace_loop, dropWs, h, if_true]; exact ih
    · simp [ignore_whitespace_loop, dropWs, h]

/-- Effect of `ignore_whitespace`: the leading white space is consumed; the
process ends if that reaches the end of the stream and `finished` is false. -/
theorem ignore_whitespace_eq (finished : Bool) (inp out : List Nat) :
    ignore_whitespace finished ⟨inp, out⟩ =
      if dropWs inp = [] ∧ finished = false then .exit out else .ok 0 ⟨dropWs inp, out⟩ := by
  unfold ignore_whitespace
  simp only [ignore_whitespace_loop_eq]
  cases hd : dropWs inp with
  | nil =>
    cases finished
    · simp [bind_apply, check_error, EOF]
    · simp [bind_apply, check_error, EOF, ungetc, pure_apply]
  | cons c cs =>
    simp [bind_apply, check_error, natCast_ne_EOF, ungetc, pure_apply, EOF]

/-! ## Reading a decimal number -/

theorem wrap32_of_lt {x : Int} (h0 : 0 ≤ x) (h1 : x < 2147483648) : wrap32 x = x := by
  unfold wrap32; omega

theorem decVal_foldl_mono (ds : List Nat) (a : Nat) :
    a ≤ ds.foldl (fun a d => a * 10 + (d - 48)) a := by
  induction ds generalizing a with
  | nil => simp
  | cons d ds ih =>
    simp only [List.foldl_cons]
    exact le_trans (by omega) (ih _)

theorem get_ascii_num_loop_digits (ds : List Nat) (c : Nat) (rest : List Nat)
    (hds : ∀ d ∈ ds, isdigit ((d : Nat) : Int) = true) (hc : isspace (c : Int) = true) :
    ∀ a : Nat, ds.foldl (fun a d => a * 10 + (d - 48)) a < 2147483648 →
      get_ascii_num_loop (ds ++ c :: rest) (a : Int) =
        some ((c : Int), ((ds.foldl (fun a d => a * 10 + (d - 48)) a : Nat) : Int), rest) := by
  induction ds with
  | nil => intro a _; simp [get_ascii_num_loop, hc]
  | cons d ds ih =>
    intro a ha
    have hd := hds d (List.mem_cons_self _ _)
    have hsp := isspace_of_isdigit hd
    simp only [List.foldl_cons] at ha ⊢
    have hm := decVal_foldl_mono ds (a * 10 + (d - 48))
    have hd' : 48 ≤ d ∧ d ≤ 57 := by
      simp only [isdigit, Bool.and_eq_true, decide_eq_true_eq] at hd; omega
    have e : wrap32 ((a : Int) * 10 + ((d : Int) - 48)) = ((a * 10 + (d - 48) : Nat) : Int) := by
      rw [wrap32_of_lt] <;> push_cast <;> omega
    simp only [List.cons_append, get_ascii_num_loop, hsp, hd, Bool.not_true, if_false,
      Bool.false_eq_true, e]
    exact ih (fun x hx => hds x (List.mem_cons_of_mem _ hx)) _ ha

theorem get_ascii_num_loop_no_space (l : List Nat) (h : ∀ c ∈ l, isspace ((c : Nat) : Int) = false) :
    ∀ num : Int, get_ascii_num_loop l num = none := by
  induction l with
  | nil => intro num; rfl
  | cons c cs ih =>
    intro num
    simp only [get_ascii_num_loop, h c (List.mem_cons_self _ _), Bool.false_eq_true, if_false]
    split
    · rfl
    · exact ih (fun d hd => h d (List.mem_cons_of_mem _ hd)) _

/-- Reading a number: digits `ds` followed by the white space byte `c`.  The
white space after `c` is consumed as well. -/
theorem get_ascii_num_digits (max_color : Int) (finished : Bool) (ds : List Nat) (c : Nat)
    (rest out : List Nat)
    (hds : ∀ d ∈ ds, isdigit ((d : Nat) : Int) = true) (hc : isspace (c : Int) = true)
    (hv : decVal ds < 2147483648)
    (hm : max_color = 0 ∨ (decVal ds : Int) ≤ max_color) :
    get_ascii_num max_color finished ⟨ds ++ c :: rest, out⟩ =
      if dropWs rest = [] ∧ finished = false then .exit out
      else .ok (decVal ds : Int) ⟨dropWs rest, out⟩ := by
  unfold get_ascii_num
  have := get_ascii_num_loop_digits ds c rest hds hc 0 hv
  simp only [Nat.cast_zero] at this
  simp only [this]
  have h2 : (max_color != 0 && decide ((decVal ds : Int) > max_color)) = false := by
    rcases hm with h | h
    · simp [h]
    · simp only [Bool.and_eq_false_iff, decide_eq_false_iff_not, not_lt]
      right; simpa using h
  have h3 : ((ds.foldl (fun a d => a * 10 + (d - 48)) 0 : Nat) : Int) = (decVal ds : Int) := rfl
  simp only [h3, bind_apply, natCast_ne_EOF, check_error_false, h2, ignore_whitespace_eq]
  split_ifs <;> simp [pure_apply]

theorem get_ascii_num_no_space (max_color : Int) (finished : Bool) (l out : List Nat)
    (h : ∀ c ∈ l, isspace ((c : Nat) : Int) = false) :
    get_ascii_num max_color finished ⟨l, out⟩ = .exit out := by
  unfold get_ascii_num
  simp [get_ascii_num_loop_no_space l h]

theorem get_ascii_num_too_big (max_color : Int) (finished : Bool) (ds : List Nat) (c : Nat)
    (rest out : List Nat)
    (hds : ∀ d ∈ ds, isdigit ((d : Nat) : Int) = true) (hc : isspace (c : Int) = true)
    (hv : decVal ds < 2147483648)
    (hm : max_color ≠ 0 ∧ max_color < (decVal ds : Int)) :
    get_ascii_num max_color finished ⟨ds ++ c :: rest, out⟩ = .exit out := by
  unfold get_ascii_num
  have := get_ascii_num_loop_digits ds c rest hds hc 0 hv
  simp only [Nat.cast_zero] at this
  simp only [this]
  have h3 : ((ds.foldl (fun a d => a * 10 + (d - 48)) 0 : Nat) : Int) = (decVal ds : Int) := rfl
  have h2 : (max_color != 0 && decide ((decVal ds : Int) > max_color)) = true := by
    simp [hm.1, hm.2]
  simp [h3, bind_apply, natCast_ne_EOF, check_error_false, h2, check_error_true]

/-- Reading a raw byte. -/
theorem get_binary_num_cons (max_color : Int) (c : Nat) (cs out : List Nat) :
    get_binary_num max_color ⟨c :: cs, out⟩ =
      if (c : Int) > max_color then .exit out else .ok (c : Int) ⟨cs, out⟩ := by
  unfold get_binary_num
  simp only [bind_apply, getchar_cons, natCast_ne_EOF, check_error_false]
  by_cases h : (c : Int) > max_color
  · simp [h, check_error_true]
  · simp [h, check_error_false, pure_apply]

theorem get_binary_num_nil (max_color : Int) (out : List Nat) :
    get_binary_num max_color ⟨[], out⟩ = .exit out := by
  unfold get_binary_num
  simp [bind_apply, getchar_nil, check_error, EOF]

/-! ## Loops driven by a list of items -/

/-- A loop whose round `k` consumes the encoding of the `k`-th item and writes
what that item produces. -/
theorem forLoop_items {γ : Type} (hi step start : Int) (body : Int → Unit → Prog Unit)
    (xs : List γ) (enc emit : γ → List Nat) (tail : List Nat)
    (hle : ∀ k : Nat, k < xs.length → start + k * step ≤ hi)
    (hend : ¬ (start + xs.length * step ≤ hi))
    (hmax : ∀ k : Nat, k < xs.length → start + k * step + step ≤ 2147483647)
    (hbody : ∀ (k : Nat) (hk : k < xs.length) (out : List Nat),
      body (start + k * step) () ⟨enc xs[k] ++ ((xs.drop (k + 1)).flatMap enc ++ tail), out⟩
        = .ok () ⟨(xs.drop (k + 1)).flatMap enc ++ tail, out ++ emit xs[k]⟩)
    (fuel : Nat) (hfuel : xs.length ≤ fuel) (out : List Nat) :
    forLoop hi step body fuel start () ⟨xs.flatMap enc ++ tail, out⟩
      = .ok () ⟨tail, out ++ xs.flatMap emit⟩ := by
  have := forLoop_ok hi step body xs.length fuel start
    (fun k => ((), ⟨(xs.drop k).flatMap enc ++ tail, out ++ (xs.take k).flatMap emit⟩))
    hfuel hle hend hmax
    (fun k hk => by
      simp only
      have e1 : xs.drop k = xs[k] :: xs.drop (k + 1) := List.drop_eq_getElem_cons hk
      have e2 : xs.take (k + 1) = xs.take k ++ [xs[k]] := by
        rw [List.take_succ, List.getElem?_eq_getElem hk]; rfl
      rw [e1, e2, List.flatMap_cons, List.flatMap_append, List.flatMap_singleton,
        List.append_assoc, hbody k hk, List.append_assoc])
  simpa using this

/-- A loop that ends the process in round `n`, after `n` rounds that each
consumed one item. -/
theorem forLoop_items_exit {γ : Type} (hi step start : Int) (body : Int → Unit → Prog Unit)
    (xs : List γ) (enc emit : γ → List Nat) (tail : List Nat) (o : List Nat)
    (hle : ∀ k : Nat, k ≤ xs.length → start + k * step ≤ hi)
    (hmax : ∀ k : Nat, k < xs.length → start + k * step + step ≤ 2147483647)
    (hbody : ∀ (k : Nat) (hk : k < xs.length) (out : List Nat),
      body (start + k * step) () ⟨enc xs[k] ++ ((xs.drop (k + 1)).flatMap enc ++ tail), out⟩
        = .ok () ⟨(xs.drop (k + 1)).flatMap enc ++ tail, out ++ emit xs[k]⟩)
    (out : List Nat)
    (hex : body (start + xs.length * step) () ⟨tail, out ++ xs.flatMap emit⟩ = .exit o)
    (fuel : Nat) (hfuel : xs.length < fuel) :
    forLoop hi step body fuel start () ⟨xs.flatMap enc ++ tail, out⟩ = .exit o := by
  have := forLoop_exit hi step body xs.length o fuel start
    (fun k => ((), ⟨(xs.drop k).flatMap enc ++ tail, out ++ (xs.take k).flatMap emit⟩))
    hfuel hle hmax
    (fun k hk => by
      simp only
      have e1 : xs.drop k = xs[k] :: xs.drop (k + 1) := List.drop_eq_getElem_cons hk
      have e2 : xs.take (k + 1) = xs.take k ++ [xs[k]] := by
        rw [List.take_succ, List.getElem?_eq_getElem hk]; rfl
      rw [e1, e2, List.flatMap_cons, List.flatMap_append, List.flatMap_singleton,
        List.append_assoc, hbody k hk, List.append_assoc])
    (by simpa using hex)
  simpa using this

/-- `for (i = 1; i <= n; i++)` over `n` items. -/
theorem forTo_items {γ : Type} (body : Int → Prog Unit) (xs : List γ) (enc emit : γ → List Nat)
    (tail : List Nat) (hmax : xs.length < 2147483647)
    (hbody : ∀ (k : Nat) (hk : k < xs.length) (out : List Nat),
      body ((k : Int) + 1) ⟨enc xs[k] ++ ((xs.drop (k + 1)).flatMap enc ++ tail), out⟩
        = .ok () ⟨(xs.drop (k + 1)).flatMap enc ++ tail, out ++ emit xs[k]⟩)
    (out : List Nat) :
    forTo (xs.length : Int) 1 body ⟨xs.flatMap enc ++ tail, out⟩
      = .ok () ⟨tail, out ++ xs.flatMap emit⟩ := by
  unfold forTo
  apply forLoop_items
  · intro k hk; omega
  · omega
  · intro k hk; omega
  · intro k hk out
    have e : (1 : Int) + (k : Int) * 1 = (k : Int) + 1 := by ring
    rw [e]; exact hbody k hk out
  · simp

/-- `for (i = 1; i <= n; i++)` ending the process in round `m + 1 ≤ n`. -/
theorem forTo_items_exit {γ : Type} (n : Nat) (body : Int → Prog Unit) (xs : List γ)
    (enc emit : γ → List Nat) (tail : List Nat) (o : List Nat) (hn : xs.length < n)
    (hmax : n ≤ 2147483647)
    (hbody : ∀ (k : Nat) (hk : k < xs.length) (out : List Nat),
      body ((k : Int) + 1) ⟨enc xs[k] ++ ((xs.drop (k + 1)).flatMap enc ++ tail), out⟩
        = .ok () ⟨(xs.drop (k + 1)).flatMap enc ++ tail, out ++ emit xs[k]⟩)
    (out : List Nat)
    (hex : body ((xs.length : Int) + 1) ⟨tail, out ++ xs.flatMap emit⟩ = .exit o) :
    forTo (n : Int) 1 body ⟨xs.flatMap enc ++ tail, out⟩ = .exit o := by
  unfold forTo
  apply forLoop_items_exit _ _ _ _ xs enc emit tail o
  · intro k hk; omega
  · intro k hk; omega
  · intro k hk out
    have e : (1 : Int) + (k : Int) * 1 = (k : Int) + 1 := by ring
    rw [e]; exact hbody k hk out
  · have e : (1 : Int) + (xs.length : Int) * 1 = (xs.length : Int) + 1 := by ring
    rw [e]; exact hex
  · simpa using hn

/-- A loop whose first `n` rounds return and whose round `n` returns as well,
after which the increment of the counter leaves the range of `int`. -/
theorem forLoop_stuck_after {β : Type} (hi step : Int) (body : Int → β → Prog β) (n : Nat) :
    ∀ (fuel : Nat) (start : Int) (σ : Nat → β × St), n < fuel →
      (∀ k, k ≤ n → start + k * step ≤ hi) →
      (∀ k, k < n → start + k * step + step ≤ 2147483647) →
      2147483647 < start + n * step + step →
      (∀ k, k ≤ n → body (start + k * step) (σ k).1 (σ k).2 = .ok (σ (k + 1)).1 (σ (k + 1)).2) →
      forLoop hi step body fuel start (σ 0).1 (σ 0).2 = .stuck := by
  induction n with
  | zero =>
    intro fuel start σ hfuel hle _ hov hbody
    obtain ⟨f, rfl⟩ : ∃ f, fuel = f + 1 := ⟨fuel - 1, by omega⟩
    have h0 : start ≤ hi := by simpa using hle 0 (by omega)
    have hb0 := hbody 0 (by omega)
    simp only [Nat.cast_zero, zero_mul, add_zero, zero_add] at hb0 hov
    exact forLoop_overflow _ _ _ _ _ _ _ h0 hov _ _ hb0
  | succ n ih =>
    intro fuel start σ hfuel hle hmax hov hbody
    obtain ⟨f, rfl⟩ : ∃ f, fuel = f + 1 := ⟨fuel - 1, by omega⟩
    have h0 : start ≤ hi := by simpa using hle 0 (by omega)
    have hm0 : start + step ≤ 2147483647 := by simpa using hmax 0 (by omega)
    have hb0 := hbody 0 (by omega)
    simp only [Nat.cast_zero, zero_mul, add_zero, zero_add] at hb0
    rw [forLoop_round _ _ _ _ _ _ h0 hm0, bind_ok hb0]
    have := ih f (start + step) (fun k => σ (k + 1)) (by omega)
      (fun k hk => by have := hle (k + 1) (by omega); push_cast at this; linarith)
      (fun k hk => by have := hmax (k + 1) (by omega); push_cast at this; linarith)
      (by push_cast at hov; linarith)
      (fun k hk => by
        have := hbody (k + 1) (by omega)
        have e : start + step + (k : Int) * step = start + ((k + 1 : Nat) : Int) * step := by
          push_cast; ring
        rw [e]; exact this)
    simpa using this

/-- A loop over items whose counter leaves the range of `int` after the round
for the last item: all items are consumed and the loop is not left. -/
theorem forLoop_items_stuck {γ : Type} (hi step start : Int) (body : Int → Unit → Prog Unit)
    (xs : List γ) (enc emit : γ → List Nat) (tail : List Nat) (n : Nat) (hn : xs.length = n + 1)
    (hle : ∀ k : Nat, k < xs.length → start + k * step ≤ hi)
    (hmax : ∀ k : Nat, k < n → start + k * step + step ≤ 2147483647)
    (hov : 2147483647 < start + n * step + step)
    (hbody : ∀ (k : Nat) (hk : k < xs.length) (out : List Nat),
      body (start + k * step) () ⟨enc xs[k] ++ ((xs.drop (k + 1)).flatMap enc ++ tail), out⟩
        = .ok () ⟨(xs.drop (k + 1)).flatMap enc ++ tail, out ++ emit xs[k]⟩)
    (fuel : Nat) (hfuel : xs.length ≤ fuel) (out : List Nat) :
    forLoop hi step body fuel start () ⟨xs.flatMap enc ++ tail, out⟩ = .stuck := by
  have := forLoop_stuck_after hi step body n fuel start
    (fun k => ((), ⟨(xs.drop k).flatMap enc ++ tail, out ++ (xs.take k).flatMap emit⟩))
    (by omega) (fun k hk => hle k (by omega)) hmax hov
    (fun k hk => by
      have hk' : k < xs.length := by omega
      simp only
      have e1 : xs.drop k = xs[k] :: xs.drop (k + 1) := List.drop_eq_getElem_cons hk'
      have e2 : xs.take (k + 1) = xs.take k ++ [xs[k]] := by
        rw [List.take_succ, List.getElem?_eq_getElem hk']; rfl
      rw [e1, e2, List.flatMap_cons, List.flatMap_append, List.flatMap_singleton,
        List.append_assoc, hbody k hk', List.append_assoc])
  simpa using this

/-- A loop with at least one round whose first round is not followed to its end. -/
theorem forTo_first_stuck (hi step : Int) (body : Int → Prog Unit) (s : St)
    (hi1 : 1 ≤ hi) (hb : body 1 s = .stuck) : forTo hi step body s = .stuck := by
  unfold forTo
  obtain ⟨n, hn⟩ : ∃ n, hi.toNat = n + 1 := ⟨hi.toNat - 1, by omega⟩
  rw [hn, forLoop_succ, if_pos hi1]
  exact bind_stuck hb


/-! ## Runs -/

/-- A run is the header read followed by the transcoding part of `main`. -/
theorem run_eq_of {mode : Mode} {g : Int} {X : List Nat} (h : Header) (s : St) {r : Res Unit}
    (h1 : read_header g ⟨X, []⟩ = .ok h s) (h2 : transcode mode h s = r) : run mode g X = r := by
  unfold run main
  rw [bind_ok h1, h2]

theorem run_exit_of_header {mode : Mode} {g : Int} {X : List Nat} {o : List Nat}
    (h1 : read_header g ⟨X, []⟩ = .exit o) : run mode g X = .exit o := by
  unfold run main
  rw [bind_exit h1]

/-! ## Luminosity of white (C6) -/

/-- C6, as the code has it: the weights 299, 587 and 114 add up to 1000, so the
luminosity of the all-white pixel (255, 255, 255) is 255000 / 1000 = 255; the
division loses nothing. -/
theorem luminosity_white : luminosity 255 255 255 = 255 := by decide

/-- C6 as stated fails: the luminosity of (255, 255, 255) is not 254. -/
theorem luminosity_white_ne_254 : ¬ (luminosity 255 255 255 = 254) := by decide

/-! ## P1 -> P4 with an unassigned `max_color` (C2) -/

/-- C2 at its own example `P1 2 2\n0 1\n1 0\n`: `main` never assigns `max_color`
for type 1, and `ascii_to_binary_bnw` hands it to `get_ascii_num`.  When the
variable happens to hold a negative value the check `num > max_color` fires at
the first sample and only the header `P4 2 2\n` is written; when it holds 0 the
run writes the header and the bytes 0x7F and 0xBF. -/
theorem p1_to_p4_unassigned_max_color :
    run .CONVERT (-1) [80, 49, 32, 50, 32, 50, 10, 48, 32, 49, 10, 49, 32, 48, 10]
        = .exit [80, 52, 32, 50, 32, 50, 10] ∧
      run .CONVERT 0 [80, 49, 32, 50, 32, 50, 10, 48, 32, 49, 10, 49, 32, 48, 10]
        = .ok () ⟨[], [80, 52, 32, 50, 32, 50, 10, 127, 191]⟩ :=
  ⟨run_eq_of ⟨1, 2, 2, -1⟩ ⟨[48, 32, 49, 10, 49, 32, 48, 10], []⟩ (by decide) (by decide),
   run_eq_of ⟨1, 2, 2, 0⟩ ⟨[48, 32, 49, 10, 49, 32, 48, 10], []⟩ (by decide) (by decide)⟩

/-! ## Range check with a declared maximum of 0 (C10) -/

/-- C10 at the input `P2 1 1 0\n5\n`: the declared maximum is 0 and the sample
is 5.  `get_ascii_num` skips its range check when `max_color` is 0, so both
builds accept the sample (`P5 1 1 0\n` and the byte 5; `P1 1 1\n0 \n`), while
`get_binary_num` rejects the same sample in `P5 1 1 0\n` followed by the byte 5. -/
theorem ascii_range_check_skipped_at_zero :
    run .CONVERT 0 [80, 50, 32, 49, 32, 49, 32, 48, 10, 53, 10]
        = .ok () ⟨[], [80, 53, 32, 49, 32, 49, 32, 48, 10, 5]⟩ ∧
      run .TRANSFORM 0 [80, 50, 32, 49, 32, 49, 32, 48, 10, 53, 10]
        = .ok () ⟨[], [80, 49, 32, 49, 32, 49, 10, 48, 32, 10]⟩ ∧
      run .CONVERT 0 [80, 53, 32, 49, 32, 49, 32, 48, 10, 5]
        = .exit [80, 50, 32, 49, 32, 49, 32, 48, 10] :=
  ⟨run_eq_of ⟨2, 1, 1, 0⟩ ⟨[53, 10], []⟩ (by decide) (by decide),
   run_eq_of ⟨2, 1, 1, 0⟩ ⟨[53, 10], []⟩ (by decide) (by decide),
   run_eq_of ⟨5, 1, 1, 0⟩ ⟨[5], []⟩ (by decide) (by decide)⟩

/-! ## Decimal output -/

theorem decDigitsAux_spec : ∀ (fuel n : Nat) (acc : List Nat), n < fuel →
    ∃ ds, decDigitsAux fuel n acc = ds ++ acc ∧ ds ≠ [] ∧
      (∀ d ∈ ds, isdigit ((d : Nat) : Int) = true) ∧ decVal ds = n ∧
      decDigitsAux fuel n [] = ds := by
  intro fuel
  induction fuel with
  | zero => intro n acc h; omega
  | succ f ih =>
    intro n acc h
    by_cases hn : n < 10
    · refine ⟨[48 + n], by simp [decDigitsAux, hn], by simp, ?_, ?_, by simp [decDigitsAux, hn]⟩
      · intro d hd
        simp only [List.mem_singleton] at hd
        subst hd
        simp only [isdigit, Bool.and_eq_true, decide_eq_true_eq]
        omega
      · simp [decVal]
    · have hlt : n / 10 < f := by omega
      obtain ⟨ds, h1, h2, h3, h4, _⟩ := ih (n / 10) ((48 + n % 10) :: acc) hlt
      obtain ⟨ds', h1', _, _, _, _⟩ := ih (n / 10) [48 + n % 10] hlt
      have hds : ds' = ds := by
        obtain ⟨ds0, e0, _, _, _, e1⟩ := ih (n / 10) [] hlt
        obtain ⟨_, a1, _, _, _, a2⟩ := ih (n / 10) ((48 + n % 10) :: acc) hlt
        obtain ⟨_, b1, _, _, _, b2⟩ := ih (n / 10) [48 + n % 10] hlt
        rw [h1] at a1
        rw [h1'] at b1
        have := List.append_cancel_right a1
        have := List.append_cancel_right b1
        simp_all
      refine ⟨ds ++ [48 + n % 10], ?_, by simp, ?_, ?_, ?_⟩
      · simp [decDigitsAux, hn, h1]
      · intro d hd
        rcases List.mem_append.1 hd with h | h
        · exact h3 d h
        · simp only [List.mem_singleton] at h
          subst h
          simp only [isdigit, Bool.and_eq_true, decide_eq_true_eq]
          omega
      · simp only [decVal, List.foldl_append, List.foldl_cons, List.foldl_nil] at h4 ⊢
        rw [h4]; omega
      · simp [decDigitsAux, hn, h1', hds]

theorem decDigits_spec (n : Nat) :
    decDigits n ≠ [] ∧ (∀ d ∈ decDigits n, isdigit ((d : Nat) : Int) = true) ∧
      decVal (decDigits n) = n := by
  obtain ⟨ds, _, h2, h3, h4, h5⟩ := decDigitsAux_spec (n + 1) n [] (by omega)
  unfold decDigits
  rw [h5]
  exact ⟨h2, h3, h4⟩

theorem fmt_d_natCast (n : Nat) : fmt_d (n : Int) = decDigits n := by
  unfold fmt_d
  have : ¬ ((n : Int) < 0) := by omega
  simp [this]

theorem dropWs_of_head_digit (l rest : List Nat) (hne : l ≠ [])
    (hd : ∀ d ∈ l, isdigit ((d : Nat) : Int) = true) : dropWs (l ++ rest) = l ++ rest := by
  cases l with
  | nil => exact absurd rfl hne
  | cons c cs =>
    exact dropWs_cons_of_not_space _ (isspace_of_isdigit (hd c (List.mem_cons_self _ _)))

theorem dropWs_replicate_space (k : Nat) (rest : List Nat) :
    dropWs (List.replicate k 32 ++ rest) = dropWs rest :=
  dropWs_append_of_spaces _ _ (fun c hc => by
    rw [List.eq_of_mem_replicate hc]; decide)

theorem dropWs_fmt_3d (n : Nat) (rest : List Nat) :
    dropWs (fmt_3d (n : Int) ++ rest) = decDigits n ++ rest := by
  unfold fmt_3d
  rw [List.append_assoc, dropWs_replicate_space, fmt_d_natCast]
  exact dropWs_of_head_digit _ _ (decDigits_spec n).1 (decDigits_spec n).2.1

/-! ## Tokens -/

theorem dropWs_tok_bytes (t : Tok) (ht : t.WF) (rest : List Nat) :
    dropWs (t.bytes ++ rest) = t.bytes ++ rest := by
  unfold Tok.bytes
  rw [List.append_assoc]
  exact dropWs_of_head_digit _ _ ht.1 ht.2.1

theorem tok_bytes_ne_nil (t : Tok) (ht : t.WF) : t.bytes ≠ [] := by
  unfold Tok.bytes
  simp [ht.1]

theorem dropWs_toks (ts : List Tok) (hts : ∀ t ∈ ts, t.WF) (tail : List Nat)
    (htail : dropWs tail = tail) :
    dropWs (ts.flatMap Tok.bytes ++ tail) = ts.flatMap Tok.bytes ++ tail := by
  cases ts with
  | nil => simpa using htail
  | cons t ts =>
    rw [List.flatMap_cons, List.append_assoc]
    exact dropWs_tok_bytes t (hts t (List.mem_cons_self _ _)) _

theorem toks_ne_nil (ts : List Tok) (hts : ∀ t ∈ ts, t.WF) (hne : ts ≠ []) (tail : List Nat) :
    ts.flatMap Tok.bytes ++ tail ≠ [] := by
  cases ts with
  | nil => exact absurd rfl hne
  | cons t ts =>
    have := tok_bytes_ne_nil t (hts t (List.mem_cons_self _ _))
    simp [List.flatMap_cons, this]

/-- Reading one well-formed token: its value is returned and the input is left
at the byte after the token's white space. -/
theorem get_ascii_num_tok (max_color : Int) (finished : Bool) (t : Tok) (ht : t.WF)
    (after out : List Nat) (hv : t.val < 2147483648)
    (hm : max_color = 0 ∨ (t.val : Int) ≤ max_color)
    (hafter : dropWs after = after) (hfin : after ≠ [] ∨ finished = true) :
    get_ascii_num max_color finished ⟨t.bytes ++ after, out⟩ = .ok (t.val : Int) ⟨after, out⟩ := by
  obtain ⟨h1, h2, h3, h4⟩ := ht
  obtain ⟨c, ws, hsep⟩ : ∃ c ws, t.sep = c :: ws := by
    cases hs : t.sep with
    | nil => exact absurd hs h3
    | cons c ws => exact ⟨c, ws, rfl⟩
  have hc : isspace (c : Int) = true := h4 c (by rw [hsep]; exact List.mem_cons_self _ _)
  have hws : ∀ x ∈ ws, isspace ((x : Nat) : Int) = true :=
    fun x hx => h4 x (by rw [hsep]; exact List.mem_cons_of_mem _ hx)
  have e : t.bytes ++ after = t.digits ++ c :: (ws ++ after) := by
    simp [Tok.bytes, hsep]
  rw [e, get_ascii_num_digits max_color finished t.digits c (ws ++ after) out h2 hc hv hm,
    dropWs_append_of_spaces ws after hws, hafter]
  have : ¬ (after = [] ∧ finished = false) := by
    rintro ⟨ha, hf⟩
    rcases hfin with h | h
    · exact h ha
    · rw [hf] at h; exact Bool.noConfusion h
  rw [if_neg this]
  rfl

/-! ## Loops with local state -/

/-- A loop whose round `k` consumes the encoding of the `k`-th item, writes
what that item produces and takes the local state from `acc k` to `acc (k + 1)`. -/
theorem forLoop_items_st {γ β : Type} (hi step start : Int) (body : Int → β → Prog β)
    (xs : List γ) (enc emit : γ → List Nat) (tail : List Nat) (acc : Nat → β)
    (hle : ∀ k : Nat, k < xs.length → start + k * step ≤ hi)
    (hend : ¬ (start + xs.length * step ≤ hi))
    (hmax : ∀ k : Nat, k < xs.length → start + k * step + step ≤ 2147483647)
    (hbody : ∀ (k : Nat) (hk : k < xs.length) (out : List Nat),
      body (start + k * step) (acc k)
          ⟨enc xs[k] ++ ((xs.drop (k + 1)).flatMap enc ++ tail), out⟩
        = .ok (acc (k + 1)) ⟨(xs.drop (k + 1)).flatMap enc ++ tail, out ++ emit xs[k]⟩)
    (fuel : Nat) (hfuel : xs.length ≤ fuel) (out : List Nat) :
    forLoop hi step body fuel start (acc 0) ⟨xs.flatMap enc ++ tail, out⟩
      = .ok (acc xs.length) ⟨tail, out ++ xs.flatMap emit⟩ := by
  have := forLoop_ok hi step body xs.length fuel start
    (fun k => (acc k, ⟨(xs.drop k).flatMap enc ++ tail, out ++ (xs.take k).flatMap emit⟩))
    hfuel hle hend hmax
    (fun k hk => by
      simp only
      have e1 : xs.drop k = xs[k] :: xs.drop (k + 1) := List.drop_eq_getElem_cons hk
      have e2 : xs.take (k + 1) = xs.take k ++ [xs[k]] := by
        rw [List.take_succ, List.getElem?_eq_getElem hk]; rfl
      rw [e1, e2, List.flatMap_cons, List.flatMap_append, List.flatMap_singleton,
        List.append_assoc, hbody k hk, List.append_assoc])
  simpa using this

/-! ## Groups of eight -/

theorem chunks8_length {α : Type} (n : Nat) (l : List α) : (chunks8 n l).length = n := by
  induction n generalizing l with
  | zero => rfl
  | succ n ih => simp [chunks8, ih]

theorem chunks8_flatten {α : Type} (n : Nat) (l : List α) (h : l.length ≤ 8 * n) :
    (chunks8 n l).flatten = l := by
  induction n generalizing l with
  | zero =>
    have : l = [] := List.length_eq_zero.1 (by omega)
    simp [chunks8, this]
  | succ n ih =>
    simp only [chunks8, List.flatten_cons]
    rw [ih (l.drop 8) (by simp; omega), List.take_append_drop]

theorem chunks8_getElem {α : Type} (n : Nat) (l : List α) (k : Nat) (hk : k < (chunks8 n l).length) :
    (chunks8 n l)[k] = (l.drop (8 * k)).take 8 := by
  induction n generalizing l k with
  | zero => simp [chunks8] at hk
  | succ n ih =>
    cases k with
    | zero => simp [chunks8]
    | succ k =>
      simp only [chunks8, List.getElem_cons_succ]
      rw [ih (l.drop 8) k (by simpa [chunks8] using hk), List.drop_drop]
      congr 2
      omega

theorem chunks8_getElem_length {α : Type} (n : Nat) (l : List α) (k : Nat)
    (hk : k < (chunks8 n l).length) : ((chunks8 n l)[k]).length = min 8 (l.length - 8 * k) := by
  rw [chunks8_getElem]
  simp

/-! ## Bit masks -/

theorem bitmask_succ (k : Nat) : bitmask ((k : Int) + 1) = 1 <<< (7 - k) := by
  unfold bitmask
  congr 1
  omega

theorem upper_bound_natCast (w k : Nat) (hk : 8 * k < w) :
    upper_bound (w : Int) (1 + (k : Int) * 8) = ((min 8 (w - 8 * k) : Nat) : Int) := by
  unfold upper_bound
  split_ifs with h
  · have : min 8 (w - 8 * k) = 8 := by omega
    rw [this]; rfl
  · have : min 8 (w - 8 * k) = w - 8 * k := by omega
    rw [this]; omega

theorem tdiv_two_natCast (m : Nat) : Int.tdiv ((m : Int) + 1) 2 = (((m + 1) / 2 : Nat) : Int) := by
  rw [Int.tdiv_eq_ediv (by omega) (by omega)]
  omega

/-! ## The transcoders on well-formed data: binary input -/

theorem flatMap_singleton_id (l : List Nat) : l.flatMap (fun v => [v]) = l := by
  induction l with
  | nil => rfl
  | cons a l ih => simp [List.flatMap_cons, ih]

theorem flatMap_singleton_map {α β : Type} (f : α → β) (l : List α) :
    l.flatMap (fun x => [f x]) = l.map f := by
  induction l with
  | nil => rfl
  | cons a l ih => simp [List.flatMap_cons, ih]

theorem flatMap_id_eq_flatten {α : Type} (l : List (List α)) : l.flatMap id = l.flatten := by
  induction l with
  | nil => rfl
  | cons a l ih => simp [List.flatMap_cons, ih]

/-- One row of `binary_to_ascii_cg`. -/
theorem binary_to_ascii_cg_row (m : Int) (row : List Nat) (hm : ∀ v ∈ row, (v : Int) ≤ m)
    (hwb : row.length < 2147483647) (tail out : List Nat) :
    forTo (row.length : Int) 1 (fun _ => do
        let color ← get_binary_num m
        puts (fmt_3d color ++ [32])) ⟨row ++ tail, out⟩
      = .ok () ⟨tail, out ++ row.flatMap (fun v => fmt_3d (v : Int) ++ [32])⟩ := by
  have := forTo_items (fun _ => do
        let color ← get_binary_num m
        puts (fmt_3d color ++ [32])) row (fun v => [v]) (fun v => fmt_3d (v : Int) ++ [32]) tail
    hwb (fun k hk out => by
      have hle : ¬ ((row[k] : Int) > m) := not_lt.2 (hm _ (List.getElem_mem _))
      simp only [List.singleton_append, bind_apply, get_binary_num_cons, hle, if_false,
        puts_apply]) out
  rwa [flatMap_singleton_id] at this

/-- The rows of `binary_to_ascii_cg` (P5 -> P2, and P6 -> P3 with three samples
per pixel): every byte is written as `%3d` and a space, every row ends with a
newline. -/
theorem binary_to_ascii_cg_ok (m : Int) (w : Nat) (rows : List (List Nat))
    (hw : ∀ row ∈ rows, row.length = w) (hm : ∀ row ∈ rows, ∀ v ∈ row, (v : Int) ≤ m)
    (hwb : w < 2147483647) (hhb : rows.length < 2147483647) (tail out : List Nat) :
    binary_to_ascii_cg (w : Int) (rows.length : Int) m ⟨rows.flatten ++ tail, out⟩
      = .ok () ⟨tail, out ++ rows.flatMap (fun row =>
          row.flatMap (fun v => fmt_3d (v : Int) ++ [32]) ++ [10])⟩ := by
  unfold binary_to_ascii_cg
  rw [← flatMap_id_eq_flatten]
  apply forTo_items
  · exact hhb
  intro k hk out
  have hlen : rows[k].length = w := hw _ (List.getElem_mem _)
  rw [← hlen]
  simp only [id, bind_apply]
  rw [binary_to_ascii_cg_row m rows[k] (hm _ (List.getElem_mem _)) (by omega)]
  simp [putchar_apply]

/-- The rows of `to_gray_scale_binary` (P6 -> P5). -/
theorem to_gray_scale_binary_ok (m : Int) (w : Nat) (rows : List (List (Nat × Nat × Nat)))
    (hw : ∀ row ∈ rows, row.length = w)
    (hm : ∀ row ∈ rows, ∀ p ∈ row, (p.1 : Int) ≤ m ∧ (p.2.1 : Int) ≤ m ∧ (p.2.2 : Int) ≤ m)
    (hwb : w < 2147483647) (hhb : rows.length < 2147483647) (tail out : List Nat) :
    to_gray_scale_binary (w : Int) (rows.length : Int) m
        ⟨rows.flatMap (fun row => row.flatMap (fun p => [p.1, p.2.1, p.2.2])) ++ tail, out⟩
      = .ok () ⟨tail, out ++ rows.flatMap (fun row =>
          row.map (fun p => (luminosity p.1 p.2.1 p.2.2 % 256).toNat))⟩ := by
  unfold to_gray_scale_binary
  apply forTo_items
  · exact hhb
  intro k hk out
  have hlen : rows[k].length = w := hw _ (List.getElem_mem _)
  rw [← hlen]
  have := forTo_items (fun _ => do
      let r ← get_binary_num m
      let g ← get_binary_num m
      let b ← get_binary_num m
      putchar (luminosity r g b)) rows[k] (fun p => [p.1, p.2.1, p.2.2])
    (fun p => [(luminosity p.1 p.2.1 p.2.2 % 256).toNat])
    ((rows.drop (k + 1)).flatMap (fun row => row.flatMap (fun p => [p.1, p.2.1, p.2.2])) ++ tail)
    (by omega) (fun j hj out => by
      obtain ⟨h1, h2, h3⟩ := hm _ (List.getElem_mem hk) _ (List.getElem_mem hj)
      simp only [List.cons_append, List.nil_append, bind_apply, get_binary_num_cons,
        not_lt.2 h1, not_lt.2 h2, not_lt.2 h3, gt_iff_lt, if_false, putchar_apply]) out
  rw [this, flatMap_singleton_map]

/-- `for (j = 1; j <= w; j += 8)` over the `ceil(w / 8)` groups of a row. -/
theorem forTo8_items {γ : Type} (w : Nat) (hwb : w ≤ 2147483640) (body : Int → Prog Unit)
    (xs : List γ) (hx : xs.length = (w + 7) / 8) (enc emit : γ → List Nat) (tail : List Nat)
    (hbody : ∀ (k : Nat) (hk : k < xs.length) (out : List Nat),
      body (1 + (k : Int) * 8) ⟨enc xs[k] ++ ((xs.drop (k + 1)).flatMap enc ++ tail), out⟩
        = .ok () ⟨(xs.drop (k + 1)).flatMap enc ++ tail, out ++ emit xs[k]⟩)
    (out : List Nat) :
    forTo (w : Int) 8 body ⟨xs.flatMap enc ++ tail, out⟩
      = .ok () ⟨tail, out ++ xs.flatMap emit⟩ := by
  unfold forTo
  apply forLoop_items
  · intro k hk; omega
  · omega
  · intro k hk; omega
  · intro k hk out
    exact hbody k hk out
  · simp only [Int.toNat_ofNat]; omega

/-- `for (j = 1; j <= w; j += 8)` over the `ceil(w / 8)` groups of a row of
width `w ≥ 2147483641`: all groups are consumed, then `j += 8` leaves the range
of `int`. -/
theorem forTo8_items_stuck {γ : Type} (w : Nat) (hw : 2147483641 ≤ w) (hw2 : w ≤ 2147483647)
    (body : Int → Prog Unit)
    (xs : List γ) (hx : xs.length = (w + 7) / 8) (enc emit : γ → List Nat) (tail : List Nat)
    (hbody : ∀ (k : Nat) (hk : k < xs.length) (out : List Nat),
      body (1 + (k : Int) * 8) ⟨enc xs[k] ++ ((xs.drop (k + 1)).flatMap enc ++ tail), out⟩
        = .ok () ⟨(xs.drop (k + 1)).flatMap enc ++ tail, out ++ emit xs[k]⟩)
    (out : List Nat) :
    forTo (w : Int) 8 body ⟨xs.flatMap enc ++ tail, out⟩ = .stuck := by
  unfold forTo
  apply forLoop_items_stuck _ _ _ _ _ _ _ _ 268435455
  · omega
  · intro k hk; omega
  · intro k hk; omega
  · omega
  · intro k hk out
    exact hbody k hk out
  · simp only [Int.toNat_ofNat]; omega

theorem chunks8_map {α β : Type} (f : α → β) (n : Nat) (l : List α) :
    chunks8 n (l.map f) = (chunks8 n l).map (List.map f) := by
  induction n generalizing l with
  | zero => rfl
  | succ n ih =>
    simp only [chunks8, List.map_cons]
    rw [← List.map_drop, ih, List.map_take]

theorem packUpto_lt (bits : List Bool) (k : Nat) : packUpto bits k < 256 := by
  induction k with
  | zero => simp [packUpto]
  | succ k ih =>
    simp only [packUpto]
    split
    · exact ih
    · have h1 : (1 : Nat) <<< (7 - k) < 2 ^ 8 := by
        rw [Nat.one_shiftLeft]
        exact Nat.pow_lt_pow_right (by omega) (by omega)
      exact Nat.xor_lt_two_pow (n := 8) ih h1

theorem packByte_lt (bits : List Bool) : packByte bits < 256 := packUpto_lt _ _

theorem putchar_byte (b : Nat) (hb : b < 256) (inp out : List Nat) :
    putchar (b : Int) ⟨inp, out⟩ = .ok () ⟨inp, out ++ [b]⟩ := by
  rw [putchar_apply]
  have : (((b : Int) % 256).toNat) = b := by omega
  rw [this]

theorem packUpto_congr (bits bits' : List Bool) (k : Nat)
    (h : ∀ i, i < k → bits.getD i true = bits'.getD i true) :
    packUpto bits k = packUpto bits' k := by
  induction k with
  | zero => rfl
  | succ k ih =>
    simp only [packUpto, h k (by omega), ih (fun i hi => h i (by omega))]

/-- The bit loop of `to_bnw_binary` on one group of at most eight bytes. -/
theorem to_bnw_binary_bits (m : Nat) (chunk : List Nat) (hm : ∀ v ∈ chunk, v ≤ m)
    (hcl : chunk.length ≤ 8) (tail out : List Nat) :
    forLoop (chunk.length : Int) 1 (fun k (byte : Nat) => do
        let color ← get_binary_num (m : Int)
        pure (if color > Int.tdiv ((m : Int) + 1) 2 then byte ^^^ bitmask k else byte))
      chunk.length 1 255 ⟨chunk ++ tail, out⟩
      = .ok (packByte (chunk.map (thresholdBit m))) ⟨tail, out⟩ := by
  have := forLoop_items_st (chunk.length : Int) 1 1 (fun k (byte : Nat) => do
        let color ← get_binary_num (m : Int)
        pure (if color > Int.tdiv ((m : Int) + 1) 2 then byte ^^^ bitmask k else byte))
    chunk (fun v => [v]) (fun _ => []) tail (packUpto (chunk.map (thresholdBit m)))
    (fun k hk => by omega) (by omega) (fun k hk => by omega)
    (fun k hk out => by
      have hle : ¬ ((chunk[k] : Int) > (m : Int)) := by
        have := hm _ (List.getElem_mem hk); omega
      have e : (1 : Int) + (k : Int) * 1 = (k : Int) + 1 := by ring
      simp only [List.singleton_append, bind_apply, get_binary_num_cons, hle, if_false,
        pure_apply, List.append_nil, e, bitmask_succ, tdiv_two_natCast, packUpto]
      congr 1
      have hg : (chunk.map (thresholdBit m)).getD k true = thresholdBit m chunk[k] := by
        simp [List.getD, hk]
      rw [hg]
      unfold thresholdBit
      by_cases hc : chunk[k] > (m + 1) / 2
      · have : (chunk[k] : Int) > (((m + 1) / 2 : Nat) : Int) := by exact_mod_cast hc
        rw [if_pos this]; simp [hc]
      · have : ¬ (chunk[k] : Int) > (((m + 1) / 2 : Nat) : Int) := by
          intro h; apply hc; exact_mod_cast h
        rw [if_neg this]; simp [hc])
    chunk.length (le_refl _) out
  simp only [flatMap_singleton_id, packUpto] at this
  rw [this]
  simp [packByte]

/-- One group of `to_bnw_binary`: up to eight bytes are read and one byte is
written. -/
theorem to_bnw_binary_group (m w : Nat) (row : List Nat) (hlen : row.length = w)
    (hm : ∀ v ∈ row, v ≤ m) (tail : List Nat)
    (k : Nat) (hk : k < (chunks8 ((w + 7) / 8) row).length) (out : List Nat) :
    (do
      let byte ← forLoop (upper_bound (w : Int) (1 + (k : Int) * 8)) 1 (fun k (byte : Nat) => do
          let color ← get_binary_num (m : Int)
          pure (if color > Int.tdiv ((m : Int) + 1) 2 then byte ^^^ bitmask k else byte))
        (upper_bound (w : Int) (1 + (k : Int) * 8)).toNat 1 255
      putchar byte : Prog Unit)
      ⟨id (chunks8 ((w + 7) / 8) row)[k]
        ++ (((chunks8 ((w + 7) / 8) row).drop (k + 1)).flatMap id ++ tail), out⟩
    = .ok () ⟨((chunks8 ((w + 7) / 8) row).drop (k + 1)).flatMap id ++ tail,
        out ++ [packByte ((chunks8 ((w + 7) / 8) row)[k].map (thresholdBit m))]⟩ := by
  have hk' : k < (w + 7) / 8 := by simpa [chunks8_length] using hk
  have hcl := chunks8_getElem_length ((w + 7) / 8) row k hk
  rw [hlen] at hcl
  have hub : upper_bound (w : Int) (1 + (k : Int) * 8)
      = (((chunks8 ((w + 7) / 8) row)[k]).length : Int) := by
    rw [upper_bound_natCast w k (by omega), hcl]
  simp only [id, bind_apply, hub, Int.toNat_ofNat]
  rw [to_bnw_binary_bits m _ (fun v hv =>
    hm v (by
      have h1 : (chunks8 ((w + 7) / 8) row)[k] ∈ chunks8 ((w + 7) / 8) row :=
        List.getElem_mem hk
      have h2 : v ∈ (chunks8 ((w + 7) / 8) row).flatten :=
        List.mem_flatten.2 ⟨_, h1, hv⟩
      rwa [chunks8_flatten _ _ (by omega)] at h2)) (by omega)]
  exact putchar_byte _ (packByte_lt _) _ _

/-- The rows of `to_bnw_binary` (P5 -> P4): every row of bytes is reduced to
bit values and packed. -/
theorem to_bnw_binary_ok (m w : Nat) (rows : List (List Nat))
    (hw : ∀ row ∈ rows, row.length = w) (hm : ∀ row ∈ rows, ∀ v ∈ row, v ≤ m)
    (hwb : w ≤ 2147483640) (hhb : rows.length < 2147483647) (tail out : List Nat) :
    to_bnw_binary (w : Int) (rows.length : Int) (m : Int) ⟨rows.flatten ++ tail, out⟩
      = .ok () ⟨tail, out ++ rows.flatMap (fun row => packRow (row.map (thresholdBit m)))⟩ := by
  unfold to_bnw_binary
  rw [← flatMap_id_eq_flatten]
  apply forTo_items
  · exact hhb
  intro r hr out
  have hlen : rows[r].length = w := hw _ (List.getElem_mem _)
  have hfl : (chunks8 ((w + 7) / 8) rows[r]).flatMap id = rows[r] := by
    rw [flatMap_id_eq_flatten, chunks8_flatten]; omega
  have := forTo8_items w hwb (fun j => do
      let byte ← forLoop (upper_bound (w : Int) j) 1 (fun k (byte : Nat) => do
          let color ← get_binary_num (m : Int)
          pure (if color > Int.tdiv ((m : Int) + 1) 2 then byte ^^^ bitmask k else byte))
        (upper_bound (w : Int) j).toNat 1 255
      putchar byte) (chunks8 ((w + 7) / 8) rows[r]) (chunks8_length _ _) id
    (fun c => [packByte (c.map (thresholdBit m))])
    ((rows.drop (r + 1)).flatMap id ++ tail)
    (to_bnw_binary_group m w rows[r] hlen (hm _ (List.getElem_mem hr)) _) out
  rw [hfl] at this
  simp only [id]
  rw [this]
  congr 2
  unfold packRow
  rw [List.length_map, hlen, chunks8_map, List.map_map, ← flatMap_singleton_map]
  rfl

/-- On a row of `w ≥ 2147483641` bytes up to the maximum `to_bnw_binary` reads
the whole row and writes its `ceil(w / 8)` bytes; then `j += 8` leaves the range
of `int` and the row loop is not left. -/
theorem to_bnw_binary_wide_stuck (m w : Nat) (hw : 2147483641 ≤ w) (hw2 : w ≤ 2147483647)
    (row : List Nat) (hlen : row.length = w) (hm : ∀ v ∈ row, v ≤ m) (tail out : List Nat) :
    to_bnw_binary (w : Int) 1 (m : Int) ⟨row ++ tail, out⟩ = .stuck := by
  unfold to_bnw_binary
  refine forTo_first_stuck _ _ _ _ (by decide) ?_
  have hfl : (chunks8 ((w + 7) / 8) row).flatMap id = row := by
    rw [flatMap_id_eq_flatten, chunks8_flatten]; omega
  have := forTo8_items_stuck w hw hw2 (fun j => do
      let byte ← forLoop (upper_bound (w : Int) j) 1 (fun k (byte : Nat) => do
          let color ← get_binary_num (m : Int)
          pure (if color > Int.tdiv ((m : Int) + 1) 2 then byte ^^^ bitmask k else byte))
        (upper_bound (w : Int) j).toNat 1 255
      putchar byte) (chunks8 ((w + 7) / 8) row) (chunks8_length _ _) id
    (fun c => [packByte (c.map (thresholdBit m))]) tail
    (to_bnw_binary_group m w row hlen hm tail) out
  rw [hfl] at this
  exact this

/-! ## The transcoders on well-formed data: ASCII input -/

theorem dropWs_rowsBytes (rows : List (List Tok))
    (hrows : ∀ row ∈ rows, row ≠ [] ∧ ∀ t ∈ row, t.WF) (tail : List Nat)
    (htail : dropWs tail = tail) :
    dropWs (rowsBytes rows ++ tail) = rowsBytes rows ++ tail := by
  cases rows with
  | nil => simpa [rowsBytes] using htail
  | cons row rows =>
    obtain ⟨hne, hwf⟩ := hrows row (List.mem_cons_self _ _)
    cases row with
    | nil => exact absurd rfl hne
    | cons t ts =>
      simp only [rowsBytes, List.flatMap_cons, List.append_assoc]
      exact dropWs_tok_bytes t (hwf t (List.mem_cons_self _ _)) _

theorem rowsBytes_ne_nil (rows : List (List Tok))
    (hrows : ∀ row ∈ rows, row ≠ [] ∧ ∀ t ∈ row, t.WF) (hne : rows ≠ []) (tail : List Nat) :
    rowsBytes rows ++ tail ≠ [] := by
  cases rows with
  | nil => exact absurd rfl hne
  | cons row rows =>
    obtain ⟨hne, hwf⟩ := hrows row (List.mem_cons_self _ _)
    cases row with
    | nil => exact absurd rfl hne
    | cons t ts =>
      have := tok_bytes_ne_nil t (hwf t (List.mem_cons_self _ _))
      simp [rowsBytes, List.flatMap_cons, this]

/-- Facts about what follows the `k`-th token of a row: it does not start with
white space, and it is empty only at the last token of the last row. -/
theorem after_tok (row : List Tok) (hwf : ∀ t ∈ row, t.WF) (after : List Nat)
    (hafter : dropWs after = after) (i h : Int) (hfin : after ≠ [] ∨ i = h)
    (k : Nat) (hk : k < row.length) :
    dropWs ((row.drop (k + 1)).flatMap Tok.bytes ++ after)
        = (row.drop (k + 1)).flatMap Tok.bytes ++ after ∧
      ((row.drop (k + 1)).flatMap Tok.bytes ++ after ≠ [] ∨
        check_last i ((k : Int) + 1) (row.length : Int) h = true) := by
  have hd : ∀ t ∈ row.drop (k + 1), t.WF := fun t ht => hwf t (List.mem_of_mem_drop ht)
  refine ⟨dropWs_toks _ hd _ hafter, ?_⟩
  by_cases hlast : k + 1 < row.length
  · left
    exact toks_ne_nil _ hd (by
      intro he
      have := congrArg List.length he
      simp at this
      omega) _
  · have hk1 : k + 1 = row.length := by omega
    rcases hfin with hf | hf
    · left
      rw [List.drop_of_length_le (by omega)]
      simpa using hf
    · right
      have : (k : Int) + 1 = (row.length : Int) := by exact_mod_cast hk1
      simp [check_last, hf, this]

/-- Facts about what follows row `r`. -/
theorem after_row (rows : List (List Tok))
    (hrows : ∀ row ∈ rows, row ≠ [] ∧ ∀ t ∈ row, t.WF) (tail : List Nat)
    (htail : dropWs tail = tail) (r : Nat) (hr : r < rows.length) :
    dropWs (rowsBytes (rows.drop (r + 1)) ++ tail) = rowsBytes (rows.drop (r + 1)) ++ tail ∧
      (rowsBytes (rows.drop (r + 1)) ++ tail ≠ [] ∨ ((r : Int) + 1 = (rows.length : Int))) := by
  have hd : ∀ row ∈ rows.drop (r + 1), row ≠ [] ∧ ∀ t ∈ row, t.WF :=
    fun row h => hrows row (List.mem_of_mem_drop h)
  refine ⟨dropWs_rowsBytes _ hd _ htail, ?_⟩
  by_cases hlast : r + 1 < rows.length
  · left
    exact rowsBytes_ne_nil _ hd (by
      intro he
      have := congrArg List.length he
      simp at this
      omega) _
  · right
    have : r + 1 = rows.length := by omega
    exact_mod_cast this

/-- A row loop that reads one token per round and writes `e` of its value. -/
theorem ascii_row (mc : Int) (act : Int → Prog Unit) (e : Int → List Nat)
    (hact : ∀ c inp out, act c ⟨inp, out⟩ = .ok () ⟨inp, out ++ e c⟩)
    (row : List Tok) (hwf : ∀ t ∈ row, t.WF)
    (hv : ∀ t ∈ row, t.val < 2147483648 ∧ (mc = 0 ∨ (t.val : Int) ≤ mc))
    (hwb : row.length < 2147483647)
    (after : List Nat) (hafter : dropWs after = after) (i h : Int)
    (hfin : after ≠ [] ∨ i = h) (out : List Nat) :
    forTo (row.length : Int) 1 (fun j => do
        let is_last := check_last i j (row.length : Int) h
        let color ← get_ascii_num mc is_last
        act color) ⟨row.flatMap Tok.bytes ++ after, out⟩
      = .ok () ⟨after, out ++ row.flatMap (fun t => e (t.val : Int))⟩ := by
  apply forTo_items
  · exact hwb
  intro k hk out
  obtain ⟨h1, h2⟩ := after_tok row hwf after hafter i h hfin k hk
  have hmem : row[k] ∈ row := List.getElem_mem hk
  simp only [bind_apply]
  rw [get_ascii_num_tok mc _ row[k] (hwf _ hmem) _ out (hv _ hmem).1 (hv _ hmem).2 h1 h2]
  exact hact _ _ _

/-- The rows of `to_bnw_ascii` (P2 -> P1): every sample becomes the digit `0`
or `1` followed by a space, every row ends with a newline. -/
theorem to_bnw_ascii_ok (m w : Nat) (hw1 : 1 ≤ w) (rows : List (List Tok))
    (hw : ∀ row ∈ rows, row.length = w)
    (hwf : ∀ row ∈ rows, ∀ t ∈ row, t.WF ∧ t.val ≤ m) (hm : m < 2147483648)
    (hwb : w < 2147483647) (hhb : rows.length < 2147483647)
    (tail : List Nat) (htail : dropWs tail = tail) (out : List Nat) :
    to_bnw_ascii (w : Int) (rows.length : Int) (m : Int) ⟨rowsBytes rows ++ tail, out⟩
      = .ok () ⟨tail, out ++ rows.flatMap (fun row =>
          row.flatMap (fun t => [if thresholdBit m t.val then 49 else 48, 32]) ++ [10])⟩ := by
  unfold to_bnw_ascii rowsBytes
  apply forTo_items
  · exact hhb
  intro r hr out
  have hlen : rows[r].length = w := hw _ (List.getElem_mem _)
  have hrows : ∀ row ∈ rows, row ≠ [] ∧ ∀ t ∈ row, t.WF := fun row h =>
    ⟨by intro he; have := hw row h; rw [he] at this; simp at this; omega,
     fun t ht => (hwf row h t ht).1⟩
  obtain ⟨h1, h2⟩ := after_row rows hrows tail htail r hr
  rw [← hlen]
  simp only [bind_apply]
  have := ascii_row (m : Int)
    (fun color => if color > Int.tdiv ((m : Int) + 1) 2 then puts [48, 32] else puts [49, 32])
    (fun c => [if c > Int.tdiv ((m : Int) + 1) 2 then 48 else 49, 32])
    (fun c inp out => by
      show (if c > Int.tdiv ((m : Int) + 1) 2 then puts [48, 32] else puts [49, 32]) _ = _
      split_ifs <;> simp [puts_apply, *])
    rows[r] (fun t ht => (hwf _ (List.getElem_mem hr) t ht).1)
    (fun t ht => by
      have := (hwf _ (List.getElem_mem hr) t ht).2
      exact ⟨by omega, Or.inr (by exact_mod_cast this)⟩)
    (by omega) _ h1 ((r : Int) + 1) (rows.length : Int) h2 out
  unfold rowsBytes at this
  rw [this]
  simp only [putchar_apply, List.append_assoc]
  congr 4
  · apply List.flatMap_congr
    intro t _
    rw [tdiv_two_natCast]
    unfold thresholdBit
    by_cases hc : t.val > (m + 1) / 2
    · have : (t.val : Int) > (((m + 1) / 2 : Nat) : Int) := by exact_mod_cast hc
      rw [if_pos this]; simp [hc]
    · have : ¬ (t.val : Int) > (((m + 1) / 2 : Nat) : Int) := by
        intro h; apply hc; exact_mod_cast h
      rw [if_neg this]; simp [hc]

theorem pixBytes_eq_toks (ps : List (Tok × Tok × Tok)) :
    ps.flatMap pixBytes = (ps.flatMap (fun p => [p.1, p.2.1, p.2.2])).flatMap Tok.bytes := by
  induction ps with
  | nil => rfl
  | cons p ps ih => simp [List.flatMap_cons, List.flatMap_append, pixBytes, ih]

theorem after_pix (m : Nat) (row : List (Tok × Tok × Tok)) (hwf : ∀ p ∈ row, PixOK m p)
    (after : List Nat) (hafter : dropWs after = after) (i h : Int) (hfin : after ≠ [] ∨ i = h)
    (k : Nat) (hk : k < row.length) :
    dropWs ((row.drop (k + 1)).flatMap pixBytes ++ after)
        = (row.drop (k + 1)).flatMap pixBytes ++ after ∧
      ((row.drop (k + 1)).flatMap pixBytes ++ after ≠ [] ∨
        check_last i ((k : Int) + 1) (row.length : Int) h = true) := by
  have hd : ∀ t ∈ (row.drop (k + 1)).flatMap (fun p => [p.1, p.2.1, p.2.2]), t.WF := by
    intro t ht
    obtain ⟨p, hp, ht⟩ := List.mem_flatMap.1 ht
    obtain ⟨h1, h2, h3⟩ := hwf p (List.mem_of_mem_drop hp)
    simp only [List.mem_cons, List.mem_singleton, List.not_mem_nil, or_false] at ht
    rcases ht with rfl | rfl | rfl
    · exact h1.1
    · exact h2.1
    · exact h3.1
  rw [pixBytes_eq_toks]
  refine ⟨dropWs_toks _ hd _ hafter, ?_⟩
  by_cases hlast : k + 1 < row.length
  · left
    exact toks_ne_nil _ hd (by
      intro he
      rw [List.drop_eq_getElem_cons hlast, List.flatMap_cons] at he
      exact absurd he (by simp)) _
  · have hk1 : k + 1 = row.length := by omega
    rcases hfin with hf | hf
    · left
      rw [List.drop_of_length_le (by omega)]
      simpa using hf
    · right
      have : (k : Int) + 1 = (row.length : Int) := by exact_mod_cast hk1
      simp [check_last, hf, this]

theorem after_pixrow (m : Nat) (rows : List (List (Tok × Tok × Tok)))
    (hrows : ∀ row ∈ rows, row ≠ [] ∧ ∀ p ∈ row, PixOK m p) (tail : List Nat)
    (htail : dropWs tail = tail) (r : Nat) (hr : r < rows.length) :
    dropWs ((rows.drop (r + 1)).flatMap (fun row => row.flatMap pixBytes) ++ tail)
        = (rows.drop (r + 1)).flatMap (fun row => row.flatMap pixBytes) ++ tail ∧
      ((rows.drop (r + 1)).flatMap (fun row => row.flatMap pixBytes) ++ tail ≠ [] ∨
        ((r : Int) + 1 = (rows.length : Int))) := by
  have e : (rows.drop (r + 1)).flatMap (fun row => row.flatMap pixBytes)
      = rowsBytes ((rows.drop (r + 1)).map (fun row => row.flatMap (fun p => [p.1, p.2.1, p.2.2]))) := by
    unfold rowsBytes
    rw [List.flatMap_map]
    apply List.flatMap_congr
    intro row _
    exact pixBytes_eq_toks row
  have hd : ∀ row ∈ (rows.drop (r + 1)).map (fun row => row.flatMap (fun p => [p.1, p.2.1, p.2.2])),
      row ≠ [] ∧ ∀ t ∈ row, t.WF := by
    intro row hrow
    obtain ⟨row0, h0, rfl⟩ := List.mem_map.1 hrow
    obtain ⟨hne, hwf⟩ := hrows row0 (List.mem_of_mem_drop h0)
    constructor
    · cases row0 with
      | nil => exact absurd rfl hne
      | cons p ps => simp [List.flatMap_cons]
    · intro t ht
      obtain ⟨p, hp, ht⟩ := List.mem_flatMap.1 ht
      obtain ⟨h1, h2, h3⟩ := hwf p hp
      simp only [List.mem_cons, List.mem_singleton, List.not_mem_nil, or_false] at ht
      rcases ht with rfl | rfl | rfl
      · exact h1.1
      · exact h2.1
      · exact h3.1
  rw [e]
  refine ⟨dropWs_rowsBytes _ hd _ htail, ?_⟩
  by_cases hlast : r + 1 < rows.length
  · left
    exact rowsBytes_ne_nil _ hd (by
      intro he
      have := congrArg List.length he
      simp at this
      omega) _
  · right
    have : r + 1 = rows.length := by omega
    exact_mod_cast this

/-- The rows of `to_gray_scale_ascii` (P3 -> P2): every pixel becomes its
luminosity written as `%3d` and a space, every row ends with a newline. -/
theorem to_gray_scale_ascii_ok (m w : Nat) (hw1 : 1 ≤ w) (rows : List (List (Tok × Tok × Tok)))
    (hw : ∀ row ∈ rows, row.length = w)
    (hwf : ∀ row ∈ rows, ∀ p ∈ row, PixOK m p) (hm : m < 2147483648)
    (hwb : w < 2147483647) (hhb : rows.length < 2147483647)
    (tail : List Nat) (htail : dropWs tail = tail) (out : List Nat) :
    to_gray_scale_ascii (w : Int) (rows.length : Int) (m : Int)
        ⟨rows.flatMap (fun row => row.flatMap pixBytes) ++ tail, out⟩
      = .ok () ⟨tail, out ++ rows.flatMap (fun row =>
          row.flatMap (fun p => fmt_3d (luminosity p.1.val p.2.1.val p.2.2.val) ++ [32])
            ++ [10])⟩ := by
  unfold to_gray_scale_ascii
  apply forTo_items
  · exact hhb
  intro r hr out
  have hlen : rows[r].length = w := hw _ (List.getElem_mem _)
  have hrows : ∀ row ∈ rows, row ≠ [] ∧ ∀ p ∈ row, PixOK m p := fun row h =>
    ⟨by intro he; have := hw row h; rw [he] at this; simp at this; omega, hwf row h⟩
  obtain ⟨h1, h2⟩ := after_pixrow m rows hrows tail htail r hr
  rw [← hlen]
  simp only [bind_apply]
  rw [forTo_items _ rows[r] pixBytes
    (fun p => fmt_3d (luminosity p.1.val p.2.1.val p.2.2.val) ++ [32]) _ (by omega)
    (fun k hk out => by
      obtain ⟨a1, a2⟩ := after_pix m rows[r] (hwf _ (List.getElem_mem hr)) _ h1 _ _ h2 k hk
      obtain ⟨⟨r1, r2⟩, ⟨g1, g2⟩, ⟨b1, b2⟩⟩ := hwf _ (List.getElem_mem hr) _ (List.getElem_mem hk)
      simp only [bind_apply, pixBytes, List.append_assoc]
      rw [get_ascii_num_tok (m : Int) _ _ r1 _ out (by omega) (Or.inr (by exact_mod_cast r2))
        (dropWs_tok_bytes _ g1 _)
        (Or.inl (by simp [tok_bytes_ne_nil _ g1]))]
      simp only []
      rw [get_ascii_num_tok (m : Int) _ _ g1 _ out (by omega) (Or.inr (by exact_mod_cast g2))
        (dropWs_tok_bytes _ b1 _) (Or.inl (by simp [tok_bytes_ne_nil _ b1]))]
      simp only []
      rw [get_ascii_num_tok (m : Int) _ _ b1 _ out (by omega) (Or.inr (by exact_mod_cast b2))
        a1 a2]
      simp only [puts_apply]) out]
  simp [putchar_apply]

/-- The rows of `ascii_to_binary_cg` (P2 -> P5, and P3 -> P6 with three samples
per pixel): every sample is written as one byte. -/
theorem ascii_to_binary_cg_ok (m w : Nat) (hw1 : 1 ≤ w) (rows : List (List Tok))
    (hw : ∀ row ∈ rows, row.length = w)
    (hwf : ∀ row ∈ rows, ∀ t ∈ row, t.WF ∧ t.val ≤ m) (hm : m < 2147483648)
    (hwb : w < 2147483647) (hhb : rows.length < 2147483647)
    (tail : List Nat) (htail : dropWs tail = tail) (out : List Nat) :
    ascii_to_binary_cg (w : Int) (rows.length : Int) (m : Int) ⟨rowsBytes rows ++ tail, out⟩
      = .ok () ⟨tail, out ++ rows.flatMap (fun row =>
          row.map (fun t => (((t.val : Nat) : Int) % 256).toNat))⟩ := by
  unfold ascii_to_binary_cg rowsBytes
  apply forTo_items
  · exact hhb
  intro r hr out
  have hlen : rows[r].length = w := hw _ (List.getElem_mem _)
  have hrows : ∀ row ∈ rows, row ≠ [] ∧ ∀ t ∈ row, t.WF := fun row h =>
    ⟨by intro he; have := hw row h; rw [he] at this; simp at this; omega,
     fun t ht => (hwf row h t ht).1⟩
  obtain ⟨h1, h2⟩ := after_row rows hrows tail htail r hr
  rw [← hlen]
  have := ascii_row (m : Int) putchar (fun c => [(c % 256).toNat])
    (fun c inp out => putchar_apply c inp out)
    rows[r] (fun t ht => (hwf _ (List.getElem_mem hr) t ht).1)
    (fun t ht => by
      have := (hwf _ (List.getElem_mem hr) t ht).2
      exact ⟨by omega, Or.inr (by exact_mod_cast this)⟩)
    (by omega) _ h1 ((r : Int) + 1) (rows.length : Int) h2 out
  unfold rowsBytes at this
  rw [this, flatMap_singleton_map]

/-! ## The two builds, by input type -/

theorem transform_type2 (w h m : Int) (s : St) :
    transform ⟨2, w, h, m⟩ s
      = (puts ([80, 49, 32] ++ fmt_d w ++ [32] ++ fmt_d h ++ [10]) >>= fun _ =>
          to_bnw_ascii w h m) s := by
  have e : fmt_d 1 = [49] := by decide
  simp [transform, e]

theorem transform_type3 (w h m : Int) (s : St) :
    transform ⟨3, w, h, m⟩ s
      = (puts ([80, 50, 32] ++ fmt_d w ++ [32] ++ fmt_d h ++ [32] ++ fmt_d m ++ [10]) >>= fun _ =>
          to_gray_scale_ascii w h m) s := by
  have e : fmt_d 2 = [50] := by decide
  simp [transform, e]

theorem transform_type5 (w h m : Int) (s : St) :
    transform ⟨5, w, h, m⟩ s
      = (puts ([80, 52, 32] ++ fmt_d w ++ [32] ++ fmt_d h ++ [10]) >>= fun _ =>
          to_bnw_binary w h m) s := by
  have e : fmt_d 4 = [52] := by decide
  simp [transform, e]

theorem transform_type6 (w h m : Int) (s : St) :
    transform ⟨6, w, h, m⟩ s
      = (puts ([80, 53, 32] ++ fmt_d w ++ [32] ++ fmt_d h ++ [32] ++ fmt_d m ++ [10]) >>= fun _ =>
          to_gray_scale_binary w h m) s := by
  have e : fmt_d 5 = [53] := by decide
  simp [transform, e]

theorem transform_type1 (w h m : Int) (s : St) : transform ⟨1, w, h, m⟩ s = .exit s.out := by
  simp [transform, bind_apply, check_error_true]

theorem transform_type4 (w h m : Int) (s : St) : transform ⟨4, w, h, m⟩ s = .exit s.out := by
  simp [transform, bind_apply, check_error_true]

theorem convert_type1 (w h m : Int) (s : St) :
    convert ⟨1, w, h, m⟩ s
      = (puts ([80, 52, 32] ++ fmt_d w ++ [32] ++ fmt_d h ++ [10]) >>= fun _ =>
          ascii_to_binary_bnw w h m) s := by
  have e : fmt_d 4 = [52] := by decide
  simp [convert, e]

theorem convert_type2 (w h m : Int) (s : St) :
    convert ⟨2, w, h, m⟩ s
      = (puts ([80, 53, 32] ++ fmt_d w ++ [32] ++ fmt_d h ++ [32] ++ fmt_d m ++ [10]) >>= fun _ =>
          ascii_to_binary_cg w h m) s := by
  have e : fmt_d 5 = [53] := by decide
  simp [convert, e]

theorem convert_type3 (w h m : Int) (s : St) :
    convert ⟨3, w, h, m⟩ s
      = (puts ([80, 54, 32] ++ fmt_d w ++ [32] ++ fmt_d h ++ [32] ++ fmt_d m ++ [10]) >>= fun _ =>
          ascii_to_binary_cg (wrap32 (3 * w)) h m) s := by
  have e : fmt_d 6 = [54] := by decide
  simp [convert, e]

theorem convert_type4 (w h m : Int) (s : St) :
    convert ⟨4, w, h, m⟩ s
      = (puts ([80, 49, 32] ++ fmt_d w ++ [32] ++ fmt_d h ++ [10]) >>= fun _ =>
          binary_to_ascii_bnw w h m) s := by
  have e : fmt_d 1 = [49] := by decide
  simp [convert, e]

theorem convert_type5 (w h m : Int) (s : St) :
    convert ⟨5, w, h, m⟩ s
      = (puts ([80, 50, 32] ++ fmt_d w ++ [32] ++ fmt_d h ++ [32] ++ fmt_d m ++ [10]) >>= fun _ =>
          binary_to_ascii_cg w h m) s := by
  have e : fmt_d 2 = [50] := by decide
  simp [convert, e]

theorem convert_type6 (w h m : Int) (s : St) :
    convert ⟨6, w, h, m⟩ s
      = (puts ([80, 51, 32] ++ fmt_d w ++ [32] ++ fmt_d h ++ [32] ++ fmt_d m ++ [10]) >>= fun _ =>
          binary_to_ascii_cg (wrap32 (3 * w)) h m) s := by
  have e : fmt_d 3 = [51] := by decide
  simp [convert, e]

/-! ## Bits of a packed byte -/

theorem testBit_255 (p : Nat) (hp : p < 8) : Nat.testBit 255 p = true := by
  interval_cases p <;> decide

theorem testBit_xor_mask (a k p : Nat) :
    (a ^^^ (1 <<< k)).testBit p = (a.testBit p ^^ decide (k = p)) := by
  rw [Nat.testBit_xor, Nat.one_shiftLeft, Nat.testBit_two_pow]

/-- Bit `p` of the byte held after `k` samples: the bit value of sample `7 - p`
if that sample has been seen, 1 otherwise. -/
theorem packUpto_testBit (bits : List Bool) (k : Nat) (hk : k ≤ 8) (p : Nat) (hp : p < 8) :
    (packUpto bits k).testBit p = if 7 - p < k then bits.getD (7 - p) true else true := by
  induction k with
  | zero => simp [packUpto, testBit_255 p hp]
  | succ k ih =>
    have ih := ih (by omega)
    simp only [packUpto]
    by_cases hb : bits.getD k true = true
    · rw [if_pos hb, ih]
      by_cases h1 : 7 - p < k
      · rw [if_pos h1, if_pos (by omega)]
      · rw [if_neg h1]
        by_cases h2 : 7 - p = k
        · rw [if_pos (by omega), h2, hb]
        · rw [if_neg (by omega)]
    · rw [if_neg hb, testBit_xor_mask, ih]
      have hb' : bits.getD k true = false := by simpa using hb
      by_cases h1 : 7 - p < k
      · rw [if_pos h1, if_pos (by omega)]
        have : ¬ (7 - k = p) := by omega
        simp [this]
      · rw [if_neg h1]
        by_cases h2 : 7 - p = k
        · rw [if_pos (by omega), h2, hb']
          have : 7 - k = p := by omega
          simp [this]
        · rw [if_neg (by omega)]
          have : ¬ (7 - k = p) := by omega
          simp [this]

/-- Bit `7 - i` of a packed group is the bit value of its sample `i`; the bits
below the group's samples are 1. -/
theorem packByte_testBit (bits : List Bool) (hlen : bits.length ≤ 8) (i : Nat) (hi : i < 8) :
    (packByte bits).testBit (7 - i) = bits.getD i true := by
  unfold packByte
  rw [packUpto_testBit bits _ hlen (7 - i) (by omega)]
  have e : 7 - (7 - i) = i := by omega
  rw [e]
  split
  · rfl
  · rw [List.getD_eq_default]
    omega

/-- Bit `7 - c % 8` of byte `c / 8` of a packed row is the bit value of its
sample `c`. -/
theorem packRow_testBit (bits : List Bool) (c : Nat) (hc : c < bits.length) :
    ((packRow bits).getD (c / 8) 0).testBit (7 - c % 8) = bits.getD c true := by
  unfold packRow
  have hlen : c / 8 < (chunks8 ((bits.length + 7) / 8) bits).length := by
    rw [chunks8_length]; omega
  rw [List.getD_eq_getElem _ _ (by simpa using hlen), List.getElem_map, chunks8_getElem _ _ _ hlen,
    packByte_testBit _ (by simp) _ (Nat.mod_lt _ (by omega))]
  have h1 : c % 8 < ((bits.drop (8 * (c / 8))).take 8).length := by
    simp only [List.length_take, List.length_drop]; omega
  rw [List.getD_eq_getElem _ _ h1, List.getD_eq_getElem _ _ hc, List.getElem_take,
    List.getElem_drop]
  congr 1
  omega

/-- The bits of the last byte of a packed row below its last sample are 1. -/
theorem packRow_padding (bits : List Bool) (hne : bits.length % 8 ≠ 0) (p : Nat)
    (hp : p < 8 - bits.length % 8) :
    ((packRow bits).getD ((bits.length + 7) / 8 - 1) 0).testBit p = true := by
  unfold packRow
  have hlen : (bits.length + 7) / 8 - 1 < (chunks8 ((bits.length + 7) / 8) bits).length := by
    rw [chunks8_length]; omega
  rw [List.getD_eq_getElem _ _ (by simpa using hlen), List.getElem_map, chunks8_getElem _ _ _ hlen]
  unfold packByte
  rw [packUpto_testBit _ _ (by simp) p (by omega), if_neg]
  simp only [List.length_take, List.length_drop]
  omega

theorem packRow_length (bits : List Bool) : (packRow bits).length = (bits.length + 7) / 8 := by
  simp [packRow, chunks8_length]

/-! ## Luminosity and `%3d` on small values -/

theorem luminosity_natCast (r g b : Nat) (h : 299 * r + 587 * g + 114 * b < 2147483648) :
    luminosity (r : Int) (g : Int) (b : Int) = (((299 * r + 587 * g + 114 * b) / 1000 : Nat) : Int) := by
  unfold luminosity
  rw [wrap32_of_lt (by omega) (by omega), Int.tdiv_eq_ediv (by omega) (by omega)]
  omega

theorem decDigits_small (n : Nat) (h : n < 1000) :
    decDigits n = if n < 10 then [48 + n]
      else if n < 100 then [48 + n / 10, 48 + n % 10]
      else [48 + n / 100, 48 + n / 10 % 10, 48 + n % 10] := by
  unfold decDigits
  by_cases h1 : n < 10
  · simp [decDigitsAux, h1]
  · obtain ⟨a, rfl⟩ : ∃ a, n = a + 1 := ⟨n - 1, by omega⟩
    by_cases h2 : a + 1 < 100
    · have h3 : (a + 1) / 10 < 10 := by omega
      obtain ⟨b, rfl⟩ : ∃ b, a = b + 1 := ⟨a - 1, by omega⟩
      simp [decDigitsAux, h1, h2, h3]
    · have h3 : ¬ (a + 1) / 10 < 10 := by omega
      have h4 : (a + 1) / 10 / 10 < 10 := by omega
      obtain ⟨b, rfl⟩ : ∃ b, a = b + 1 := ⟨a - 1, by omega⟩
      obtain ⟨c, rfl⟩ : ∃ c, b = c + 1 := ⟨b - 1, by omega⟩
      simp only [decDigitsAux, h1, h2, h3, h4, if_false, if_true]
      have : (c + 1 + 1 + 1) / 10 / 10 = (c + 1 + 1 + 1) / 100 := by omega
      rw [this]

/-- The text of `%3d` for a value below 1000: three characters, the digits
right-aligned. -/
theorem fmt_3d_small (n : Nat) (h : n < 1000) :
    fmt_3d (n : Int) = if n < 10 then [32, 32, 48 + n]
      else if n < 100 then [32, 48 + n / 10, 48 + n % 10]
      else [48 + n / 100, 48 + n / 10 % 10, 48 + n % 10] := by
  unfold fmt_3d
  rw [fmt_d_natCast, decDigits_small n h]
  split_ifs <;> rfl

/-! ## Threshold polarity (C4) -/

theorem flatMap_eq_flatten_map {α β : Type} (l : List α) (f : α → List β) :
    l.flatMap f = (l.map f).flatten := by
  induction l with
  | nil => rfl
  | cons a l ih => simp [List.flatMap_cons, ih]

/-- DOWNSAMPLE gray -> bilevel on the pixel data the header read leaves.  For a
declared maximum `m ≤ 255`, a width `w ≥ 1` and samples `s ≤ m`: P2 data (rows
of well-formed tokens) is turned into `P1 w h\n` and, per sample, the digit `0`
if `s > (m + 1) / 2` and the digit `1` otherwise, each followed by a space, with
a newline after every row; P5 data is turned into `P4 w h\n` and the rows of
those bit values packed eight to a byte. -/
theorem transform_gray_rows (g : Int) (X2 X5 : List Nat) (m w : Nat) (hm : m ≤ 255) (hw : 1 ≤ w)
    (hwb : w ≤ 2147483640)
    (toks : List (List Tok)) (grays : List (List Nat))
    (ht : ∀ row ∈ toks, row.length = w ∧ ∀ t ∈ row, t.WF ∧ t.val ≤ m)
    (hg : ∀ row ∈ grays, row.length = w ∧ ∀ s ∈ row, s ≤ m)
    (htb : toks.length < 2147483647) (hgb : grays.length < 2147483647)
    (h2 : read_header g ⟨X2, []⟩ = .ok ⟨2, w, toks.length, m⟩ ⟨rowsBytes toks, []⟩)
    (h5 : read_header g ⟨X5, []⟩ = .ok ⟨5, w, grays.length, m⟩ ⟨grays.flatten, []⟩) :
    run .TRANSFORM g X2 = .ok () ⟨[], [80, 49, 32] ++ decDigits w ++ [32]
        ++ decDigits toks.length ++ [10] ++ toks.flatMap (fun row =>
          row.flatMap (fun t => [if t.val > (m + 1) / 2 then 48 else 49, 32]) ++ [10])⟩ ∧
      run .TRANSFORM g X5 = .ok () ⟨[], [80, 52, 32] ++ decDigits w ++ [32]
        ++ decDigits grays.length ++ [10]
        ++ grays.flatMap (fun row => packRow (row.map (thresholdBit m)))⟩ := by
  constructor
  · refine run_eq_of _ _ h2 ?_
    simp only [transcode]
    rw [transform_type2, bind_ok (puts_apply _ _ _)]
    have := to_bnw_ascii_ok m w hw toks (fun row h => (ht row h).1) (fun row h => (ht row h).2)
      (by omega) (by omega) htb [] rfl ([] ++ ([80, 49, 32] ++ fmt_d (w : Int) ++ [32]
        ++ fmt_d (toks.length : Int) ++ [10]))
    simp only [List.append_nil, List.nil_append] at this ⊢
    rw [this, fmt_d_natCast, fmt_d_natCast]
    congr 3
    apply List.flatMap_congr
    intro row _
    congr 1
    apply List.flatMap_congr
    intro t _
    unfold thresholdBit
    by_cases hc : t.val > (m + 1) / 2 <;> simp [hc]
  · refine run_eq_of _ _ h5 ?_
    simp only [transcode]
    rw [transform_type5, bind_ok (puts_apply _ _ _)]
    have := to_bnw_binary_ok m w grays (fun row h => (hg row h).1) (fun row h => (hg row h).2)
      hwb hgb
      [] ([] ++ ([80, 52, 32] ++ fmt_d (w : Int) ++ [32] ++ fmt_d (grays.length : Int) ++ [10]))
    simp only [List.append_nil, List.nil_append] at this ⊢
    rw [this, fmt_d_natCast, fmt_d_natCast]

/-- C4: DOWNSAMPLE gray -> bilevel.  With the maximum 255 the samples 255, 0,
128, 129 of the P2 stream `P2 4 1 255\n255 0 128 129\n` become the digits
`0 1 1 0 ` and the same samples of a P5 stream become the bits 0110 of the byte
0x6F: a sample above `(255 + 1) / 2 = 128` gives 0, any other gives 1.  But on
the P5 stream `P5 1 1 255\n` followed by the one sample 32, for which the rule
gives the bit 1, the run ends in the header read and writes nothing, whatever
the unassigned `max_color` holds: the header read has skipped the sample as
white space. -/
theorem threshold_polarity_first_sample_skipped :
    run .TRANSFORM 0 grayAsciiExample
        = .ok () ⟨[], [80, 49, 32, 52, 32, 49, 10, 48, 32, 49, 32, 49, 32, 48, 32, 10]⟩ ∧
      run .TRANSFORM 0 grayBinaryExample = .ok () ⟨[], [80, 52, 32, 52, 32, 49, 10, 0x6F]⟩ ∧
      thresholdBit 255 32 = true ∧
      (∀ g, run .TRANSFORM g [80, 53, 32, 49, 32, 49, 32, 50, 53, 53, 10, 32] = .exit []) ∧
      (∀ g, read_header g ⟨[80, 53, 32, 49, 32, 49, 32, 50, 53, 53, 10, 32], []⟩ = .exit []) := by
  have h := transform_gray_rows 0 grayAsciiExample grayBinaryExample 255 4 (by decide) (by decide)
    (by decide) grayAsciiExampleToks [[255, 0, 128, 129]] (by decide) (by decide) (by decide)
    (by decide) (by decide) (by decide)
  exact ⟨h.1.trans (by decide), h.2.trans (by decide), by decide,
    fun _ => run_exit_of_header rfl, fun _ => rfl⟩

/-! ## Colour to gray (C5) -/

/-- DOWNSAMPLE colour -> gray on the pixel data the header read leaves.  For a
declared maximum `m ≤ 255`, a width `w ≥ 1` and samples up to `m`: P3 data is
turned into `P2 w h m\n` and, per pixel `(r, g, b)`, the number
`(299 r + 587 g + 114 b) / 1000` written as `%3d` followed by a space, with a
newline after every row; P6 data is turned into `P5 w h m\n` and, per pixel,
one byte of that value.  `%3d` of a value below 1000 is the decimal
right-aligned in three characters. -/
theorem transform_colour_rows (g : Int) (X3 X6 : List Nat) (m w : Nat) (hm : m ≤ 255) (hw : 1 ≤ w)
    (hwb : w < 2147483647)
    (pix : List (List (Tok × Tok × Tok))) (raw : List (List (Nat × Nat × Nat)))
    (hp : ∀ row ∈ pix, row.length = w ∧ ∀ p ∈ row, PixOK m p)
    (hr : ∀ row ∈ raw, row.length = w ∧ ∀ p ∈ row, p.1 ≤ m ∧ p.2.1 ≤ m ∧ p.2.2 ≤ m)
    (hpb : pix.length < 2147483647) (hrb : raw.length < 2147483647)
    (h3 : read_header g ⟨X3, []⟩
      = .ok ⟨3, w, pix.length, m⟩ ⟨pix.flatMap (fun row => row.flatMap pixBytes), []⟩)
    (h6 : read_header g ⟨X6, []⟩
      = .ok ⟨6, w, raw.length, m⟩
          ⟨raw.flatMap (fun row => row.flatMap (fun p => [p.1, p.2.1, p.2.2])), []⟩) :
    run .TRANSFORM g X3 = .ok () ⟨[], [80, 50, 32] ++ decDigits w ++ [32]
        ++ decDigits pix.length ++ [32] ++ decDigits m ++ [10] ++ pix.flatMap (fun row =>
          row.flatMap (fun p => fmt_3d
            (((299 * p.1.val + 587 * p.2.1.val + 114 * p.2.2.val) / 1000 : Nat) : Int) ++ [32])
          ++ [10])⟩ ∧
      run .TRANSFORM g X6 = .ok () ⟨[], [80, 53, 32] ++ decDigits w ++ [32]
        ++ decDigits raw.length ++ [32] ++ decDigits m ++ [10] ++ raw.flatMap (fun row =>
          row.map (fun p => (299 * p.1 + 587 * p.2.1 + 114 * p.2.2) / 1000))⟩ ∧
      (∀ v : Nat, v < 1000 → fmt_3d (v : Int) = if v < 10 then [32, 32, 48 + v]
        else if v < 100 then [32, 48 + v / 10, 48 + v % 10]
        else [48 + v / 100, 48 + v / 10 % 10, 48 + v % 10]) := by
  refine ⟨?_, ?_, fmt_3d_small⟩
  · refine run_eq_of _ _ h3 ?_
    simp only [transcode]
    rw [transform_type3, bind_ok (puts_apply _ _ _)]
    have := to_gray_scale_ascii_ok m w hw pix (fun row h => (hp row h).1)
      (fun row h => (hp row h).2) (by omega) hwb hpb [] rfl ([] ++ ([80, 50, 32] ++ fmt_d (w : Int)
        ++ [32] ++ fmt_d (pix.length : Int) ++ [32] ++ fmt_d (m : Int) ++ [10]))
    simp only [List.append_nil, List.nil_append] at this ⊢
    have e : pix.flatMap (fun row => row.flatMap (fun p =>
          fmt_3d (luminosity p.1.val p.2.1.val p.2.2.val) ++ [32]) ++ [10])
        = pix.flatMap (fun row => row.flatMap (fun p => fmt_3d
            (((299 * p.1.val + 587 * p.2.1.val + 114 * p.2.2.val) / 1000 : Nat) : Int) ++ [32])
          ++ [10]) := by
      apply List.flatMap_congr
      intro row hrow
      have : row.flatMap (fun p => fmt_3d (luminosity p.1.val p.2.1.val p.2.2.val) ++ [32])
          = row.flatMap (fun p => fmt_3d
            (((299 * p.1.val + 587 * p.2.1.val + 114 * p.2.2.val) / 1000 : Nat) : Int) ++ [32]) := by
        apply List.flatMap_congr
        intro p hpm
        obtain ⟨⟨_, h1⟩, ⟨_, h2⟩, ⟨_, h3⟩⟩ := (hp row hrow).2 p hpm
        have hb : 299 * p.1.val + 587 * p.2.1.val + 114 * p.2.2.val < 2147483648 := by omega
        rw [luminosity_natCast p.1.val p.2.1.val p.2.2.val hb]
      rw [this]
    rw [this, fmt_d_natCast, fmt_d_natCast, fmt_d_natCast, e]
  · refine run_eq_of _ _ h6 ?_
    simp only [transcode]
    rw [transform_type6, bind_ok (puts_apply _ _ _)]
    have := to_gray_scale_binary_ok (m : Int) w raw (fun row h => (hr row h).1)
      (fun row h p hpm => by
        obtain ⟨h1, h2, h3⟩ := (hr row h).2 p hpm
        exact ⟨by exact_mod_cast h1, by exact_mod_cast h2, by exact_mod_cast h3⟩)
      hwb hrb [] ([] ++ ([80, 53, 32] ++ fmt_d (w : Int)
        ++ [32] ++ fmt_d (raw.length : Int) ++ [32] ++ fmt_d (m : Int) ++ [10]))
    simp only [List.append_nil, List.nil_append] at this ⊢
    have e : raw.flatMap (fun row => row.map (fun p =>
          (luminosity p.1 p.2.1 p.2.2 % 256).toNat))
        = raw.flatMap (fun row =>
          row.map (fun p => (299 * p.1 + 587 * p.2.1 + 114 * p.2.2) / 1000)) := by
      apply List.flatMap_congr
      intro row hrow
      apply List.map_congr_left
      intro p hpm
      obtain ⟨h1, h2, h3⟩ := (hr row hrow).2 p hpm
      have hb : 299 * p.1 + 587 * p.2.1 + 114 * p.2.2 < 2147483648 := by omega
      rw [luminosity_natCast p.1 p.2.1 p.2.2 hb]
      have : (299 * p.1 + 587 * p.2.1 + 114 * p.2.2) / 1000 ≤ 255 := by omega
      omega
    rw [this, fmt_d_natCast, fmt_d_natCast, fmt_d_natCast, e]

/-- C5: DOWNSAMPLE colour -> gray.  The pixels (0,0,0), (255,0,0), (0,255,0),
(0,0,255) of a 2 x 2 image with maximum 255 give 0, 76, 149 and 29: the P3
stream becomes `P2 2 2 255\n  0  76 \n149  29 \n` and the P6 stream becomes
`P5 2 2 255\n` followed by the bytes 0, 76, 149, 29.  But on the P6 stream
`P6 1 1 255\n` followed by the one pixel (10, 20, 30), whose luminosity is 18,
the run writes only the header `P5 1 1 255\n` and ends the process, whatever
the unassigned `max_color` holds: the header read has skipped the sample 10 as
white space, so the pixel is read as 20, 30 and the end of the stream. -/
theorem colour_to_gray_first_sample_skipped :
    run .TRANSFORM 0 colourAsciiExample
        = .ok () ⟨[], [80, 50, 32, 50, 32, 50, 32, 50, 53, 53, 10,
            32, 32, 48, 32, 32, 55, 54, 32, 10, 49, 52, 57, 32, 32, 50, 57, 32, 10]⟩ ∧
      run .TRANSFORM 0 colourBinaryExample
        = .ok () ⟨[], [80, 53, 32, 50, 32, 50, 32, 50, 53, 53, 10, 0, 76, 149, 29]⟩ ∧
      luminosity 0 0 0 = 0 ∧ luminosity 255 0 0 = 76 ∧ luminosity 0 255 0 = 149 ∧
      luminosity 0 0 255 = 29 ∧ luminosity 10 20 30 = 18 ∧
      (∀ g, run .TRANSFORM g [80, 54, 32, 49, 32, 49, 32, 50, 53, 53, 10, 10, 20, 30]
        = .exit [80, 53, 32, 49, 32, 49, 32, 50, 53, 53, 10]) ∧
      (∀ g, read_header g ⟨[80, 54, 32, 49, 32, 49, 32, 50, 53, 53, 10, 10, 20, 30], []⟩
        = .ok ⟨6, 1, 1, 255⟩ ⟨[20, 30], []⟩) := by
  have h := transform_colour_rows 0 colourAsciiExample colourBinaryExample 255 2 (by decide)
    (by decide) (by decide)
    colourAsciiExamplePix [[(0, 0, 0), (255, 0, 0)], [(0, 255, 0), (0, 0, 255)]]
    (by decide) (by decide) (by decide) (by decide) (by decide) (by decide)
  exact ⟨h.1.trans (by decide), h.2.1.trans (by decide), by decide, by decide, by decide,
    by decide, by decide,
    fun _ => run_eq_of ⟨6, 1, 1, 255⟩ ⟨[20, 30], []⟩ rfl (by decide), fun _ => rfl⟩

/-! ## The comment loop -/

theorem ignore_comments_loop_nil (f : Nat) (fh : Bool) (out : List Nat) :
    ignore_comments_loop (f + 1) fh ⟨[], out⟩ = .ok EOF ⟨[], out⟩ := by
  simp [ignore_comments_loop, bind_apply, getchar_nil, pure_apply]

theorem ignore_comments_loop_hash (f : Nat) (fh : Bool) (cs out : List Nat) :
    ignore_comments_loop (f + 1) fh ⟨35 :: cs, out⟩ = ignore_comments_loop f true ⟨cs, out⟩ := by
  simp [ignore_comments_loop, bind_apply, getchar_cons, pure_apply, EOF]

theorem ignore_comments_loop_newline (f : Nat) (fh : Bool) (cs out : List Nat) :
    ignore_comments_loop (f + 1) fh ⟨10 :: cs, out⟩ = afterNewline f cs out := by
  unfold afterNewline
  simp only [ignore_comments_loop, bind_apply, getchar_cons, natCast_ne_EOF, Bool.false_eq_true,
    if_false, Nat.cast_ofNat]
  have h0 : ((10 : Int) == EOF) = false := by decide
  have h1 : ((10 : Int) == 35) = false := by decide
  simp only [h0, h1, Bool.false_eq_true, if_false, beq_self_eq_true, if_true, bind_apply,
    ignore_whitespace_eq]
  cases hd : dropWs cs with
  | nil => simp
  | cons d ds =>
    simp only [reduceCtorEq, false_and, if_false, getchar_cons, pure_apply, Bool.not_false,
      if_true]
    by_cases h2 : isdigit (d : Int) = true
    · simp [h2, pure_apply]
    · simp only [h2, Bool.false_eq_true, if_false]
      by_cases h3 : d = 35
      · subst h3
        simp [bind_apply, ungetc, EOF]
      · have : ((d : Int) == 35) = false := by
          simp only [beq_eq_false_iff_ne, ne_eq]; omega
        simp [this, h3, bind_apply, check_error_true]

theorem ignore_comments_loop_other_in (f : Nat) (c : Nat) (cs out : List Nat)
    (h1 : c ≠ 35) (h2 : c ≠ 10) :
    ignore_comments_loop (f + 1) true ⟨c :: cs, out⟩ = ignore_comments_loop f true ⟨cs, out⟩ := by
  have e0 : ¬ ((c : Int) = EOF) := by unfold EOF; omega
  have e1 : ¬ ((c : Int) = 35) := by omega
  have e2 : ¬ ((c : Int) = 10) := by omega
  simp [ignore_comments_loop, bind_apply, getchar_cons, e0, e1, e2, pure_apply]

theorem ignore_comments_loop_other_out (f : Nat) (c : Nat) (cs out : List Nat)
    (h1 : c ≠ 35) (h2 : c ≠ 10) :
    ignore_comments_loop (f + 1) false ⟨c :: cs, out⟩
      = if isdigit (c : Int) then .ok (c : Int) ⟨cs, out⟩ else .exit out := by
  have e0 : ¬ ((c : Int) = EOF) := by unfold EOF; omega
  have e1 : ¬ ((c : Int) = 35) := by omega
  have e2 : ¬ ((c : Int) = 10) := by omega
  by_cases h3 : isdigit (c : Int) = true
  · simp [ignore_comments_loop, bind_apply, getchar_cons, e0, e1, e2, pure_apply, h3]
  · simp [ignore_comments_loop, bind_apply, getchar_cons, e0, e1, e2, pure_apply, h3,
      check_error_true]

theorem dropWs_length_le (l : List Nat) : (dropWs l).length ≤ l.length := by
  induction l with
  | nil => simp [dropWs]
  | cons c cs ih =>
    by_cases h : isspace (c : Int) = true
    · rw [dropWs_cons_of_space _ h]; simp; omega
    · rw [dropWs_cons_of_not_space _ (by simpa using h)]

/-- The budget of the comment loop does not matter once it exceeds the number
of unread bytes. -/
theorem ignore_comments_loop_fuel : ∀ (f f' : Nat) (fh : Bool) (inp out : List Nat),
    inp.length < f → inp.length < f' →
    ignore_comments_loop f fh ⟨inp, out⟩ = ignore_comments_loop f' fh ⟨inp, out⟩ := by
  intro f
  induction f with
  | zero => intro f' fh inp out h; omega
  | succ f ih =>
    intro f' fh inp out h h'
    obtain ⟨f', rfl⟩ : ∃ k, f' = k + 1 := ⟨f' - 1, by omega⟩
    cases inp with
    | nil => rw [ignore_comments_loop_nil, ignore_comments_loop_nil]
    | cons c cs =>
      simp only [List.length_cons] at h h'
      by_cases h1 : c = 35
      · subst h1
        rw [ignore_comments_loop_hash, ignore_comments_loop_hash]
        exact ih _ _ _ _ (by omega) (by omega)
      · by_cases h2 : c = 10
        · subst h2
          rw [ignore_comments_loop_newline, ignore_comments_loop_newline]
          unfold afterNewline
          have hl := dropWs_length_le cs
          cases hd : dropWs cs with
          | nil => rfl
          | cons d ds =>
            rw [hd] at hl
            simp only [List.length_cons] at hl
            simp only []
            split_ifs
            · rfl
            · exact ih _ _ _ _ (by simp; omega) (by simp; omega)
            · rfl
        · cases fh with
          | true =>
            rw [ignore_comments_loop_other_in _ _ _ _ h1 h2,
              ignore_comments_loop_other_in _ _ _ _ h1 h2]
            exact ih _ _ _ _ (by omega) (by omega)
          | false =>
            rw [ignore_comments_loop_other_out _ _ _ _ h1 h2,
              ignore_comments_loop_other_out _ _ _ _ h1 h2]

/-- The comment loop always leaves within its budget. -/
theorem ignore_comments_loop_ne_stuck : ∀ (f : Nat) (fh : Bool) (inp out : List Nat),
    inp.length < f → ignore_comments_loop f fh ⟨inp, out⟩ ≠ .stuck := by
  intro f
  induction f with
  | zero => intro fh inp out h; omega
  | succ f ih =>
    intro fh inp out h
    cases inp with
    | nil => rw [ignore_comments_loop_nil]; simp
    | cons c cs =>
      simp only [List.length_cons] at h
      by_cases h1 : c = 35
      · subst h1
        rw [ignore_comments_loop_hash]
        exact ih _ _ _ (by omega)
      · by_cases h2 : c = 10
        · subst h2
          rw [ignore_comments_loop_newline]
          unfold afterNewline
          have hl := dropWs_length_le cs
          cases hd : dropWs cs with
          | nil => simp
          | cons d ds =>
            rw [hd] at hl
            simp only [List.length_cons] at hl
            simp only []
            split_ifs
            · simp
            · exact ih _ _ _ (by simp; omega)
            · simp
        · cases fh with
          | true =>
            rw [ignore_comments_loop_other_in _ _ _ _ h1 h2]
            exact ih _ _ _ (by omega)
          | false =>
            rw [ignore_comments_loop_other_out _ _ _ _ h1 h2]
            split_ifs <;> simp

/-- Inside a comment the loop runs to the newline that ends it. -/
theorem ignore_comments_loop_comment (body : List Nat) (hb : ∀ c ∈ body, c ≠ 10)
    (rest out : List Nat) : ∀ f : Nat,
    ignore_comments_loop (f + body.length + 1) true ⟨body ++ 10 :: rest, out⟩
      = afterNewline f rest out := by
  induction body with
  | nil => intro f; exact ignore_comments_loop_newline _ _ _ _
  | cons c cs ih =>
    intro f
    have hc : c ≠ 10 := hb c (List.mem_cons_self _ _)
    have e : f + (c :: cs).length + 1 = (f + cs.length + 1) + 1 := by simp; omega
    rw [e, List.cons_append]
    by_cases h1 : c = 35
    · subst h1
      rw [ignore_comments_loop_hash]
      exact ih (fun d hd => hb d (List.mem_cons_of_mem _ hd)) f
    · rw [ignore_comments_loop_other_in _ _ _ _ h1 hc]
      exact ih (fun d hd => hb d (List.mem_cons_of_mem _ hd)) f

/-! ## Comments before the width (C7) -/

theorem dropWs_head_not_space (l : List Nat) (d : Nat) (ds : List Nat) (h : dropWs l = d :: ds) :
    isspace (d : Int) = false := by
  induction l with
  | nil => simp [dropWs] at h
  | cons c cs ih =>
    by_cases hc : isspace (c : Int) = true
    · rw [dropWs_cons_of_space _ hc] at h; exact ih h
    · rw [dropWs_cons_of_not_space _ (by simpa using hc)] at h
      have : c = d := by injection h
      subst this
      simpa using hc

theorem ignore_comments_eq (inp out : List Nat) :
    ignore_comments ⟨inp, out⟩ =
      match dropWs inp with
      | [] => .exit out
      | d :: ds =>
        (ignore_comments_loop ((d :: ds).length + 1) false >>= fun ch =>
          check_error (ch == EOF) >>= fun _ => ungetc ch) ⟨d :: ds, out⟩ := by
  unfold ignore_comments
  simp only [bind_apply, ignore_whitespace_eq]
  cases hd : dropWs inp with
  | nil => simp
  | cons d ds => simp

theorem afterNewline_eq (f : Nat) (rest out : List Nat) (hf : rest.length < f) :
    afterNewline f rest out =
      match dropWs rest with
      | [] => .exit out
      | d :: ds => ignore_comments_loop ((d :: ds).length + 1) false ⟨d :: ds, out⟩ := by
  unfold afterNewline
  have hl := dropWs_length_le rest
  cases hd : dropWs rest with
  | nil => rfl
  | cons d ds =>
    rw [hd] at hl
    have hsp := dropWs_head_not_space rest d ds hd
    simp only []
    by_cases h1 : d = 35
    · subst h1
      have : isdigit ((35 : Nat) : Int) = false := by decide
      simp only [this, Bool.false_eq_true, if_false, if_true]
      exact ignore_comments_loop_fuel _ _ _ _ _ (by omega) (by omega)
    · have h2 : d ≠ 10 := by
        rintro rfl
        exact absurd hsp (by decide)
      rw [ignore_comments_loop_other_out _ _ _ _ h1 h2]
      simp [h1]

/-- One comment, with the white space before it, is skipped. -/
theorem ignore_comments_skip (ws body rest out : List Nat)
    (hws : ∀ c ∈ ws, isspace ((c : Nat) : Int) = true) (hb : ∀ c ∈ body, c ≠ 10) :
    ignore_comments ⟨ws ++ 35 :: (body ++ 10 :: rest), out⟩ = ignore_comments ⟨rest, out⟩ := by
  rw [ignore_comments_eq, ignore_comments_eq, dropWs_append_of_spaces _ _ hws,
    dropWs_cons_of_not_space _ (by decide)]
  simp only [bind_apply]
  have e : (35 :: (body ++ 10 :: rest)).length + 1 = ((rest.length + 1) + body.length + 1) + 1 := by
    simp; omega
  rw [e, ignore_comments_loop_hash, ignore_comments_loop_comment body hb rest out,
    afterNewline_eq _ _ _ (by omega)]
  cases hd : dropWs rest with
  | nil => rfl
  | cons d ds => rfl

theorem ignore_comments_spaces (ws rest out : List Nat)
    (hws : ∀ c ∈ ws, isspace ((c : Nat) : Int) = true) :
    ignore_comments ⟨ws ++ rest, out⟩ = ignore_comments ⟨rest, out⟩ := by
  rw [ignore_comments_eq, ignore_comments_eq, dropWs_append_of_spaces _ _ hws]

theorem ignore_comments_strip (segs : List (List Nat × List Nat)) (rest out : List Nat)
    (hsegs : ∀ p ∈ segs, (∀ c ∈ p.1, isspace ((c : Nat) : Int) = true) ∧ ∀ c ∈ p.2, c ≠ 10) :
    ignore_comments ⟨withComments segs ++ rest, out⟩
      = ignore_comments ⟨withoutComments segs ++ rest, out⟩ := by
  induction segs with
  | nil => rfl
  | cons p segs ih =>
    obtain ⟨h1, h2⟩ := hsegs p (List.mem_cons_self _ _)
    have ih := ih (fun q hq => hsegs q (List.mem_cons_of_mem _ hq))
    simp only [withComments, withoutComments, List.flatMap_cons, List.append_assoc,
      List.cons_append, List.nil_append] at ih ⊢
    rw [ignore_comments_skip _ _ _ _ h1 h2, ih, ignore_comments_spaces _ _ _ h1]

/-- A run depends on the text between the magic number and the width only
through `ignore_comments`. -/
theorem run_congr_comments (mode : Mode) (g : Int) (c1 c2 : Nat) (Y Y' : List Nat)
    (h : ignore_comments ⟨Y, []⟩ = ignore_comments ⟨Y', []⟩) :
    run mode g (c1 :: c2 :: Y) = run mode g (c1 :: c2 :: Y') := by
  unfold run main read_header
  simp only [bind_apply, getchar_cons]
  cases h1 : ((c1 : Int) != 80)
  · simp only [check_error_false, getchar_cons]
    cases h2 : (decide ((c2 : Int) - 48 < 1) || decide ((c2 : Int) - 48 > 6))
    · simp only [check_error_false, h]
    · simp only [check_error_true]
  · simp only [check_error_true]

/-- C7, as the code has it: `ignore_comments` is called once, between the
magic number and the width.  For every input whose text between the magic
number and the width holds `#`-to-newline comments (each after a possibly empty
run of white space), the run gives the same result, in either build, as for
the input with those comments removed. -/
theorem comments_before_width (mode : Mode) (g : Int) (c1 c2 : Nat)
    (segs : List (List Nat × List Nat)) (rest : List Nat)
    (hsegs : ∀ p ∈ segs, (∀ c ∈ p.1, isspace ((c : Nat) : Int) = true) ∧ ∀ c ∈ p.2, c ≠ 10) :
    run mode g (c1 :: c2 :: (withComments segs ++ rest))
      = run mode g (c1 :: c2 :: (withoutComments segs ++ rest)) :=
  run_congr_comments mode g c1 c2 _ _ (ignore_comments_strip segs rest [] hsegs)

/-- C7 on `P2\n# comment\n1 1\n255\n7\n`: the run equals the run on
`P2\n1 1\n255\n7\n`, which writes `P5 1 1 255\n` and the byte 7. -/
theorem comments_before_width_witness :
    run .CONVERT 0 (80 :: 50 :: (withComments [([10], [32, 99, 111, 109, 109, 101, 110, 116])]
        ++ [49, 32, 49, 10, 50, 53, 53, 10, 55, 10]))
      = run .CONVERT 0 (80 :: 50 :: (withoutComments [([10], [32, 99, 111, 109, 109, 101, 110, 116])]
        ++ [49, 32, 49, 10, 50, 53, 53, 10, 55, 10])) ∧
    run .CONVERT 0 (80 :: 50 :: (withoutComments [([10], [32, 99, 111, 109, 109, 101, 110, 116])]
        ++ [49, 32, 49, 10, 50, 53, 53, 10, 55, 10]))
      = .ok () ⟨[], [80, 53, 32, 49, 32, 49, 32, 50, 53, 53, 10, 7]⟩ :=
  ⟨comments_before_width .CONVERT 0 80 50 [([10], [32, 99, 111, 109, 109, 101, 110, 116])]
      [49, 32, 49, 10, 50, 53, 53, 10, 55, 10] (by decide),
    run_eq_of ⟨2, 1, 1, 255⟩ ⟨[55, 10], []⟩ (by decide) (by decide)⟩

/-- C7 as stated fails for a comment after the width: the header
`P2\n# comment\n10 10\n# another\n255\n` is rejected when the maximum is read,
and `P2\n1 1\n# another\n255\n7\n` is rejected with nothing written although
the same input without the comment, `P2\n1 1\n255\n7\n`, is converted. -/
theorem comment_after_width_rejected :
    read_header 0 ⟨[80, 50, 10, 35, 32, 99, 111, 109, 109, 101, 110, 116, 10,
        49, 48, 32, 49, 48, 10, 35, 32, 97, 110, 111, 116, 104, 101, 114, 10, 50, 53, 53, 10], []⟩
      = .exit [] ∧
    run .CONVERT 0 [80, 50, 10, 49, 32, 49, 10, 35, 32, 97, 110, 111, 116, 104, 101, 114, 10,
        50, 53, 53, 10, 55, 10] = .exit [] ∧
    run .CONVERT 0 [80, 50, 10, 49, 32, 49, 10, 50, 53, 53, 10, 55, 10]
      = .ok () ⟨[], [80, 53, 32, 49, 32, 49, 32, 50, 53, 53, 10, 7]⟩ :=
  ⟨by decide, run_exit_of_header (by decide),
    run_eq_of ⟨2, 1, 1, 255⟩ ⟨[55, 10], []⟩ (by decide) (by decide)⟩

/-! ## Runs that are followed to their end -/

theorem bind_ne_stuck {α β : Type} (x : Prog α) (f : α → Prog β) (s : St)
    (hx : x s ≠ .stuck) (hf : ∀ a s', f a s' ≠ .stuck) : (x >>= f) s ≠ .stuck := by
  rw [bind_apply]
  cases h : x s with
  | ok a s' => exact hf a s'
  | exit o => simp
  | stuck => exact absurd h hx

theorem check_error_ne_stuck (b : Bool) (s : St) : check_error b s ≠ .stuck := by
  cases b <;> simp [check_error]

theorem getchar_ne_stuck (s : St) : getchar s ≠ .stuck := by
  unfold getchar
  split <;> simp

theorem ungetc_ne_stuck (c : Int) (s : St) : ungetc c s ≠ .stuck := by
  unfold ungetc
  split <;> simp

theorem putchar_ne_stuck (c : Int) (s : St) : putchar c s ≠ .stuck := by
  simp [putchar]

theorem puts_ne_stuck (bs : List Nat) (s : St) : puts bs s ≠ .stuck := by
  simp [puts]

theorem pure_ne_stuck {α : Type} (a : α) (s : St) : (pure a : Prog α) s ≠ .stuck := by
  simp [pure_apply]

theorem ignore_whitespace_ne_stuck (fin : Bool) (s : St) : ignore_whitespace fin s ≠ .stuck := by
  obtain ⟨inp, out⟩ := s
  rw [ignore_whitespace_eq]
  split <;> simp

theorem get_ascii_num_ne_stuck (mc : Int) (fin : Bool) (s : St) :
    get_ascii_num mc fin s ≠ .stuck := by
  unfold get_ascii_num
  split
  · simp
  · exact bind_ne_stuck _ _ _ (check_error_ne_stuck _ _) (fun _ _ =>
      bind_ne_stuck _ _ _ (check_error_ne_stuck _ _) (fun _ _ =>
        bind_ne_stuck _ _ _ (ignore_whitespace_ne_stuck _ _) (fun _ _ => pure_ne_stuck _ _)))

theorem get_binary_num_ne_stuck (mc : Int) (s : St) : get_binary_num mc s ≠ .stuck := by
  unfold get_binary_num
  exact bind_ne_stuck _ _ _ (getchar_ne_stuck _) (fun _ _ =>
    bind_ne_stuck _ _ _ (check_error_ne_stuck _ _) (fun _ _ =>
      bind_ne_stuck _ _ _ (check_error_ne_stuck _ _) (fun _ _ => pure_ne_stuck _ _)))

/-- `for (i = 1; i <= hi; i++)` with `hi` below `INT_MAX`. -/
theorem forTo_ne_stuck (hi : Int) (hmax : hi ≤ 2147483646) (body : Int → Prog Unit)
    (hbody : ∀ i s, body i s ≠ .stuck) (s : St) : forTo hi 1 body s ≠ .stuck := by
  unfold forTo
  exact forLoop_ne_stuck hi 1 (by omega) (fun _ => True) (fun i _ hi1 => ⟨by omega, trivial⟩) _
    (fun i _ s => hbody i s) _ _ _ _ trivial (by omega)

/-- `for (j = 1; j <= hi; j += 8)` with `hi` at most 2147483640: the counter
takes the values 1, 9, 17, ..., the last of them is at most 2147483633. -/
theorem forTo8_ne_stuck (hi : Int) (hmax : hi ≤ 2147483640) (body : Int → Prog Unit)
    (hbody : ∀ i s, body i s ≠ .stuck) (s : St) : forTo hi 8 body s ≠ .stuck := by
  unfold forTo
  exact forLoop_ne_stuck hi 8 (by omega) (fun i => i % 8 = 1)
    (fun i hq hi1 => ⟨by omega, by omega⟩) _
    (fun i _ s => hbody i s) _ _ _ _ (by decide) (by omega)

/-- The bit loops: `for (k = 1; k <= hi; k++)` with `hi` at most 8. -/
theorem bitLoop_ne_stuck {β : Type} (hi : Int) (hmax : hi ≤ 8) (body : Int → β → Prog β)
    (hbody : ∀ i b s, body i b s ≠ .stuck) (fuel : Nat) (hf : hi.toNat ≤ fuel) (b : β) (s : St) :
    forLoop hi 1 body fuel 1 b s ≠ .stuck :=
  forLoop_ne_stuck hi 1 (by omega) (fun _ => True) (fun i _ hi1 => ⟨by omega, trivial⟩) _
    hbody _ _ _ _ trivial (by omega)

theorem upper_bound_le (w j : Int) : upper_bound w j ≤ 8 := by
  unfold upper_bound
  split <;> omega

theorem ignore_comments_ne_stuck (s : St) : ignore_comments s ≠ .stuck := by
  obtain ⟨inp, out⟩ := s
  rw [ignore_comments_eq]
  split
  · simp
  · exact bind_ne_stuck _ _ _ (ignore_comments_loop_ne_stuck _ _ _ _ (by omega)) (fun _ _ =>
      bind_ne_stuck _ _ _ (check_error_ne_stuck _ _) (fun _ _ => ungetc_ne_stuck _ _))

theorem read_header_ne_stuck (g : Int) (s : St) : read_header g s ≠ .stuck := by
  unfold read_header
  refine bind_ne_stuck _ _ _ (getchar_ne_stuck _) (fun _ _ =>
    bind_ne_stuck _ _ _ (check_error_ne_stuck _ _) (fun _ _ =>
      bind_ne_stuck _ _ _ (getchar_ne_stuck _) (fun _ _ =>
        bind_ne_stuck _ _ _ (check_error_ne_stuck _ _) (fun _ _ =>
          bind_ne_stuck _ _ _ (ignore_comments_ne_stuck _) (fun _ _ =>
            bind_ne_stuck _ _ _ (get_ascii_num_ne_stuck _ _ _) (fun _ _ =>
              bind_ne_stuck _ _ _ (get_ascii_num_ne_stuck _ _ _) (fun _ _ => ?_)))))))
  split
  · exact bind_ne_stuck _ _ _ (get_ascii_num_ne_stuck _ _ _) (fun _ _ =>
      bind_ne_stuck _ _ _ (check_error_ne_stuck _ _) (fun _ _ => pure_ne_stuck _ _))
  · exact pure_ne_stuck _ _

/-- No loop counter of `to_bnw_binary` leaves the range of `int` when the
width is at most 2147483640 and the height at most 2147483646. -/
theorem to_bnw_binary_ne_stuck (w h m : Int) (hw : w ≤ 2147483640)
    (hh : h ≤ 2147483646) (s : St) : to_bnw_binary w h m s ≠ .stuck := by
  unfold to_bnw_binary
  exact forTo_ne_stuck _ hh _ (fun _ _ => forTo8_ne_stuck _ hw _
    (fun j _ =>
    bind_ne_stuck _ _ _ (bitLoop_ne_stuck _ (upper_bound_le w j) _ (fun _ _ _ =>
      bind_ne_stuck _ _ _ (get_binary_num_ne_stuck _ _) (fun _ _ => pure_ne_stuck _ _))
      _ (le_refl _) _ _) (fun _ _ => putchar_ne_stuck _ _)) _) _

theorem to_bnw_ascii_ne_stuck (w h m : Int) (hw : w ≤ 2147483646)
    (hh : h ≤ 2147483646) (s : St) : to_bnw_ascii w h m s ≠ .stuck := by
  unfold to_bnw_ascii
  exact forTo_ne_stuck _ hh _ (fun _ _ =>
    bind_ne_stuck _ _ _ (forTo_ne_stuck _ hw _ (fun _ _ =>
      bind_ne_stuck _ _ _ (get_ascii_num_ne_stuck _ _ _) (fun _ _ => by
        split
        · exact puts_ne_stuck _ _
        · exact puts_ne_stuck _ _)) _) (fun _ _ => putchar_ne_stuck _ _)) _

theorem to_gray_scale_binary_ne_stuck (w h m : Int) (hw : w ≤ 2147483646)
    (hh : h ≤ 2147483646) (s : St) :
    to_gray_scale_binary w h m s ≠ .stuck := by
  unfold to_gray_scale_binary
  exact forTo_ne_stuck _ hh _ (fun _ _ => forTo_ne_stuck _ hw _
    (fun _ _ =>
    bind_ne_stuck _ _ _ (get_binary_num_ne_stuck _ _) (fun _ _ =>
      bind_ne_stuck _ _ _ (get_binary_num_ne_stuck _ _) (fun _ _ =>
        bind_ne_stuck _ _ _ (get_binary_num_ne_stuck _ _) (fun _ _ => putchar_ne_stuck _ _)))) _) _

theorem to_gray_scale_ascii_ne_stuck (w h m : Int) (hw : w ≤ 2147483646)
    (hh : h ≤ 2147483646) (s : St) :
    to_gray_scale_ascii w h m s ≠ .stuck := by
  unfold to_gray_scale_ascii
  exact forTo_ne_stuck _ hh _ (fun _ _ =>
    bind_ne_stuck _ _ _ (forTo_ne_stuck _ hw _ (fun _ _ =>
      bind_ne_stuck _ _ _ (get_ascii_num_ne_stuck _ _ _) (fun _ _ =>
        bind_ne_stuck _ _ _ (get_ascii_num_ne_stuck _ _ _) (fun _ _ =>
          bind_ne_stuck _ _ _ (get_ascii_num_ne_stuck _ _ _) (fun _ _ => puts_ne_stuck _ _)))) _)
      (fun _ _ => putchar_ne_stuck _ _)) _

theorem binary_to_ascii_bnw_ne_stuck (w h m : Int) (hw : w ≤ 2147483640)
    (hh : h ≤ 2147483646) (s : St) :
    binary_to_ascii_bnw w h m s ≠ .stuck := by
  unfold binary_to_ascii_bnw
  exact forTo_ne_stuck _ hh _ (fun _ _ =>
    bind_ne_stuck _ _ _ (forTo8_ne_stuck _ hw _ (fun j _ =>
      bind_ne_stuck _ _ _ (get_binary_num_ne_stuck _ _) (fun _ _ =>
        bitLoop_ne_stuck _ (upper_bound_le w j) _
          (fun _ _ _ => puts_ne_stuck _ _) _ (le_refl _) _ _)) _)
      (fun _ _ => putchar_ne_stuck _ _)) _

theorem binary_to_ascii_cg_ne_stuck (w h m : Int) (hw : w ≤ 2147483646)
    (hh : h ≤ 2147483646) (s : St) :
    binary_to_ascii_cg w h m s ≠ .stuck := by
  unfold binary_to_ascii_cg
  exact forTo_ne_stuck _ hh _ (fun _ _ =>
    bind_ne_stuck _ _ _ (forTo_ne_stuck _ hw _ (fun _ _ =>
      bind_ne_stuck _ _ _ (get_binary_num_ne_stuck _ _) (fun _ _ => puts_ne_stuck _ _)) _)
      (fun _ _ => putchar_ne_stuck _ _)) _

theorem ascii_to_binary_bnw_ne_stuck (w h m : Int) (hw : w ≤ 2147483640)
    (hh : h ≤ 2147483646) (s : St) :
    ascii_to_binary_bnw w h m s ≠ .stuck := by
  unfold ascii_to_binary_bnw
  exact forTo_ne_stuck _ hh _ (fun _ _ => forTo8_ne_stuck _ hw _
    (fun j _ =>
    bind_ne_stuck _ _ _ (bitLoop_ne_stuck _ (upper_bound_le w j) _ (fun _ _ _ =>
      bind_ne_stuck _ _ _ (get_ascii_num_ne_stuck _ _ _) (fun _ _ => pure_ne_stuck _ _))
      _ (le_refl _) _ _) (fun _ _ => putchar_ne_stuck _ _)) _) _

theorem ascii_to_binary_cg_ne_stuck (w h m : Int) (hw : w ≤ 2147483646)
    (hh : h ≤ 2147483646) (s : St) :
    ascii_to_binary_cg w h m s ≠ .stuck := by
  unfold ascii_to_binary_cg
  exact forTo_ne_stuck _ hh _ (fun _ _ => forTo_ne_stuck _ hw _
    (fun _ _ =>
    bind_ne_stuck _ _ _ (get_ascii_num_ne_stuck _ _ _) (fun _ _ => putchar_ne_stuck _ _)) _) _

/-- A piece of the program that neither returns nor leaves a loop counter out
of range ends the process. -/
theorem exit_of_not_ok (r : Res Unit) (h : ∀ s, r ≠ .ok () s) (hs : r ≠ .stuck) :
    ∃ o, r = .exit o := by
  cases r with
  | ok a s => exact absurd rfl (h s)
  | exit o => exact ⟨o, rfl⟩
  | stuck => exact absurd rfl hs

/-! ## How much input a successful run consumes -/

theorem termTokens_le_tokenCount : ∀ l : List Nat, termTokens l ≤ tokenCount l
  | [] => by simp [termTokens, tokenCount]
  | [a] => by simp [termTokens]
  | a :: b :: rest => by
    have := termTokens_le_tokenCount (b :: rest)
    simp only [termTokens, tokenCount]
    omega

theorem termTokens_cons_space (c : Nat) (l : List Nat) (hc : isspace (c : Int) = true) :
    termTokens (c :: l) = termTokens l := by
  cases l with
  | nil => simp [termTokens]
  | cons b rest => simp [termTokens, hc]

theorem termTokens_dropWs (l : List Nat) : termTokens (dropWs l) = termTokens l := by
  induction l with
  | nil => rfl
  | cons c cs ih =>
    by_cases h : isspace (c : Int) = true
    · rw [dropWs_cons_of_space _ h, termTokens_cons_space _ _ h, ih]
    · rw [dropWs_cons_of_not_space _ (by simpa using h)]

theorem termTokens_cons_le (c : Nat) (l : List Nat) : termTokens l ≤ termTokens (c :: l) := by
  cases l with
  | nil => simp [termTokens]
  | cons b rest => simp [termTokens]

/-- A run of bytes that are not white space, followed by a white space byte,
is one complete token. -/
theorem termTokens_run (ds : List Nat) (hne : ds ≠ [])
    (hds : ∀ d ∈ ds, isspace ((d : Nat) : Int) = false) (c : Nat)
    (hc : isspace (c : Int) = true) (rest : List Nat) :
    termTokens (ds ++ c :: rest) = termTokens rest + 1 := by
  induction ds with
  | nil => exact absurd rfl hne
  | cons d ds ih =>
    have hd := hds d (List.mem_cons_self _ _)
    cases ds with
    | nil =>
      simp only [List.cons_append, List.nil_append, termTokens, hd, hc, Bool.not_false,
        Bool.and_self, if_true]
      rw [termTokens_cons_space _ _ hc]
      omega
    | cons e es =>
      have he := hds e (List.mem_cons_of_mem _ (List.mem_cons_self _ _))
      have := ih (by simp) (fun x hx => hds x (List.mem_cons_of_mem _ hx))
      simp only [List.cons_append] at this ⊢
      simp only [termTokens, he, Bool.and_false, Bool.false_eq_true, if_false, zero_add]
      exact this

theorem get_ascii_num_loop_some : ∀ (inp : List Nat) (n : Int) (c num : Int) (rest : List Nat),
    get_ascii_num_loop inp n = some (c, num, rest) →
    ∃ ds cn, inp = ds ++ cn :: rest ∧ c = (cn : Int) ∧ isspace (cn : Int) = true ∧
      ∀ d ∈ ds, isspace ((d : Nat) : Int) = false := by
  intro inp
  induction inp with
  | nil => intro n c num rest h; simp [get_ascii_num_loop] at h
  | cons a as ih =>
    intro n c num rest h
    simp only [get_ascii_num_loop] at h
    by_cases ha : isspace (a : Int) = true
    · simp only [ha, if_true, Option.some.injEq, Prod.mk.injEq] at h
      obtain ⟨h1, _, h3⟩ := h
      exact ⟨[], a, by simp [h3], h1.symm, ha, by simp⟩
    · simp only [ha, Bool.false_eq_true, if_false] at h
      split at h
      · exact absurd h (by simp)
      · obtain ⟨ds, cn, h1, h2, h3, h4⟩ := ih _ _ _ _ h
        refine ⟨a :: ds, cn, by simp [h1], h2, h3, ?_⟩
        intro d hd
        rcases List.mem_cons.1 hd with rfl | hd
        · simpa using ha
        · exact h4 d hd

theorem bind_ok_inv {α β : Type} {x : Prog α} {f : α → Prog β} {s : St} {b : β} {s2 : St}
    (h : (x >>= f) s = .ok b s2) : ∃ a s1, x s = .ok a s1 ∧ f a s1 = .ok b s2 := by
  rw [bind_apply] at h
  cases hx : x s with
  | ok a s1 => rw [hx] at h; exact ⟨a, s1, rfl, h⟩
  | exit o => rw [hx] at h; exact absurd h (by simp)
  | stuck => rw [hx] at h; exact absurd h (by simp)

theorem check_error_ok_inv {b : Bool} {s s' : St} {a : Unit} (h : check_error b s = .ok a s') :
    s' = s ∧ b = false := by
  unfold check_error at h
  cases b with
  | true => exact absurd h (by simp)
  | false =>
    simp only [Bool.false_eq_true, if_false, Res.ok.injEq] at h
    exact ⟨h.2.symm, rfl⟩

theorem ignore_whitespace_ok_inv {fin : Bool} {s s' : St} {a : Int}
    (h : ignore_whitespace fin s = .ok a s') : s' = ⟨dropWs s.inp, s.out⟩ := by
  obtain ⟨inp, out⟩ := s
  rw [ignore_whitespace_eq] at h
  split at h
  · exact absurd h (by simp)
  · simp only [Res.ok.injEq] at h
    exact h.2.symm

/-- What a successful `get_ascii_num` has read: bytes that are not white space,
then one white space byte and the white space after it; nothing is written. -/
theorem get_ascii_num_ok_inv (mc : Int) (fin : Bool) (s : St) (v : Int) (s' : St)
    (h : get_ascii_num mc fin s = .ok v s') :
    ∃ (ds : List Nat) (cn : Nat) (rest : List Nat), s.inp = ds ++ cn :: rest ∧
      isspace (cn : Int) = true ∧
      (∀ d ∈ ds, isspace ((d : Nat) : Int) = false) ∧ s' = ⟨dropWs rest, s.out⟩ := by
  unfold get_ascii_num at h
  cases hl : get_ascii_num_loop s.inp 0 with
  | none => rw [hl] at h; exact absurd h (by simp)
  | some r =>
    obtain ⟨ch, num, rest⟩ := r
    rw [hl] at h
    obtain ⟨_, s1, h1, hA⟩ := bind_ok_inv h
    obtain ⟨_, s2, h2, hB⟩ := bind_ok_inv hA
    obtain ⟨_, s3, h3, hC⟩ := bind_ok_inv hB
    obtain ⟨rfl, _⟩ := check_error_ok_inv h1
    obtain ⟨rfl, _⟩ := check_error_ok_inv h2
    have e3 := ignore_whitespace_ok_inv h3
    simp only [pure_apply, Res.ok.injEq] at hC
    obtain ⟨ds, cn, e1, _, e2, e4⟩ := get_ascii_num_loop_some _ _ _ _ _ hl
    refine ⟨ds, cn, rest, e1, e2, e4, ?_⟩
    rw [← hC.2, e3]

/-- From an input that does not start with white space, a successful
`get_ascii_num` consumes one complete token. -/
theorem get_ascii_num_consumes (mc : Int) (fin : Bool) :
    Consumes (fun inp => dropWs inp = inp) termTokens 1 (get_ascii_num mc fin) := by
  intro s v s' hI h
  obtain ⟨ds, cn, rest, e1, e2, e3, rfl⟩ := get_ascii_num_ok_inv mc fin s v s' h
  refine ⟨dropWs_idem _, ?_⟩
  have hne : ds ≠ [] := by
    rintro rfl
    simp only [List.nil_append] at e1
    rw [e1, dropWs_cons_of_space _ e2] at hI
    have := dropWs_length_le rest
    rw [hI] at this
    simp at this
  simp only []
  rw [e1, termTokens_run ds hne e3 cn e2, termTokens_dropWs]

theorem get_binary_num_consumes (mc : Int) :
    Consumes (fun _ => True) List.length 1 (get_binary_num mc) := by
  intro s v s' _ h
  obtain ⟨inp, out⟩ := s
  cases inp with
  | nil => rw [get_binary_num_nil] at h; exact absurd h (by simp)
  | cons c cs =>
    rw [get_binary_num_cons] at h
    split at h
    · exact absurd h (by simp)
    · simp only [Res.ok.injEq] at h
      rw [← h.2]
      simp

/-! ### Rules for `Consumes` -/

theorem consumes_bind {α β : Type} {I : List Nat → Prop} {μ : List Nat → Nat} {c1 c2 : Nat}
    {x : Prog α} {f : α → Prog β} (hx : Consumes I μ c1 x) (hf : ∀ a, Consumes I μ c2 (f a)) :
    Consumes I μ (c1 + c2) (x >>= f) := by
  intro s b s2 hI h
  obtain ⟨a, s1, h1, h2⟩ := bind_ok_inv h
  obtain ⟨hI1, hm1⟩ := hx s a s1 hI h1
  obtain ⟨hI2, hm2⟩ := hf a s1 b s2 hI1 h2
  exact ⟨hI2, by omega⟩

theorem consumes_mono {α : Type} {I : List Nat → Prop} {μ : List Nat → Nat} {c c' : Nat}
    {x : Prog α} (hx : Consumes I μ c x) (hc : c' ≤ c) : Consumes I μ c' x := by
  intro s a s' hI h
  obtain ⟨h1, h2⟩ := hx s a s' hI h
  exact ⟨h1, by omega⟩

theorem consumes_pure {α : Type} (I : List Nat → Prop) (μ : List Nat → Nat) (a : α) :
    Consumes I μ 0 (pure a : Prog α) := by
  intro s b s' hI h
  simp only [pure_apply, Res.ok.injEq] at h
  rw [← h.2]
  exact ⟨hI, by omega⟩

theorem consumes_puts (I : List Nat → Prop) (μ : List Nat → Nat) (bs : List Nat) :
    Consumes I μ 0 (puts bs) := by
  intro s b s' hI h
  simp only [puts, Res.ok.injEq] at h
  rw [← h.2]
  exact ⟨hI, by simp⟩

theorem consumes_putchar (I : List Nat → Prop) (μ : List Nat → Nat) (c : Int) :
    Consumes I μ 0 (putchar c) := by
  intro s b s' hI h
  simp only [putchar, Res.ok.injEq] at h
  rw [← h.2]
  exact ⟨hI, by simp⟩

/-- A loop whose round `k` consumes at least `C (k + 1) - C k` has consumed at
least `C n` when it ends after `n` rounds. -/
theorem forLoop_consumes {β : Type} (I : List Nat → Prop) (μ : List Nat → Nat)
    (hi step start : Int) (body : Int → β → Prog β) (C : Nat → Nat) (hC0 : C 0 = 0)
    (hbody : ∀ (k : Nat) (b : β) (s : St) (b' : β) (s' : St), start + k * step ≤ hi →
      I s.inp → body (start + k * step) b s = .ok b' s' →
      I s'.inp ∧ μ s'.inp + C (k + 1) ≤ μ s.inp + C k)
    (fuel : Nat) (b : β) (s : St) (b' : β) (s' : St) (hI : I s.inp)
    (h : forLoop hi step body fuel start b s = .ok b' s') :
    ∃ n : Nat, ¬ (start + n * step ≤ hi) ∧ I s'.inp ∧ μ s'.inp + C n ≤ μ s.inp := by
  have h' : forLoop hi step body fuel (start + ((0 : Nat) : Int) * step) b s = .ok b' s' := by
    simpa using h
  obtain ⟨n, _, hP, hend, _⟩ := forLoop_inv hi step body start
    (fun k _ s1 => I s1.inp ∧ μ s1.inp + C k ≤ μ s.inp)
    (fun j b1 s1 b2 s2 hP hle hb => by
      obtain ⟨h1, h2⟩ := hbody j b1 s1 b2 s2 hle hP.1 hb
      exact ⟨h1, by omega⟩)
    fuel 0 b s b' s' ⟨hI, by omega⟩ h'
  exact ⟨n, hend, hP.1, hP.2⟩

/-- `for (i = 1; i <= n; i++)` with a body that consumes at least `c`. -/
theorem consumes_forTo {I : List Nat → Prop} {μ : List Nat → Nat} {c : Nat} (n : Nat)
    (body : Int → Prog Unit) (hbody : ∀ i, Consumes I μ c (body i)) :
    Consumes I μ (n * c) (forTo (n : Int) 1 body) := by
  intro s a s' hI h
  unfold forTo at h
  obtain ⟨k, hend, hI', hm⟩ := forLoop_consumes I μ (n : Int) 1 1 (fun i _ => body i)
    (fun k => k * c) (by simp)
    (fun k b s1 b' s2 _ hI1 hb => by
      obtain ⟨h1, h2⟩ := hbody _ s1 b' s2 hI1 hb
      exact ⟨h1, by simp only [Nat.add_mul, Nat.one_mul]; omega⟩)
    _ _ s _ s' hI h
  refine ⟨hI', ?_⟩
  have hk : n ≤ k := by omega
  have := Nat.mul_le_mul_right c hk
  omega

/-- `for (j = 1; j <= w; j += 8)` with a body that consumes at least `c`:
`ceil(w / 8)` rounds. -/
theorem consumes_forTo8 {I : List Nat → Prop} {μ : List Nat → Nat} {c : Nat} (w : Nat)
    (body : Int → Prog Unit) (hbody : ∀ i, Consumes I μ c (body i)) :
    Consumes I μ ((w + 7) / 8 * c) (forTo (w : Int) 8 body) := by
  intro s a s' hI h
  unfold forTo at h
  obtain ⟨k, hend, hI', hm⟩ := forLoop_consumes I μ (w : Int) 8 1 (fun i _ => body i)
    (fun k => k * c) (by simp)
    (fun k b s1 b' s2 _ hI1 hb => by
      obtain ⟨h1, h2⟩ := hbody _ s1 b' s2 hI1 hb
      exact ⟨h1, by simp only [Nat.add_mul, Nat.one_mul]; omega⟩)
    _ _ s _ s' hI h
  refine ⟨hI', ?_⟩
  have hk : (w + 7) / 8 ≤ k := by omega
  have := Nat.mul_le_mul_right c hk
  omega

/-- `for (j = 1; j <= w; j += 8)` with a body that, in the round for columns
`8 k + 1 ..`, consumes the `min 8 (w - 8 k)` samples of that group: `w` samples
in all. -/
theorem consumes_forTo8_groups {I : List Nat → Prop} {μ : List Nat → Nat} (w : Nat)
    (body : Int → Prog Unit)
    (hbody : ∀ k : Nat, 8 * k < w → Consumes I μ (min 8 (w - 8 * k)) (body (1 + (k : Int) * 8))) :
    Consumes I μ w (forTo (w : Int) 8 body) := by
  intro s a s' hI h
  unfold forTo at h
  obtain ⟨k, hend, hI', hm⟩ := forLoop_consumes I μ (w : Int) 8 1 (fun i _ => body i)
    (fun k => min (8 * k) w) (by simp)
    (fun k b s1 b' s2 hle hI1 hb => by
      obtain ⟨h1, h2⟩ := hbody k (by omega) s1 b' s2 hI1 hb
      refine ⟨h1, ?_⟩
      simp only []
      omega)
    _ _ s _ s' hI h
  refine ⟨hI', ?_⟩
  have : min (8 * k) w = w := by omega
  omega

/-- The bit loops: `for (k = 1; k <= n; k++)` with local state. -/
theorem consumes_forLoop_st {β : Type} {I : List Nat → Prop} {μ : List Nat → Nat} {c : Nat}
    (n fuel : Nat) (body : Int → β → Prog β) (b : β) (hbody : ∀ i b, Consumes I μ c (body i b)) :
    Consumes I μ (n * c) (forLoop (n : Int) 1 body fuel 1 b) := by
  intro s a s' hI h
  obtain ⟨k, hend, hI', hm⟩ := forLoop_consumes I μ (n : Int) 1 1 body
    (fun k => k * c) (by simp)
    (fun k b s1 b' s2 _ hI1 hb => by
      obtain ⟨h1, h2⟩ := hbody _ b s1 b' s2 hI1 hb
      exact ⟨h1, by simp only [Nat.add_mul, Nat.one_mul]; omega⟩)
    _ _ s _ s' hI h
  refine ⟨hI', ?_⟩
  have hk : n ≤ k := by omega
  have := Nat.mul_le_mul_right c hk
  omega

/-- A loop whose body consumes nothing for sure consumes nothing for sure. -/
theorem consumes_forLoop_zero {β : Type} {I : List Nat → Prop} {μ : List Nat → Nat}
    (hi step start : Int) (fuel : Nat) (body : Int → β → Prog β) (b : β)
    (hbody : ∀ i b, Consumes I μ 0 (body i b)) :
    Consumes I μ 0 (forLoop hi step body fuel start b) := by
  intro s a s' hI h
  obtain ⟨k, _, hI', hm⟩ := forLoop_consumes I μ hi step start body (fun _ => 0) rfl
    (fun k b s1 b' s2 _ hI1 hb => by
      obtain ⟨h1, h2⟩ := hbody _ b s1 b' s2 hI1 hb
      refine ⟨h1, ?_⟩
      simp only []
      omega)
    _ _ s _ s' hI h
  exact ⟨hI', hm⟩

theorem consumes_ite {α : Type} {I : List Nat → Prop} {μ : List Nat → Nat} {c : Nat}
    {p : Prop} [Decidable p] {x y : Prog α} (hx : Consumes I μ c x) (hy : Consumes I μ c y) :
    Consumes I μ c (if p then x else y) := by
  split
  · exact hx
  · exact hy

theorem consumes_to_bnw_ascii (w h : Nat) (m : Int) :
    Consumes (fun inp => dropWs inp = inp) termTokens (w * h) (to_bnw_ascii w h m) := by
  unfold to_bnw_ascii
  refine consumes_mono (consumes_forTo h _ (fun i =>
    consumes_bind (consumes_forTo w _ (fun j =>
      consumes_bind (get_ascii_num_consumes _ _) (fun color =>
        consumes_ite (consumes_puts _ _ _) (consumes_puts _ _ _))))
      (fun _ => consumes_putchar _ _ _))) ?_
  simp [Nat.mul_comm]

theorem consumes_to_gray_scale_ascii (w h : Nat) (m : Int) :
    Consumes (fun inp => dropWs inp = inp) termTokens (3 * w * h) (to_gray_scale_ascii w h m) := by
  unfold to_gray_scale_ascii
  refine consumes_mono (consumes_forTo h _ (fun i =>
    consumes_bind (consumes_forTo w _ (fun j =>
      consumes_bind (get_ascii_num_consumes _ _) (fun _ =>
        consumes_bind (get_ascii_num_consumes _ _) (fun _ =>
          consumes_bind (get_ascii_num_consumes _ _) (fun _ => consumes_puts _ _ _)))))
      (fun _ => consumes_putchar _ _ _))) ?_
  simp only [add_zero]
  rw [Nat.mul_comm h, Nat.mul_comm w]

theorem consumes_ascii_to_binary_cg (w h : Nat) (m : Int) :
    Consumes (fun inp => dropWs inp = inp) termTokens (w * h) (ascii_to_binary_cg w h m) := by
  unfold ascii_to_binary_cg
  refine consumes_mono (consumes_forTo h _ (fun i => consumes_forTo w _ (fun j =>
      consumes_bind (get_ascii_num_consumes _ _) (fun _ => consumes_putchar _ _ _)))) ?_
  simp [Nat.mul_comm]

theorem consumes_ascii_to_binary_bnw (w h : Nat) (m : Int) :
    Consumes (fun inp => dropWs inp = inp) termTokens (w * h) (ascii_to_binary_bnw w h m) := by
  unfold ascii_to_binary_bnw
  refine consumes_mono (consumes_forTo h _ (fun i => consumes_forTo8_groups w _ (fun k hk => ?_))) ?_
  · rw [upper_bound_natCast w k hk]
    simp only [Int.toNat_ofNat]
    refine consumes_mono (consumes_bind (consumes_forLoop_st _ _ _ _ (fun _ _ =>
      consumes_bind (get_ascii_num_consumes _ _) (fun _ => consumes_pure _ _ _)))
      (fun _ => consumes_putchar _ _ _)) ?_
    simp
  · simp [Nat.mul_comm]

theorem consumes_to_bnw_binary (w h : Nat) (m : Int) :
    Consumes (fun _ => True) List.length (w * h) (to_bnw_binary w h m) := by
  unfold to_bnw_binary
  refine consumes_mono (consumes_forTo h _ (fun i => consumes_forTo8_groups w _ (fun k hk => ?_))) ?_
  · rw [upper_bound_natCast w k hk]
    simp only [Int.toNat_ofNat]
    refine consumes_mono (consumes_bind (consumes_forLoop_st _ _ _ _ (fun _ _ =>
      consumes_bind (get_binary_num_consumes _) (fun _ => consumes_pure _ _ _)))
      (fun _ => consumes_putchar _ _ _)) ?_
    simp
  · simp [Nat.mul_comm]

theorem consumes_to_gray_scale_binary (w h : Nat) (m : Int) :
    Consumes (fun _ => True) List.length (3 * w * h) (to_gray_scale_binary w h m) := by
  unfold to_gray_scale_binary
  refine consumes_mono (consumes_forTo h _ (fun i => consumes_forTo w _ (fun j =>
      consumes_bind (get_binary_num_consumes _) (fun _ =>
        consumes_bind (get_binary_num_consumes _) (fun _ =>
          consumes_bind (get_binary_num_consumes _) (fun _ => consumes_putchar _ _ _)))))) ?_
  simp only [add_zero]
  rw [Nat.mul_comm h, Nat.mul_comm w]

theorem consumes_binary_to_ascii_cg (w h : Nat) (m : Int) :
    Consumes (fun _ => True) List.length (w * h) (binary_to_ascii_cg w h m) := by
  unfold binary_to_ascii_cg
  refine consumes_mono (consumes_forTo h _ (fun i =>
    consumes_bind (consumes_forTo w _ (fun j =>
      consumes_bind (get_binary_num_consumes _) (fun _ => consumes_puts _ _ _)))
      (fun _ => consumes_putchar _ _ _))) ?_
  simp [Nat.mul_comm]

theorem consumes_binary_to_ascii_bnw (w h : Nat) (m : Int) :
    Consumes (fun _ => True) List.length (h * ((w + 7) / 8)) (binary_to_ascii_bnw w h m) := by
  unfold binary_to_ascii_bnw
  refine consumes_mono (consumes_forTo h _ (fun i =>
    consumes_bind (consumes_forTo8 w _ (fun j =>
      consumes_bind (get_binary_num_consumes _) (fun _ =>
        consumes_forLoop_zero _ _ _ _ _ _ (fun _ _ => consumes_puts _ _ _))))
      (fun _ => consumes_putchar _ _ _))) ?_
  simp

/-- After a successful header read the input does not start with white space. -/
theorem read_header_ok_inv (g : Int) (s : St) (hd : Header) (s' : St)
    (h : read_header g s = .ok hd s') : dropWs s'.inp = s'.inp := by
  unfold read_header at h
  obtain ⟨c, s1, h1, hA⟩ := bind_ok_inv h
  obtain ⟨_, s2, h2, hB⟩ := bind_ok_inv hA
  obtain ⟨c2, s3, h3, hC⟩ := bind_ok_inv hB
  obtain ⟨_, s4, h4, hD⟩ := bind_ok_inv hC
  obtain ⟨_, s5, h5, hE⟩ := bind_ok_inv hD
  obtain ⟨wd, s6, h6, hF⟩ := bind_ok_inv hE
  obtain ⟨ht, s7, h7, hG⟩ := bind_ok_inv hF
  obtain ⟨_, _, _, _, _, _, e7⟩ := get_ascii_num_ok_inv _ _ _ _ _ h7
  split at hG
  · obtain ⟨mx, s8, h8, hH⟩ := bind_ok_inv hG
    obtain ⟨_, s9, h9, hI⟩ := bind_ok_inv hH
    obtain ⟨_, _, _, _, _, _, e8⟩ := get_ascii_num_ok_inv _ _ _ _ _ h8
    obtain ⟨rfl, _⟩ := check_error_ok_inv h9
    simp only [pure_apply, Res.ok.injEq] at hI
    rw [← hI.2, e8]
    exact dropWs_idem _
  · simp only [pure_apply, Res.ok.injEq] at hG
    rw [← hG.2, e7]
    exact dropWs_idem _

/-! ## Truncated streams (C9) -/

theorem not_ok_of_consumes {I : List Nat → Prop} {μ : List Nat → Nat} {c : Nat} {x : Prog Unit}
    (hx : Consumes I μ c x) (inp out : List Nat) (hI : I inp) (hlt : μ inp < c) (s : St) :
    x ⟨inp, out⟩ ≠ .ok () s := by
  intro h
  have := (hx ⟨inp, out⟩ () s hI h).2
  simp only [] at this
  omega

theorem wrap32_three_mul (w : Nat) (h3 : 3 * w < 2147483648) :
    wrap32 (3 * (w : Int)) = ((3 * w : Nat) : Int) := by
  rw [wrap32_of_lt (by omega) (by omega)]
  push_cast
  rfl

/-- C9: truncated streams are rejected when no `int` overflows.  Let the
header read leave the data `D` after a header of type `t`, width `w` and height
`h`, with `w ≤ 2147483640` and `h ≤ 2147483646` (no loop counter leaves the
range of `int`) and, for a colour image in the `CONVERT` build,
`3 w ≤ 2147483646` (the row length `3 * width` and its loop counter stay in
that range).  If `D` holds fewer samples than the image needs (fewer than `w h`
tokens for P1 and P2, `3 w h` tokens for P3, `h ceil(w/8)` bytes for P4, `w h`
bytes for P5, `3 w h` bytes for P6), the run exits with the input error, in
either build and whatever the unassigned `max_color` of types 1 and 4 holds. -/
theorem truncated_stream_rejected (mode : Mode) (g : Int) (X D : List Nat) (t m : Int) (w h : Nat)
    (hwb : w ≤ 2147483640) (hhb : h ≤ 2147483646)
    (h3 : mode = .CONVERT → t = 3 ∨ t = 6 → 3 * w < 2147483647)
    (hhdr : read_header g ⟨X, []⟩ = .ok ⟨t, w, h, m⟩ ⟨D, []⟩)
    (htrunc : ((t = 1 ∨ t = 2) ∧ tokenCount D < w * h) ∨ (t = 3 ∧ tokenCount D < 3 * w * h) ∨
      (t = 4 ∧ D.length < h * ((w + 7) / 8)) ∨ (t = 5 ∧ D.length < w * h) ∨
      (t = 6 ∧ D.length < 3 * w * h)) :
    ∃ o, run mode g X = .exit o := by
  rw [run_eq_of _ _ hhdr rfl]
  have hD : dropWs D = D := read_header_ok_inv g _ _ _ hhdr
  have hle := termTokens_le_tokenCount D
  have hwi : (w : Int) ≤ 2147483640 := by exact_mod_cast hwb
  have hhi : (h : Int) ≤ 2147483646 := by exact_mod_cast hhb
  rcases htrunc with ⟨rfl | rfl, hc⟩ | ⟨rfl, hc⟩ | ⟨rfl, hc⟩ | ⟨rfl, hc⟩ | ⟨rfl, hc⟩
  · cases mode
    · simp only [transcode, transform_type1]
      exact ⟨_, rfl⟩
    · simp only [transcode, convert_type1, bind_ok (puts_apply _ _ _)]
      exact exit_of_not_ok _
        (fun s hs => not_ok_of_consumes (consumes_ascii_to_binary_bnw w h m) _ _ hD (by omega) s hs)
        (ascii_to_binary_bnw_ne_stuck _ _ _ hwi hhi _)
  · cases mode
    · simp only [transcode, transform_type2, bind_ok (puts_apply _ _ _)]
      exact exit_of_not_ok _
        (fun s hs => not_ok_of_consumes (consumes_to_bnw_ascii w h m) _ _ hD (by omega) s hs)
        (to_bnw_ascii_ne_stuck _ _ _ (by omega) hhi _)
    · simp only [transcode, convert_type2, bind_ok (puts_apply _ _ _)]
      exact exit_of_not_ok _
        (fun s hs => not_ok_of_consumes (consumes_ascii_to_binary_cg w h m) _ _ hD (by omega) s hs)
        (ascii_to_binary_cg_ne_stuck _ _ _ (by omega) hhi _)
  · cases mode
    · simp only [transcode, transform_type3, bind_ok (puts_apply _ _ _)]
      exact exit_of_not_ok _
        (fun s hs => not_ok_of_consumes (consumes_to_gray_scale_ascii w h m) _ _ hD (by omega) s hs)
        (to_gray_scale_ascii_ne_stuck _ _ _ (by omega) hhi _)
    · have h3' := h3 rfl (Or.inl rfl)
      simp only [transcode, convert_type3, bind_ok (puts_apply _ _ _),
        wrap32_three_mul w (by omega)]
      exact exit_of_not_ok _
        (fun s hs =>
          not_ok_of_consumes (consumes_ascii_to_binary_cg (3 * w) h m) _ _ hD (by omega) s hs)
        (ascii_to_binary_cg_ne_stuck _ _ _ (by exact_mod_cast (by omega : 3 * w ≤ 2147483646))
          hhi _)
  · cases mode
    · simp only [transcode, transform_type4]
      exact ⟨_, rfl⟩
    · simp only [transcode, convert_type4, bind_ok (puts_apply _ _ _)]
      exact exit_of_not_ok _
        (fun s hs => not_ok_of_consumes (consumes_binary_to_ascii_bnw w h m) _ _ trivial hc s hs)
        (binary_to_ascii_bnw_ne_stuck _ _ _ hwi hhi _)
  · cases mode
    · simp only [transcode, transform_type5, bind_ok (puts_apply _ _ _)]
      exact exit_of_not_ok _
        (fun s hs => not_ok_of_consumes (consumes_to_bnw_binary w h m) _ _ trivial hc s hs)
        (to_bnw_binary_ne_stuck _ _ _ hwi hhi _)
    · simp only [transcode, convert_type5, bind_ok (puts_apply _ _ _)]
      exact exit_of_not_ok _
        (fun s hs => not_ok_of_consumes (consumes_binary_to_ascii_cg w h m) _ _ trivial hc s hs)
        (binary_to_ascii_cg_ne_stuck _ _ _ (by omega) hhi _)
  · cases mode
    · simp only [transcode, transform_type6, bind_ok (puts_apply _ _ _)]
      exact exit_of_not_ok _
        (fun s hs => not_ok_of_consumes (consumes_to_gray_scale_binary w h m) _ _ trivial hc s hs)
        (to_gray_scale_binary_ne_stuck _ _ _ (by omega) hhi _)
    · have h3' := h3 rfl (Or.inr rfl)
      simp only [transcode, convert_type6, bind_ok (puts_apply _ _ _),
        wrap32_three_mul w (by omega)]
      exact exit_of_not_ok _
        (fun s hs =>
          not_ok_of_consumes (consumes_binary_to_ascii_cg (3 * w) h m) _ _ trivial hc s hs)
        (binary_to_ascii_cg_ne_stuck _ _ _ (by exact_mod_cast (by omega : 3 * w ≤ 2147483646))
          hhi _)

/-- C9 on `P3 1 1 255\n7 8 ` in the DOWNSAMPLE build: the stream ends after
the g sample of the only pixel. -/
theorem truncated_stream_rejected_witness :
    ∃ o, run .TRANSFORM 0 [80, 51, 32, 49, 32, 49, 32, 50, 53, 53, 10, 55, 32, 56, 32] = .exit o :=
  truncated_stream_rejected .TRANSFORM 0 [80, 51, 32, 49, 32, 49, 32, 50, 53, 53, 10, 55, 32, 56, 32]
    [55, 32, 56, 32] 3 255 1 1 (by decide) (by decide) (fun h => Mode.noConfusion h)
    (by decide) (Or.inr (Or.inl ⟨rfl, by decide⟩))

/-- C9 as stated fails on the P3 stream `P3 1431655766 1 255\n1 2 `: the header
parses to width 1431655766 and height 1, the stream ends after two of the
4294967298 samples of the row, and the `CONVERT` build returns, having written
`P6 1431655766 1 255\n` and the bytes 1 and 2: `3 * width` leaves the range of
`int` and comes out as 2. -/
theorem truncated_colour_row_accepted :
    read_header 0 ⟨[80, 51, 32, 49, 52, 51, 49, 54, 53, 53, 55, 54, 54, 32, 49, 32, 50, 53, 53, 10,
        49, 32, 50, 32], []⟩ = .ok ⟨3, 1431655766, 1, 255⟩ ⟨[49, 32, 50, 32], []⟩ ∧
      tokenCount [49, 32, 50, 32] < 3 * 1431655766 * 1 ∧
      run .CONVERT 0 [80, 51, 32, 49, 52, 51, 49, 54, 53, 53, 55, 54, 54, 32, 49, 32, 50, 53, 53, 10,
        49, 32, 50, 32]
        = .ok () ⟨[], [80, 54, 32, 49, 52, 51, 49, 54, 53, 53, 55, 54, 54, 32, 49, 32, 50, 53, 53, 10,
            1, 2]⟩ := by
  refine ⟨by decide, by decide, run_eq_of ⟨3, 1431655766, 1, 255⟩ ⟨[49, 32, 50, 32], []⟩
    (by decide) (by decide)⟩

/-! ## End of stream after the final sample (C8) -/

theorem triples_spec : ∀ (w : Nat) (l : List Tok), l.length = 3 * w →
    (triples l).length = w ∧ (triples l).flatMap (fun p => [p.1, p.2.1, p.2.2]) = l := by
  intro w
  induction w with
  | zero =>
    intro l hl
    have : l = [] := List.length_eq_zero.1 (by omega)
    subst this
    simp [triples]
  | succ w ih =>
    intro l hl
    match l, hl with
    | a :: b :: c :: rest, hl =>
      obtain ⟨h1, h2⟩ := ih rest (by simp at hl; omega)
      simp [triples, h1, h2, List.flatMap_cons]
    | [], hl => simp at hl
    | [_], hl => simp at hl; omega
    | [_, _], hl => simp at hl; omega

theorem termTokens_no_space (l : List Nat) (h : ∀ c ∈ l, isspace ((c : Nat) : Int) = false) :
    termTokens l = 0 := by
  induction l with
  | nil => rfl
  | cons a l ih =>
    cases l with
    | nil => rfl
    | cons b rest =>
      have hb := h b (List.mem_cons_of_mem _ (List.mem_cons_self _ _))
      simp only [termTokens, hb, Bool.and_false, Bool.false_eq_true, if_false, zero_add]
      exact ih (fun c hc => h c (List.mem_cons_of_mem _ hc))

theorem termTokens_tok (t : Tok) (ht : t.WF) (after : List Nat) :
    termTokens (t.bytes ++ after) = termTokens after + 1 := by
  obtain ⟨h1, h2, h3, h4⟩ := ht
  obtain ⟨c, ws, hsep⟩ : ∃ c ws, t.sep = c :: ws := by
    cases hs : t.sep with
    | nil => exact absurd hs h3
    | cons c ws => exact ⟨c, ws, rfl⟩
  have hc : isspace (c : Int) = true := h4 c (by rw [hsep]; exact List.mem_cons_self _ _)
  have hws : ∀ x ∈ ws, isspace ((x : Nat) : Int) = true :=
    fun x hx => h4 x (by rw [hsep]; exact List.mem_cons_of_mem _ hx)
  have e : t.bytes ++ after = t.digits ++ c :: (ws ++ after) := by
    simp [Tok.bytes, hsep]
  rw [e, termTokens_run _ h1 (fun d hd => isspace_of_isdigit (h2 d hd)) c hc,
    ← termTokens_dropWs (ws ++ after), dropWs_append_of_spaces _ _ hws, termTokens_dropWs]

theorem termTokens_toks (ts : List Tok) (hts : ∀ t ∈ ts, t.WF) (rest : List Nat) :
    termTokens (ts.flatMap Tok.bytes ++ rest) = termTokens rest + ts.length := by
  induction ts with
  | nil => simp
  | cons t ts ih =>
    rw [List.flatMap_cons, List.append_assoc, termTokens_tok t (hts t (List.mem_cons_self _ _)),
      ih (fun x hx => hts x (List.mem_cons_of_mem _ hx))]
    simp only [List.length_cons]
    omega

theorem length_flatten_of_const {α : Type} (n : Nat) (rows : List (List α))
    (h : ∀ row ∈ rows, row.length = n) : rows.flatten.length = rows.length * n := by
  induction rows with
  | nil => simp
  | cons r rows ih =>
    simp only [List.flatten_cons, List.length_append, List.length_cons,
      h r (List.mem_cons_self _ _), ih (fun x hx => h x (List.mem_cons_of_mem _ hx))]
    rw [Nat.add_mul]
    omega

theorem rowsBytes_eq_flatten (rows : List (List Tok)) :
    rowsBytes rows = rows.flatten.flatMap Tok.bytes := by
  unfold rowsBytes
  induction rows with
  | nil => rfl
  | cons r rows ih => simp [List.flatMap_cons, List.flatMap_append, ih]

theorem pix_of_rows (m w : Nat) (rows : List (List Tok))
    (hrows : ∀ row ∈ rows, row.length = 3 * w ∧ ∀ tk ∈ row, tk.WF ∧ tk.val ≤ m) :
    (∀ row ∈ rows.map triples, row.length = w) ∧
      (∀ row ∈ rows.map triples, ∀ p ∈ row, PixOK m p) ∧
      (rows.map triples).flatMap (fun row => row.flatMap pixBytes) = rowsBytes rows := by
  refine ⟨?_, ?_, ?_⟩
  · intro row hrow
    obtain ⟨r, hr, rfl⟩ := List.mem_map.1 hrow
    exact (triples_spec w r (hrows r hr).1).1
  · intro row hrow p hp
    obtain ⟨r, hr, rfl⟩ := List.mem_map.1 hrow
    have h2 := (triples_spec w r (hrows r hr).1).2
    have hmem : ∀ t ∈ [p.1, p.2.1, p.2.2], t ∈ r := by
      intro t ht
      rw [← h2]
      exact List.mem_flatMap.2 ⟨p, hp, ht⟩
    exact ⟨(hrows r hr).2 _ (hmem _ (by simp)), (hrows r hr).2 _ (hmem _ (by simp)),
      (hrows r hr).2 _ (hmem _ (by simp))⟩
  · unfold rowsBytes
    rw [List.flatMap_map]
    apply List.flatMap_congr
    intro r hr
    rw [pixBytes_eq_toks, (triples_spec w r (hrows r hr).1).2]

/-- C8, as the code has it: the final ASCII sample has to be followed by a
white space byte, and the stream may end right after that.  For a P2 or P3
input whose samples are the well-formed tokens of `rows` (all up to `m ≤ 255`,
`w` or `3 w` per row, with `3 w` and the number of rows at most 2147483646, so
that `3 * width` and the loop counters stay in the range of `int`), in either
build: if the stream ends immediately after the last digit of the final sample
the run exits with the input error; with the white space `ws` after that digit
the run returns, all input consumed. -/
theorem final_sample_needs_white_space (mode : Mode) (g : Int) (X X' : List Nat) (t : Int)
    (m w : Nat) (rows : List (List Tok)) (toks : List Tok) (ds ws : List Nat)
    (ht : t = 2 ∨ t = 3) (hm : m ≤ 255) (hw : 1 ≤ w) (h3 : 3 * w < 2147483647)
    (hhb : rows.length < 2147483647)
    (hrows : ∀ row ∈ rows,
      row.length = (if t = 2 then w else 3 * w) ∧ ∀ tk ∈ row, tk.WF ∧ tk.val ≤ m)
    (hlast : rows.flatten = toks ++ [⟨ds, ws⟩])
    (hX : read_header g ⟨X, []⟩
      = .ok ⟨t, w, rows.length, m⟩ ⟨toks.flatMap Tok.bytes ++ ds, []⟩)
    (hX' : read_header g ⟨X', []⟩
      = .ok ⟨t, w, rows.length, m⟩ ⟨toks.flatMap Tok.bytes ++ (ds ++ ws), []⟩) :
    (∃ o, run mode g X = .exit o) ∧ ∃ out, run mode g X' = .ok () ⟨[], out⟩ := by
  have hall : ∀ tk ∈ rows.flatten, tk.WF ∧ tk.val ≤ m := by
    intro tk htk
    obtain ⟨row, hrow, hmem⟩ := List.mem_flatten.1 htk
    exact (hrows row hrow).2 tk hmem
  have htoks : ∀ tk ∈ toks, tk.WF := fun tk h => (hall tk (by rw [hlast]; simp [h])).1
  have hfin : (⟨ds, ws⟩ : Tok).WF := (hall ⟨ds, ws⟩ (by rw [hlast]; simp)).1
  have hlen := length_flatten_of_const _ rows (fun row h => (hrows row h).1)
  rw [hlast] at hlen
  simp only [List.length_append, List.length_singleton] at hlen
  have hbytes : rowsBytes rows = toks.flatMap Tok.bytes ++ (ds ++ ws) := by
    rw [rowsBytes_eq_flatten, hlast, List.flatMap_append]
    simp [Tok.bytes]
  have hds : ∀ c ∈ ds, isspace ((c : Nat) : Int) = false :=
    fun c hc => isspace_of_isdigit (hfin.2.1 c hc)
  have htt : termTokens (toks.flatMap Tok.bytes ++ ds) = toks.length := by
    rw [termTokens_toks _ htoks, termTokens_no_space _ hds]
    omega
  have hD : dropWs (toks.flatMap Tok.bytes ++ ds) = toks.flatMap Tok.bytes ++ ds :=
    read_header_ok_inv g _ _ _ hX
  constructor
  · rw [run_eq_of _ _ hX rfl]
    have hwi : (w : Int) ≤ 2147483646 := by omega
    have hhi : (rows.length : Int) ≤ 2147483646 := by omega
    rcases ht with rfl | rfl
    · simp only [if_true] at hlen
      cases mode
      · simp only [transcode, transform_type2, bind_ok (puts_apply _ _ _)]
        exact exit_of_not_ok _
          (fun s hs => not_ok_of_consumes (consumes_to_bnw_ascii w rows.length m) _ _ hD
            (by rw [htt, Nat.mul_comm]; omega) s hs)
          (to_bnw_ascii_ne_stuck _ _ _ hwi hhi _)
      · simp only [transcode, convert_type2, bind_ok (puts_apply _ _ _)]
        exact exit_of_not_ok _
          (fun s hs => not_ok_of_consumes (consumes_ascii_to_binary_cg w rows.length m) _ _ hD
            (by rw [htt, Nat.mul_comm]; omega) s hs)
          (ascii_to_binary_cg_ne_stuck _ _ _ hwi hhi _)
    · have e : ((3 : Int) = 2) = False := by simp
      simp only [e, if_false] at hlen
      cases mode
      · simp only [transcode, transform_type3, bind_ok (puts_apply _ _ _)]
        exact exit_of_not_ok _
          (fun s hs => not_ok_of_consumes (consumes_to_gray_scale_ascii w rows.length m) _ _ hD
            (by rw [htt, Nat.mul_comm]; omega) s hs)
          (to_gray_scale_ascii_ne_stuck _ _ _ hwi hhi _)
      · simp only [transcode, convert_type3, bind_ok (puts_apply _ _ _),
          wrap32_three_mul w (by omega)]
        exact exit_of_not_ok _
          (fun s hs =>
            not_ok_of_consumes (consumes_ascii_to_binary_cg (3 * w) rows.length m) _ _ hD
              (by rw [htt, Nat.mul_comm]; omega) s hs)
          (ascii_to_binary_cg_ne_stuck _ _ _
            (by exact_mod_cast (by omega : 3 * w ≤ 2147483646)) hhi _)
  · rw [← hbytes] at hX'
    rcases ht with rfl | rfl
    · simp only [if_true] at hrows
      cases mode
      · rw [run_eq_of _ _ hX' rfl]
        simp only [transcode, transform_type2, bind_ok (puts_apply _ _ _)]
        have := to_bnw_ascii_ok m w hw rows (fun row h => (hrows row h).1)
          (fun row h => (hrows row h).2) (by omega) (by omega) hhb [] rfl
        simp only [List.append_nil] at this
        exact ⟨_, this _⟩
      · rw [run_eq_of _ _ hX' rfl]
        simp only [transcode, convert_type2, bind_ok (puts_apply _ _ _)]
        have := ascii_to_binary_cg_ok m w hw rows (fun row h => (hrows row h).1)
          (fun row h => (hrows row h).2) (by omega) (by omega) hhb [] rfl
        simp only [List.append_nil] at this
        exact ⟨_, this _⟩
    · have e : ((3 : Int) = 2) = False := by simp
      simp only [e, if_false] at hrows
      cases mode
      · obtain ⟨p1, p2, p3⟩ := pix_of_rows m w rows hrows
        rw [run_eq_of _ _ hX' rfl]
        simp only [transcode, transform_type3, bind_ok (puts_apply _ _ _)]
        have := to_gray_scale_ascii_ok m w hw (rows.map triples) p1 p2 (by omega) (by omega)
          (by rw [List.length_map]; exact hhb) [] rfl
        simp only [List.append_nil, p3, List.length_map] at this
        exact ⟨_, this _⟩
      · rw [run_eq_of _ _ hX' rfl]
        simp only [transcode, convert_type3, bind_ok (puts_apply _ _ _),
          wrap32_three_mul w (by omega)]
        have := ascii_to_binary_cg_ok m (3 * w) (by omega) rows (fun row h => (hrows row h).1)
          (fun row h => (hrows row h).2) (by omega) (by omega) hhb [] rfl
        simp only [List.append_nil] at this
        exact ⟨_, this _⟩

/-- C8 on `P2 2 1 255\n7 9`: the run exits when the stream ends after the
digit `9`, and returns when a newline follows it. -/
theorem final_sample_needs_white_space_witness :
    (∃ o, run .CONVERT 0 endAtDigitExample = .exit o) ∧
      ∃ out, run .CONVERT 0 (endAtDigitExample ++ [10]) = .ok () ⟨[], out⟩ :=
  final_sample_needs_white_space .CONVERT 0 endAtDigitExample (endAtDigitExample ++ [10]) 2 255 2
    [[⟨[55], [32]⟩, ⟨[57], [10]⟩]] [⟨[55], [32]⟩] [57] [10] (Or.inl rfl) (by decide) (by decide)
    (by decide) (by decide) (by decide) (by decide) (by decide) (by decide)

/-- C8 as stated fails: on `P2 2 1 255\n7 9`, where the stream ends right after
the last digit, the CONVERT build writes the header and the byte 7 and exits
with the input error, and the DOWNSAMPLE build writes `P1 2 1\n1 ` and exits;
with a newline appended both return. -/
theorem end_of_stream_after_last_digit_rejected :
    run .CONVERT 0 endAtDigitExample = .exit [80, 53, 32, 50, 32, 49, 32, 50, 53, 53, 10, 7] ∧
      run .TRANSFORM 0 endAtDigitExample = .exit [80, 49, 32, 50, 32, 49, 10, 49, 32] ∧
      run .CONVERT 0 (endAtDigitExample ++ [10])
        = .ok () ⟨[], [80, 53, 32, 50, 32, 49, 32, 50, 53, 53, 10, 7, 9]⟩ ∧
      run .TRANSFORM 0 (endAtDigitExample ++ [10])
        = .ok () ⟨[], [80, 49, 32, 50, 32, 49, 10, 49, 32, 49, 32, 10]⟩ :=
  ⟨run_eq_of ⟨2, 2, 1, 255⟩ ⟨[55, 32, 57], []⟩ (by decide) (by decide),
    run_eq_of ⟨2, 2, 1, 255⟩ ⟨[55, 32, 57], []⟩ (by decide) (by decide),
    run_eq_of ⟨2, 2, 1, 255⟩ ⟨[55, 32, 57, 10], []⟩ (by decide) (by decide),
    run_eq_of ⟨2, 2, 1, 255⟩ ⟨[55, 32, 57, 10], []⟩ (by decide) (by decide)⟩

/-! ## Shape of the packed output (C3) -/

/-- The bit loops of the two packing routines: whatever is read, the byte stays
below 256 and the bits below the group's samples stay 1; nothing is written. -/
theorem bit_loop_inv (ub : Nat) (reader : Int → Prog Int) (cond : Int → Prop)
    [DecidablePred cond] (hreader : ∀ k s c s', reader k s = .ok c s' → s'.out = s.out)
    (fuel : Nat) (s : St) (byte' : Nat) (s' : St)
    (h : forLoop (ub : Int) 1 (fun k (byte : Nat) => do
        let color ← reader k
        pure (if cond color then byte ^^^ bitmask k else byte)) fuel 1 255 s = .ok byte' s') :
    s'.out = s.out ∧ byte' < 256 ∧ ∀ p, p + ub < 8 → byte'.testBit p = true := by
  have h' : forLoop (ub : Int) 1 (fun k (byte : Nat) => do
        let color ← reader k
        pure (if cond color then byte ^^^ bitmask k else byte)) fuel
        (1 + ((0 : Nat) : Int) * 1) 255 s = .ok byte' s' := by simpa using h
  obtain ⟨n, _, hP, hend, hall⟩ := forLoop_inv (ub : Int) 1 _ 1
    (fun k byte s1 => s1.out = s.out ∧ byte < 256 ∧ ∀ p, p + k < 8 → byte.testBit p = true)
    (fun j b s1 b' s2 hP hle hb => by
      obtain ⟨o1, b1, t1⟩ := hP
      obtain ⟨color, s3, r1, r2⟩ := bind_ok_inv hb
      simp only [pure_apply, Res.ok.injEq] at r2
      obtain ⟨rfl, rfl⟩ := r2
      have e : (1 : Int) + (j : Int) * 1 = (j : Int) + 1 := by ring
      rw [e, bitmask_succ]
      refine ⟨by rw [hreader _ _ _ _ r1, o1], ?_, ?_⟩
      · split
        · have h1 : (1 : Nat) <<< (7 - j) < 2 ^ 8 := by
            rw [Nat.one_shiftLeft]
            exact Nat.pow_lt_pow_right (by omega) (by omega)
          exact Nat.xor_lt_two_pow (n := 8) b1 h1
        · exact b1
      · intro p hp
        split
        · rw [testBit_xor_mask, t1 p (by omega)]
          have : ¬ (7 - j = p) := by omega
          simp [this]
        · exact t1 p (by omega))
    fuel 0 255 s byte' s' ⟨rfl, by omega, fun p hp => testBit_255 p (by omega)⟩ h'
  obtain ⟨o1, b1, t1⟩ := hP
  refine ⟨o1, b1, fun p hp => t1 p ?_⟩
  by_cases hn : n = 0
  · omega
  · have := hall (n - 1) (by omega) (by omega)
    omega

/-- One row of a packing routine: `ceil(w / 8)` bytes are written, and when `w`
is not a multiple of 8 the low `8 - w % 8` bits of the last one are 1. -/
theorem pack_row_inv (w : Nat) (reader : Int → Int → Prog Int) (cond : Int → Prop)
    [DecidablePred cond] (hreader : ∀ j k s c s', reader j k s = .ok c s' → s'.out = s.out)
    (s s' : St)
    (h : forTo (w : Int) 8 (fun j => do
        let byte ← forLoop (upper_bound (w : Int) j) 1 (fun k (byte : Nat) => do
            let color ← reader j k
            pure (if cond color then byte ^^^ bitmask k else byte))
          (upper_bound (w : Int) j).toNat 1 255
        putchar byte) s = .ok () s') :
    ∃ row : List Nat, s'.out = s.out ++ row ∧ row.length = (w + 7) / 8 ∧
      (w % 8 ≠ 0 → ∀ p, p < 8 - w % 8 → (row.getD ((w + 7) / 8 - 1) 0).testBit p = true) := by
  unfold forTo at h
  have h' : forLoop (w : Int) 8 (fun j (_ : Unit) => do
        let byte ← forLoop (upper_bound (w : Int) j) 1 (fun k (byte : Nat) => do
            let color ← reader j k
            pure (if cond color then byte ^^^ bitmask k else byte))
          (upper_bound (w : Int) j).toNat 1 255
        putchar byte) (w : Int).toNat (1 + ((0 : Nat) : Int) * 8) () s = .ok () s' := by
    simpa using h
  obtain ⟨n, _, hP, hend, hall⟩ := forLoop_inv (w : Int) 8 _ 1
    (fun k (_ : Unit) s1 => ∃ row : List Nat, s1.out = s.out ++ row ∧ row.length = k ∧
      ∀ idx, idx < k → ∀ p, p + min 8 (w - 8 * idx) < 8 → (row.getD idx 0).testBit p = true)
    (fun j b s1 b' s2 hP hle hb => by
      obtain ⟨row, o1, l1, t1⟩ := hP
      obtain ⟨byte, s3, r1, r2⟩ := bind_ok_inv hb
      rw [upper_bound_natCast w j (by omega)] at r1
      obtain ⟨o3, b3, t3⟩ := bit_loop_inv _ (reader (1 + (j : Int) * 8)) cond
        (hreader _) _ _ _ _ r1
      obtain ⟨inp3, out3⟩ := s3
      rw [putchar_byte _ b3] at r2
      simp only [Res.ok.injEq] at r2
      refine ⟨row ++ [byte], ?_, by simp [l1], ?_⟩
      · rw [← r2.2]
        simp only [] at o3 ⊢
        rw [o3, o1, List.append_assoc]
      · intro idx hidx p hp
        by_cases hi : idx < j
        · rw [List.getD_append _ _ _ _ (by omega)]
          exact t1 idx hi p hp
        · have e : idx = j := by omega
          subst e
          rw [List.getD_append_right _ _ _ _ (by omega)]
          simp only [l1, Nat.sub_self, List.getD_cons_zero]
          exact t3 p hp)
    _ 0 () s () s' ⟨[], by simp, rfl, fun idx hidx => by omega⟩ h'
  obtain ⟨row, o1, l1, t1⟩ := hP
  have hn : n = (w + 7) / 8 := by
    by_cases h0 : n = 0
    · omega
    · have := hall (n - 1) (by omega) (by omega)
      omega
  refine ⟨row, o1, by omega, fun hw p hp => ?_⟩
  exact t1 _ (by omega) p (by omega)

/-- The rows of a packing routine. -/
theorem pack_rows_inv (w h : Nat) (reader : Int → Int → Int → Prog Int) (cond : Int → Prop)
    [DecidablePred cond] (hreader : ∀ i j k s c s', reader i j k s = .ok c s' → s'.out = s.out)
    (s s' : St)
    (hrun : forTo (h : Int) 1 (fun i => forTo (w : Int) 8 (fun j => do
        let byte ← forLoop (upper_bound (w : Int) j) 1 (fun k (byte : Nat) => do
            let color ← reader i j k
            pure (if cond color then byte ^^^ bitmask k else byte))
          (upper_bound (w : Int) j).toNat 1 255
        putchar byte)) s = .ok () s') :
    ∃ rows : List (List Nat), s'.out = s.out ++ rows.flatten ∧ rows.length = h ∧
      ∀ row ∈ rows, row.length = (w + 7) / 8 ∧
        (w % 8 ≠ 0 → ∀ p, p < 8 - w % 8 → (row.getD ((w + 7) / 8 - 1) 0).testBit p = true) := by
  unfold forTo at hrun
  have h' : forLoop (h : Int) 1 (fun i (_ : Unit) => forLoop (w : Int) 8 (fun j (_ : Unit) => do
        let byte ← forLoop (upper_bound (w : Int) j) 1 (fun k (byte : Nat) => do
            let color ← reader i j k
            pure (if cond color then byte ^^^ bitmask k else byte))
          (upper_bound (w : Int) j).toNat 1 255
        putchar byte) (w : Int).toNat 1 ()) (h : Int).toNat (1 + ((0 : Nat) : Int) * 1) () s
      = .ok () s' := by
    simpa using hrun
  obtain ⟨n, _, hP, hend, hall⟩ := forLoop_inv (h : Int) 1 _ 1
    (fun k (_ : Unit) s1 => ∃ rows : List (List Nat), s1.out = s.out ++ rows.flatten ∧
      rows.length = k ∧ ∀ row ∈ rows, row.length = (w + 7) / 8 ∧
        (w % 8 ≠ 0 → ∀ p, p < 8 - w % 8 → (row.getD ((w + 7) / 8 - 1) 0).testBit p = true))
    (fun j b s1 b' s2 hP hle hb => by
      obtain ⟨rows, o1, l1, t1⟩ := hP
      obtain ⟨row, o2, l2, t2⟩ := pack_row_inv w (reader (1 + (j : Int) * 1)) cond
        (hreader _) s1 s2 hb
      refine ⟨rows ++ [row], ?_, by simp [l1], ?_⟩
      · rw [o2, o1]; simp
      · intro r hr
        rcases List.mem_append.1 hr with hr | hr
        · exact t1 r hr
        · simp only [List.mem_singleton] at hr
          subst hr
          exact ⟨l2, t2⟩)
    _ 0 () s () s' ⟨[], by simp, rfl, fun r hr => by simp at hr⟩ h'
  obtain ⟨rows, o1, l1, t1⟩ := hP
  have hn : n = h := by
    by_cases h0 : n = 0
    · omega
    · have := hall (n - 1) (by omega) (by omega)
      omega
  exact ⟨rows, o1, by omega, t1⟩

theorem get_binary_num_ok_out (mc : Int) (s : St) (c : Int) (s' : St)
    (h : get_binary_num mc s = .ok c s') : s'.out = s.out := by
  obtain ⟨inp, out⟩ := s
  cases inp with
  | nil => rw [get_binary_num_nil] at h; exact absurd h (by simp)
  | cons a as =>
    rw [get_binary_num_cons] at h
    split at h
    · exact absurd h (by simp)
    · simp only [Res.ok.injEq] at h
      rw [← h.2]

theorem get_ascii_num_ok_out (mc : Int) (fin : Bool) (s : St) (c : Int) (s' : St)
    (h : get_ascii_num mc fin s = .ok c s') : s'.out = s.out := by
  obtain ⟨_, _, _, _, _, _, e⟩ := get_ascii_num_ok_inv mc fin s c s' h
  rw [e]

/-! ## Reading the program's own output -/

theorem get_ascii_num_decDigits (mc : Int) (fin : Bool) (n c : Nat) (rest out : List Nat)
    (hn : n < 2147483648) (hc : isspace (c : Int) = true) (hm : mc = 0 ∨ (n : Int) ≤ mc) :
    get_ascii_num mc fin ⟨decDigits n ++ c :: rest, out⟩ =
      if dropWs rest = [] ∧ fin = false then .exit out else .ok (n : Int) ⟨dropWs rest, out⟩ := by
  obtain ⟨_, h2, h3⟩ := decDigits_spec n
  have := get_ascii_num_digits mc fin (decDigits n) c rest out h2 hc (by rw [h3]; exact hn)
    (by rw [h3]; exact hm)
  rw [h3] at this
  exact this

theorem ignore_comments_digit (inp out : List Nat) (d : Nat) (rest : List Nat)
    (hd : dropWs inp = d :: rest) (hdig : isdigit (d : Int) = true) :
    ignore_comments ⟨inp, out⟩ = .ok () ⟨d :: rest, out⟩ := by
  rw [ignore_comments_eq, hd]
  have h1 : d ≠ 35 := by
    rintro rfl
    exact absurd hdig (by decide)
  have h2 : d ≠ 10 := by
    rintro rfl
    exact absurd hdig (by decide)
  simp only [bind_apply, ignore_comments_loop_other_out _ _ _ _ h1 h2, hdig, if_true,
    natCast_ne_EOF, check_error_false]
  unfold ungetc
  have : ¬ ((d : Int) = EOF) := by unfold EOF; omega
  simp [this]

theorem decDigits_lt_10 (t : Nat) (ht : t < 10) : decDigits t = [48 + t] := by
  rw [decDigits_small t (by omega), if_pos ht]

/-- Reading the header `P<t> <w> <h> <m>\n` for a type with a maximum. -/
theorem read_header_canonical (g : Int) (t w h m : Nat) (D : List Nat)
    (ht : t = 2 ∨ t = 3 ∨ t = 5 ∨ t = 6) (hw : w < 2147483648) (hh : h < 2147483648)
    (hm : m ≤ 255) (hD : dropWs D ≠ []) :
    read_header g ⟨headerText t w h m ++ D, []⟩ = .ok ⟨t, w, h, m⟩ ⟨dropWs D, []⟩ := by
  obtain ⟨w1, w2, _⟩ := decDigits_spec w
  obtain ⟨h1, h2, _⟩ := decDigits_spec h
  obtain ⟨m1, m2, _⟩ := decDigits_spec m
  obtain ⟨dw, rw', hdw⟩ : ∃ d r, decDigits w = d :: r := by
    cases hx : decDigits w with
    | nil => exact absurd hx w1
    | cons d r => exact ⟨d, r, rfl⟩
  have hdwd : isdigit (dw : Int) = true := w2 dw (by rw [hdw]; exact List.mem_cons_self _ _)
  have htd : decDigits t = [48 + t] := decDigits_lt_10 t (by omega)
  have e0 : headerText t w h m ++ D
      = 80 :: (48 + t) :: (32 :: (decDigits w ++ 32 :: (decDigits h ++ 32 ::
          (decDigits m ++ 10 :: D)))) := by
    simp [headerText, htd]
  have hic : ignore_comments ⟨32 :: (decDigits w ++ 32 :: (decDigits h ++ 32 ::
        (decDigits m ++ 10 :: D))), []⟩
      = .ok () ⟨decDigits w ++ 32 :: (decDigits h ++ 32 :: (decDigits m ++ 10 :: D)), []⟩ := by
    have := ignore_comments_digit (32 :: (decDigits w ++ 32 :: (decDigits h ++ 32 ::
        (decDigits m ++ 10 :: D)))) [] dw (rw' ++ 32 :: (decDigits h ++ 32 ::
        (decDigits m ++ 10 :: D)))
      (by
        rw [dropWs_cons_of_space _ (by decide), hdw, List.cons_append]
        exact dropWs_cons_of_not_space _ (isspace_of_isdigit hdwd)) hdwd
    rw [this, hdw, List.cons_append]
  have hgw := get_ascii_num_decDigits 0 false w 32 (decDigits h ++ 32 :: (decDigits m ++ 10 :: D))
    [] hw (by decide) (Or.inl rfl)
  rw [dropWs_of_head_digit _ _ h1 h2, if_neg (by simp [h1])] at hgw
  have hgh := get_ascii_num_decDigits 0 false h 32 (decDigits m ++ 10 :: D)
    [] hh (by decide) (Or.inl rfl)
  rw [dropWs_of_head_digit _ _ m1 m2, if_neg (by simp [m1])] at hgh
  have hgm := get_ascii_num_decDigits 0 false m 10 D [] (by omega) (by decide) (Or.inl rfl)
  rw [if_neg (by simp [hD])] at hgm
  have c1 : (((80 : Nat) : Int) != 80) = false := by decide
  have c2 : (decide ((t : Int) < 1) || decide ((t : Int) > 6)) = false := by
    rcases ht with rfl | rfl | rfl | rfl <;> decide
  have c3 : ((t : Int) != 1 && (t : Int) != 4) = true := by
    rcases ht with rfl | rfl | rfl | rfl <;> decide
  have c4 : (decide ((m : Int) > 255)) = false := by
    simp only [decide_eq_false_iff_not, not_lt]; omega
  have c5 : (((48 + t : Nat) : Int)) - 48 = (t : Int) := by push_cast; omega
  rw [e0]
  unfold read_header
  simp only [bind_apply, getchar_cons, c1, check_error_false, c5, c2, hic, hgw, hgh, c3, if_true,
    hgm, c4, pure_apply]

/-- `for (i = 1; i <= n; i++)` over `n` items when every round first skips the
white space in front of its item. -/
theorem forTo_items_ws {γ : Type} (body : Int → Prog Unit) (xs : List γ)
    (enc emit : γ → List Nat) (tail : List Nat) (hmax : xs.length < 2147483647)
    (hbody : ∀ (k : Nat) (hk : k < xs.length) (out : List Nat),
      body ((k : Int) + 1) ⟨dropWs (enc xs[k] ++ ((xs.drop (k + 1)).flatMap enc ++ tail)), out⟩
        = .ok () ⟨dropWs ((xs.drop (k + 1)).flatMap enc ++ tail), out ++ emit xs[k]⟩)
    (out : List Nat) :
    forTo (xs.length : Int) 1 body ⟨dropWs (xs.flatMap enc ++ tail), out⟩
      = .ok () ⟨dropWs tail, out ++ xs.flatMap emit⟩ := by
  unfold forTo
  have := forLoop_ok (xs.length : Int) 1 (fun i _ => body i) xs.length (xs.length : Int).toNat 1
    (fun k => ((), ⟨dropWs ((xs.drop k).flatMap enc ++ tail), out ++ (xs.take k).flatMap emit⟩))
    (by simp) (fun k hk => by omega) (by omega) (fun k hk => by omega)
    (fun k hk => by
      simp only
      have e1 : xs.drop k = xs[k] :: xs.drop (k + 1) := List.drop_eq_getElem_cons hk
      have e2 : xs.take (k + 1) = xs.take k ++ [xs[k]] := by
        rw [List.take_succ, List.getElem?_eq_getElem hk]; rfl
      have e3 : (1 : Int) + (k : Int) * 1 = (k : Int) + 1 := by ring
      rw [e1, e2, e3, List.flatMap_cons, List.flatMap_append, List.flatMap_singleton,
        List.append_assoc, hbody k hk, List.append_assoc])
  simpa using this

theorem dropWs_printed_ne_nil (row : List Nat) (hne : row ≠ []) (rest : List Nat) :
    dropWs (row.flatMap (fun v => fmt_3d (v : Int) ++ [32]) ++ rest) ≠ [] := by
  cases row with
  | nil => exact absurd rfl hne
  | cons v vs =>
    rw [List.flatMap_cons, List.append_assoc, List.append_assoc, dropWs_fmt_3d]
    have := (decDigits_spec v).1
    simp [this]

/-- `ascii_to_binary_cg` on pixel data in the program's own ASCII layout. -/
theorem ascii_to_binary_cg_printed (m w : Nat) (hw1 : 1 ≤ w) (hm : m ≤ 255)
    (rows : List (List Nat)) (hw : ∀ row ∈ rows, row.length = w)
    (hv : ∀ row ∈ rows, ∀ v ∈ row, v ≤ m) (hwb : w < 2147483647)
    (hhb : rows.length < 2147483647) (out : List Nat) :
    ascii_to_binary_cg (w : Int) (rows.length : Int) (m : Int) ⟨dropWs (asciiData rows), out⟩
      = .ok () ⟨[], out ++ rows.flatten⟩ := by
  unfold ascii_to_binary_cg asciiData
  have := forTo_items_ws (fun i => forTo (w : Int) 1 (fun j => do
      let is_last := check_last i j (w : Int) (rows.length : Int)
      let color ← get_ascii_num (m : Int) is_last
      putchar color)) rows
    (fun row => row.flatMap (fun v => fmt_3d (v : Int) ++ [32]) ++ [10]) id [] hhb
    (fun r hr out => by
      have hlen : rows[r].length = w := hw _ (List.getElem_mem _)
      have := forTo_items_ws (fun j => do
          let is_last := check_last ((r : Int) + 1) j (w : Int) (rows.length : Int)
          let color ← get_ascii_num (m : Int) is_last
          putchar color) rows[r] (fun v => fmt_3d (v : Int) ++ [32]) (fun v => [v])
        (10 :: ((rows.drop (r + 1)).flatMap
          (fun row => row.flatMap (fun v => fmt_3d (v : Int) ++ [32]) ++ [10]) ++ []))
        (by omega) (fun k hk out => by
          have hvk : rows[r][k] ≤ m := hv _ (List.getElem_mem hr) _ (List.getElem_mem hk)
          rw [List.append_assoc, dropWs_fmt_3d]
          simp only [bind_apply, List.singleton_append]
          rw [get_ascii_num_decDigits _ _ _ 32 _ _ (by omega) (by decide)
            (Or.inr (by exact_mod_cast hvk))]
          have hfin : ¬ (dropWs ((rows[r].drop (k + 1)).flatMap (fun v => fmt_3d (v : Int) ++ [32])
              ++ 10 :: ((rows.drop (r + 1)).flatMap
                (fun row => row.flatMap (fun v => fmt_3d (v : Int) ++ [32]) ++ [10]) ++ [])) = [] ∧
              check_last ((r : Int) + 1) ((k : Int) + 1) (w : Int) (rows.length : Int) = false) := by
            rintro ⟨h1, h2⟩
            by_cases hk1 : k + 1 < rows[r].length
            · exact dropWs_printed_ne_nil _ (by
                intro he
                have := congrArg List.length he
                simp at this
                omega) _ h1
            · rw [List.drop_of_length_le (by omega)] at h1
              simp only [List.flatMap_nil, List.nil_append] at h1
              rw [dropWs_cons_of_space _ (by decide)] at h1
              by_cases hr1 : r + 1 < rows.length
              · rw [List.drop_eq_getElem_cons hr1, List.flatMap_cons, List.append_assoc,
                  List.append_assoc] at h1
                exact dropWs_printed_ne_nil _ (by
                  intro he
                  have := hw _ (List.getElem_mem hr1)
                  rw [he] at this
                  simp at this
                  omega) _ h1
              · have e1 : (r : Int) + 1 = (rows.length : Int) := by omega
                have e2 : (k : Int) + 1 = (w : Int) := by omega
                simp [check_last, e1, e2] at h2
          rw [if_neg hfin]
          exact putchar_byte _ (by omega) _ _) out
      rw [hlen] at this
      simp only [id, List.append_assoc, List.singleton_append] at this ⊢
      rw [this, dropWs_cons_of_space _ (by decide), flatMap_singleton_id])
    out
  simp only [List.append_nil] at this
  rw [this]
  simp [dropWs, flatMap_id_eq_flatten]

/-! ## RADIX-CONVERT twice (C1) -/

theorem dropWs_eq_self_of_head (l : List Nat) (h : isspace ((l.headD 0 : Nat) : Int) = false) :
    dropWs l = l := by
  cases l with
  | nil => rfl
  | cons a l => exact dropWs_cons_of_not_space _ (by simpa using h)

theorem flatten_ne_nil_of_rows {α : Type} (n : Nat) (hn : 1 ≤ n) (rows : List (List α))
    (hrows : rows ≠ []) (hlen : ∀ row ∈ rows, row.length = n) : rows.flatten ≠ [] := by
  cases rows with
  | nil => exact absurd rfl hrows
  | cons r rs =>
    have := hlen r (List.mem_cons_self _ _)
    cases r with
    | nil => simp at this; omega
    | cons a as => simp

theorem asciiData_dropWs_ne_nil (n : Nat) (hn : 1 ≤ n) (rows : List (List Nat))
    (hrows : rows ≠ []) (hlen : ∀ row ∈ rows, row.length = n) : dropWs (asciiData rows) ≠ [] := by
  cases rows with
  | nil => exact absurd rfl hrows
  | cons r rs =>
    have := hlen r (List.mem_cons_self _ _)
    unfold asciiData
    rw [List.flatMap_cons, List.append_assoc]
    exact dropWs_printed_ne_nil r (by
      intro he
      rw [he] at this
      simp at this
      omega) _

/-- The CONVERT build on a P5 or P6 stream in the program's own layout. -/
theorem convert_binary_canonical (g : Int) (t w n m : Nat) (rows : List (List Nat))
    (ht : t = 5 ∧ n = w ∨ t = 6 ∧ n = 3 * w) (hn1 : 1 ≤ n) (hrows : rows ≠ [])
    (h3 : 3 * w < 2147483647) (hh : rows.length < 2147483647) (hm : m ≤ 255)
    (hlen : ∀ row ∈ rows, row.length = n) (hv : ∀ row ∈ rows, ∀ v ∈ row, v ≤ m)
    (hfirst : isspace ((rows.flatten.headD 0 : Nat) : Int) = false) :
    run .CONVERT g (headerText t w rows.length m ++ rows.flatten)
      = .ok () ⟨[], headerText (t - 3) w rows.length m ++ asciiData rows⟩ := by
  have hD := dropWs_eq_self_of_head _ hfirst
  have hne := flatten_ne_nil_of_rows n hn1 rows hrows hlen
  have hhdr := read_header_canonical g t w rows.length m rows.flatten
    (by rcases ht with ⟨rfl, _⟩ | ⟨rfl, _⟩ <;> simp) (by omega) (by omega) hm
    (by rw [hD]; exact hne)
  rw [hD] at hhdr
  refine run_eq_of _ _ hhdr ?_
  have hbody := binary_to_ascii_cg_ok (m : Int) n rows hlen
    (fun row hr v hvm => by exact_mod_cast hv row hr v hvm)
    (by rcases ht with ⟨_, rfl⟩ | ⟨_, rfl⟩ <;> omega) hh []
  simp only [List.append_nil] at hbody
  rcases ht with ⟨rfl, rfl⟩ | ⟨rfl, rfl⟩
  · simp only [transcode, Nat.cast_ofNat, convert_type5, bind_ok (puts_apply _ _ _), hbody]
    simp [headerText, asciiData, fmt_d_natCast, decDigits_lt_10]
  · simp only [transcode, Nat.cast_ofNat, convert_type6, bind_ok (puts_apply _ _ _),
      wrap32_three_mul w (by omega), hbody]
    simp [headerText, asciiData, fmt_d_natCast, decDigits_lt_10]

/-- The CONVERT build on a P2 or P3 stream in the program's own layout. -/
theorem convert_ascii_canonical (g : Int) (t w n m : Nat) (rows : List (List Nat))
    (ht : t = 2 ∧ n = w ∨ t = 3 ∧ n = 3 * w) (hn1 : 1 ≤ n) (hrows : rows ≠ [])
    (h3 : 3 * w < 2147483647) (hh : rows.length < 2147483647) (hm : m ≤ 255)
    (hlen : ∀ row ∈ rows, row.length = n) (hv : ∀ row ∈ rows, ∀ v ∈ row, v ≤ m) :
    run .CONVERT g (headerText t w rows.length m ++ asciiData rows)
      = .ok () ⟨[], headerText (t + 3) w rows.length m ++ rows.flatten⟩ := by
  have hhdr := read_header_canonical g t w rows.length m (asciiData rows)
    (by rcases ht with ⟨rfl, _⟩ | ⟨rfl, _⟩ <;> simp) (by omega) (by omega) hm
    (asciiData_dropWs_ne_nil n hn1 rows hrows hlen)
  refine run_eq_of _ _ hhdr ?_
  have hbody := ascii_to_binary_cg_printed m n hn1 hm rows hlen hv
    (by rcases ht with ⟨_, rfl⟩ | ⟨_, rfl⟩ <;> omega) hh
  rcases ht with ⟨rfl, rfl⟩ | ⟨rfl, rfl⟩
  · simp only [transcode, Nat.cast_ofNat, convert_type2, bind_ok (puts_apply _ _ _), hbody]
    simp [headerText, fmt_d_natCast, decDigits_lt_10]
  · simp only [transcode, Nat.cast_ofNat, convert_type3, bind_ok (puts_apply _ _ _),
      wrap32_three_mul w (by omega), hbody]
    simp [headerText, fmt_d_natCast, decDigits_lt_10]

/-- C1, as the code has it: for the formats with a maximum (P2, P3, P5, P6) and
a stream `X` in the layout the program itself writes (header `P<t> w h m\n` in
plain decimals, `w ≥ 1` with `3 w ≤ 2147483646`, at least one and at most
2147483646 rows, `m ≤ 255`, every sample at most `m`, `w` samples per row for
gray and `3 w` for colour; ASCII samples as `%3d` and a space with a newline
after each row, binary samples as raw bytes) whose first sample is not a white
space byte value, RADIX-CONVERT applied twice returns with exactly `X` written.
The bounds keep `3 * width` and every loop counter in the range of `int`. -/
theorem radix_round_trip_canonical (g : Int) (t w m : Nat) (rows : List (List Nat))
    (ht : t = 2 ∨ t = 3 ∨ t = 5 ∨ t = 6) (hw1 : 1 ≤ w) (hrows : rows ≠ [])
    (h3 : 3 * w < 2147483647) (hh : rows.length < 2147483647) (hm : m ≤ 255)
    (hlen : ∀ row ∈ rows, row.length = (if t = 2 ∨ t = 5 then w else 3 * w))
    (hv : ∀ row ∈ rows, ∀ v ∈ row, v ≤ m)
    (hfirst : isspace ((rows.flatten.headD 0 : Nat) : Int) = false) :
    convertTwice g (headerText t w rows.length m ++ (if t ≤ 3 then asciiData rows else rows.flatten))
      = .ok () ⟨[], headerText t w rows.length m
          ++ (if t ≤ 3 then asciiData rows else rows.flatten)⟩ := by
  unfold convertTwice
  rcases ht with rfl | rfl | rfl | rfl
  · simp only [true_or, if_true] at hlen
    simp only [show (2 : Nat) ≤ 3 by omega, if_true]
    rw [convert_ascii_canonical g 2 w w m rows (Or.inl ⟨rfl, rfl⟩) hw1 hrows h3 hh hm hlen hv]
    exact convert_binary_canonical g 5 w w m rows (Or.inl ⟨rfl, rfl⟩) hw1 hrows h3 hh hm hlen hv
      hfirst
  · have e : ¬ ((3 : Nat) = 2 ∨ (3 : Nat) = 5) := by omega
    simp only [e, if_false] at hlen
    simp only [show (3 : Nat) ≤ 3 by omega, if_true]
    rw [convert_ascii_canonical g 3 w (3 * w) m rows (Or.inr ⟨rfl, rfl⟩) (by omega) hrows h3 hh hm
      hlen hv]
    exact convert_binary_canonical g 6 w (3 * w) m rows (Or.inr ⟨rfl, rfl⟩) (by omega) hrows h3 hh
      hm hlen hv hfirst
  · simp only [or_true, if_true] at hlen
    simp only [show ¬ ((5 : Nat) ≤ 3) by omega, if_false]
    rw [convert_binary_canonical g 5 w w m rows (Or.inl ⟨rfl, rfl⟩) hw1 hrows h3 hh hm hlen hv
      hfirst]
    exact convert_ascii_canonical g 2 w w m rows (Or.inl ⟨rfl, rfl⟩) hw1 hrows h3 hh hm hlen hv
  · have e : ¬ ((6 : Nat) = 2 ∨ (6 : Nat) = 5) := by omega
    simp only [e, if_false] at hlen
    simp only [show ¬ ((6 : Nat) ≤ 3) by omega, if_false]
    rw [convert_binary_canonical g 6 w (3 * w) m rows (Or.inr ⟨rfl, rfl⟩) (by omega) hrows h3 hh hm
      hlen hv hfirst]
    exact convert_ascii_canonical g 3 w (3 * w) m rows (Or.inr ⟨rfl, rfl⟩) (by omega) hrows h3 hh
      hm hlen hv

/-- C1 on the P5 stream `P5 2 2 255\n` followed by the bytes 1, 20, 255, 0. -/
theorem radix_round_trip_canonical_witness :
    convertTwice 0 (headerText 5 2 [[1, 20], [255, 0]].length 255
        ++ (if 5 ≤ 3 then asciiData [[1, 20], [255, 0]] else [[1, 20], [255, 0]].flatten))
      = .ok () ⟨[], headerText 5 2 [[1, 20], [255, 0]].length 255
          ++ (if 5 ≤ 3 then asciiData [[1, 20], [255, 0]] else [[1, 20], [255, 0]].flatten)⟩ :=
  radix_round_trip_canonical 0 5 2 255 [[1, 20], [255, 0]] (by decide) (by decide) (by decide)
    (by decide) (by decide) (by decide) (by decide) (by decide) (by decide)

/-- C1 as stated fails: RADIX-CONVERT twice on the valid P2 stream
`P2 1 1 255\n5\n` returns with `P2 1 1 255\n  5 \n` written, which is not the
input. -/
theorem radix_round_trip_not_bytewise :
    convertTwice 0 [80, 50, 32, 49, 32, 49, 32, 50, 53, 53, 10, 53, 10]
        = .ok () ⟨[], [80, 50, 32, 49, 32, 49, 32, 50, 53, 53, 10, 32, 32, 53, 32, 10]⟩ ∧
      [80, 50, 32, 49, 32, 49, 32, 50, 53, 53, 10, 32, 32, 53, 32, 10]
        ≠ [80, 50, 32, 49, 32, 49, 32, 50, 53, 53, 10, 53, 10] := by
  refine ⟨?_, by decide⟩
  unfold convertTwice
  rw [run_eq_of ⟨2, 1, 1, 255⟩ ⟨[53, 10], []⟩ (by decide) (by decide :
    transcode .CONVERT ⟨2, 1, 1, 255⟩ ⟨[53, 10], []⟩
      = .ok () ⟨[], [80, 53, 32, 49, 32, 49, 32, 50, 53, 53, 10, 5]⟩)]
  exact run_eq_of ⟨5, 1, 1, 255⟩ ⟨[5], []⟩ (by decide) (by decide)

/-! ## P1 -> P4 on well-formed data -/

theorem chunks8_drop {α : Type} (n : Nat) (l : List α) (c : Nat) :
    (chunks8 n l).drop c = chunks8 (n - c) (l.drop (8 * c)) := by
  induction c generalizing n l with
  | zero => simp
  | succ c ih =>
    cases n with
    | zero => simp [chunks8]
    | succ n =>
      simp only [chunks8, List.drop_succ_cons]
      rw [ih n (l.drop 8), List.drop_drop]
      have e1 : n + 1 - (c + 1) = n - c := by omega
      have e2 : 8 * c + 8 = 8 * (c + 1) := by omega
      have e3 : 8 + 8 * c = 8 * (c + 1) := by omega
      first
        | rw [e1, e2]
        | rw [e1, e3]

theorem flatMap_flatMap_flatten {α β : Type} (f : α → List β) (xs : List (List α)) :
    xs.flatMap (fun ch => ch.flatMap f) = xs.flatten.flatMap f := by
  induction xs with
  | nil => rfl
  | cons x xs ih => simp [List.flatMap_cons, List.flatMap_append, ih]

/-- What follows sample `k` of group `c` of a row is what follows sample
`8 c + k` of the row. -/
theorem after_in_chunk {α : Type} (f : α → List Nat) (row : List α) (c k : Nat)
    (hk : k < 8) :
    (((chunks8 ((row.length + 7) / 8) row).getD c []).drop (k + 1)).flatMap f
        ++ ((chunks8 ((row.length + 7) / 8) row).drop (c + 1)).flatMap (fun ch => ch.flatMap f)
      = (row.drop (8 * c + k + 1)).flatMap f := by
  by_cases hc : c < (row.length + 7) / 8
  · have hc' : c < (chunks8 ((row.length + 7) / 8) row).length := by
      rw [chunks8_length]; exact hc
    rw [List.getD_eq_getElem _ _ hc', chunks8_getElem _ _ _ hc', chunks8_drop]
    have e1 : (chunks8 ((row.length + 7) / 8 - (c + 1)) (row.drop (8 * (c + 1)))).flatMap
        (fun ch => ch.flatMap f) = (row.drop (8 * (c + 1))).flatMap f := by
      have := chunks8_flatten ((row.length + 7) / 8 - (c + 1)) (row.drop (8 * (c + 1)))
        (by simp only [List.length_drop]; omega)
      rw [flatMap_flatMap_flatten, this]
    rw [e1, ← List.flatMap_append]
    congr 1
    have e2 : ((row.drop (8 * c)).take 8).drop (k + 1)
        = (row.drop (8 * c + k + 1)).take (7 - k) := by
      rw [List.drop_take, List.drop_drop]
      congr 1
      omega
    have e3 : row.drop (8 * (c + 1)) = (row.drop (8 * c + k + 1)).drop (7 - k) := by
      rw [List.drop_drop]
      congr 1
      omega
    rw [e2, e3, List.take_append_drop]
  · have h1 : (chunks8 ((row.length + 7) / 8) row).getD c [] = [] := by
      rw [List.getD_eq_default]
      rw [chunks8_length]; omega
    have h2 : (chunks8 ((row.length + 7) / 8) row).drop (c + 1) = [] := by
      rw [List.drop_eq_nil_iff, chunks8_length]; omega
    have h3 : row.drop (8 * c + k + 1) = [] := by
      rw [List.drop_eq_nil_iff]; omega
    rw [h1, h2, h3]
    simp

/-- The bit loop of `ascii_to_binary_bnw` on one group of at most eight tokens. -/
theorem ascii_to_binary_bnw_bits (mc : Int) (i j w h : Int) (chunk : List Tok)
    (hwf : ∀ t ∈ chunk, t.WF ∧ t.val < 2147483648 ∧ (mc = 0 ∨ (t.val : Int) ≤ mc))
    (hcl : chunk.length ≤ 8) (tail : List Nat)
    (hafter : ∀ k, k < chunk.length →
      dropWs ((chunk.drop (k + 1)).flatMap Tok.bytes ++ tail)
          = (chunk.drop (k + 1)).flatMap Tok.bytes ++ tail ∧
        ((chunk.drop (k + 1)).flatMap Tok.bytes ++ tail ≠ [] ∨
          check_last i (j + ((k : Int) + 1) - 1) w h = true))
    (out : List Nat) :
    forLoop (chunk.length : Int) 1 (fun k (byte : Nat) => do
        let is_last := check_last i (j + k - 1) w h
        let color ← get_ascii_num mc is_last
        pure (if color == 0 then byte ^^^ bitmask k else byte))
      chunk.length 1 255 ⟨chunk.flatMap Tok.bytes ++ tail, out⟩
      = .ok (packByte (chunk.map (fun t => decide (t.val ≠ 0)))) ⟨tail, out⟩ := by
  have := forLoop_items_st (chunk.length : Int) 1 1 (fun k (byte : Nat) => do
        let is_last := check_last i (j + k - 1) w h
        let color ← get_ascii_num mc is_last
        pure (if color == 0 then byte ^^^ bitmask k else byte))
    chunk Tok.bytes (fun _ => []) tail (packUpto (chunk.map (fun t => decide (t.val ≠ 0))))
    (fun k hk => by omega) (by omega) (fun k hk => by omega)
    (fun k hk out => by
      obtain ⟨h1, h2, h3⟩ := hwf _ (List.getElem_mem hk)
      obtain ⟨a1, a2⟩ := hafter k hk
      have e : (1 : Int) + (k : Int) * 1 = (k : Int) + 1 := by ring
      simp only [bind_apply, e]
      rw [get_ascii_num_tok mc _ _ h1 _ out h2 h3 a1 a2]
      simp only [pure_apply, List.append_nil, bitmask_succ, packUpto]
      congr 1
      have hg : (chunk.map (fun t => decide (t.val ≠ 0))).getD k true
          = decide (chunk[k].val ≠ 0) := by
        simp [List.getD, hk]
      rw [hg]
      by_cases hc : chunk[k].val = 0
      · simp [hc]
      · have : ¬ ((chunk[k].val : Int) = 0) := by exact_mod_cast hc
        simp [hc, this])
    chunk.length (le_refl _) out
  simp only [packUpto] at this
  rw [this]
  simp [packByte]

/-- One group of `ascii_to_binary_bnw`: up to eight tokens are read and one
byte is written. -/
theorem ascii_to_binary_bnw_group (mc : Int) (w : Nat) (rows : List (List Tok))
    (hw : ∀ row ∈ rows, row.length = w)
    (hwf : ∀ row ∈ rows, ∀ t ∈ row,
      t.WF ∧ t.val < 2147483648 ∧ (mc = 0 ∨ (t.val : Int) ≤ mc))
    (hw1 : 1 ≤ w) (tail : List Nat) (htail : dropWs tail = tail) (r : Nat) (hr : r < rows.length)
    (c : Nat) (hc : c < (chunks8 ((w + 7) / 8) rows[r]).length) (out : List Nat) :
    (do
      let byte ← forLoop (upper_bound (w : Int) (1 + (c : Int) * 8)) 1 (fun k (byte : Nat) => do
          let is_last := check_last ((r : Int) + 1) (1 + (c : Int) * 8 + k - 1) (w : Int)
            (rows.length : Int)
          let color ← get_ascii_num mc is_last
          pure (if color == 0 then byte ^^^ bitmask k else byte))
        (upper_bound (w : Int) (1 + (c : Int) * 8)).toNat 1 255
      putchar byte : Prog Unit)
      ⟨(fun ch : List Tok => ch.flatMap Tok.bytes) (chunks8 ((w + 7) / 8) rows[r])[c]
        ++ (((chunks8 ((w + 7) / 8) rows[r]).drop (c + 1)).flatMap
            (fun ch => ch.flatMap Tok.bytes)
          ++ ((rows.drop (r + 1)).flatMap (fun row => row.flatMap Tok.bytes) ++ tail)), out⟩
    = .ok () ⟨((chunks8 ((w + 7) / 8) rows[r]).drop (c + 1)).flatMap
            (fun ch => ch.flatMap Tok.bytes)
          ++ ((rows.drop (r + 1)).flatMap (fun row => row.flatMap Tok.bytes) ++ tail),
        out ++ [packByte ((chunks8 ((w + 7) / 8) rows[r])[c].map
          (fun t => decide (t.val ≠ 0)))]⟩ := by
  have hlen : rows[r].length = w := hw _ (List.getElem_mem _)
  have hrows : ∀ row ∈ rows, row ≠ [] ∧ ∀ t ∈ row, t.WF := fun row h =>
    ⟨by intro he; have := hw row h; rw [he] at this; simp at this; omega,
     fun t ht => (hwf row h t ht).1⟩
  obtain ⟨h1, h2⟩ := after_row rows hrows tail htail r hr
  unfold rowsBytes at h1 h2
  have hc' : c < (w + 7) / 8 := by simpa [chunks8_length] using hc
  have hcl := chunks8_getElem_length ((w + 7) / 8) rows[r] c hc
  rw [hlen] at hcl
  have hub : upper_bound (w : Int) (1 + (c : Int) * 8)
      = (((chunks8 ((w + 7) / 8) rows[r])[c]).length : Int) := by
    rw [upper_bound_natCast w c (by omega), hcl]
  have hmem : ∀ t ∈ (chunks8 ((w + 7) / 8) rows[r])[c], t ∈ rows[r] := by
    intro t ht
    have h2 : t ∈ (chunks8 ((w + 7) / 8) rows[r]).flatten :=
      List.mem_flatten.2 ⟨_, List.getElem_mem hc, ht⟩
    rwa [chunks8_flatten _ _ (by omega)] at h2
  simp only [bind_apply, hub, Int.toNat_ofNat]
  rw [ascii_to_binary_bnw_bits mc _ _ _ _ _
    (fun t ht => hwf _ (List.getElem_mem hr) t (hmem t ht)) (by omega) _
    (fun k hk => by
      have hk8 : k < 8 := by omega
      have key := after_in_chunk Tok.bytes rows[r] c k hk8
      rw [hlen, List.getD_eq_getElem _ _ hc] at key
      rw [← List.append_assoc, key]
      have := after_tok rows[r] (fun t ht => (hwf _ (List.getElem_mem hr) t ht).1) _ h1
        ((r : Int) + 1) (rows.length : Int) h2 (8 * c + k) (by omega)
      have e : (1 : Int) + (c : Int) * 8 + ((k : Int) + 1) - 1 = ((8 * c + k : Nat) : Int) + 1 := by
        push_cast; ring
      rw [e, ← hlen]
      exact this)]
  exact putchar_byte _ (packByte_lt _) _ _

/-- The rows of `ascii_to_binary_bnw` (P1 -> P4) on well-formed tokens that
pass the range check against whatever `max_color` holds: a sample 0 clears its
bit, any other sample leaves it set. -/
theorem ascii_to_binary_bnw_ok (mc : Int) (w : Nat) (hw1 : 1 ≤ w) (rows : List (List Tok))
    (hw : ∀ row ∈ rows, row.length = w)
    (hwf : ∀ row ∈ rows, ∀ t ∈ row,
      t.WF ∧ t.val < 2147483648 ∧ (mc = 0 ∨ (t.val : Int) ≤ mc))
    (hwb : w ≤ 2147483640) (hhb : rows.length < 2147483647)
    (tail : List Nat) (htail : dropWs tail = tail) (out : List Nat) :
    ascii_to_binary_bnw (w : Int) (rows.length : Int) mc ⟨rowsBytes rows ++ tail, out⟩
      = .ok () ⟨tail, out ++ rows.flatMap (fun row =>
          packRow (row.map (fun t => decide (t.val ≠ 0))))⟩ := by
  unfold ascii_to_binary_bnw rowsBytes
  apply forTo_items
  · exact hhb
  intro r hr out
  have hlen : rows[r].length = w := hw _ (List.getElem_mem _)
  have hfl : (chunks8 ((w + 7) / 8) rows[r]).flatMap (fun ch => ch.flatMap Tok.bytes)
      = rows[r].flatMap Tok.bytes := by
    rw [flatMap_flatMap_flatten, chunks8_flatten]; omega
  have := forTo8_items w hwb (fun j => do
      let byte ← forLoop (upper_bound (w : Int) j) 1 (fun k (byte : Nat) => do
          let is_last := check_last ((r : Int) + 1) (j + k - 1) (w : Int) (rows.length : Int)
          let color ← get_ascii_num mc is_last
          pure (if color == 0 then byte ^^^ bitmask k else byte))
        (upper_bound (w : Int) j).toNat 1 255
      putchar byte) (chunks8 ((w + 7) / 8) rows[r]) (chunks8_length _ _)
    (fun ch => ch.flatMap Tok.bytes)
    (fun ch => [packByte (ch.map (fun t => decide (t.val ≠ 0)))])
    ((rows.drop (r + 1)).flatMap (fun row => row.flatMap Tok.bytes) ++ tail)
    (ascii_to_binary_bnw_group mc w rows hw hwf hw1 tail htail r hr) out
  rw [hfl] at this
  rw [this]
  congr 2
  unfold packRow
  rw [List.length_map, hlen, chunks8_map, List.map_map, ← flatMap_singleton_map]
  rfl

/-- On one row of `w ≥ 2147483641` well-formed tokens that pass the range check
`ascii_to_binary_bnw` reads the whole row and writes its `ceil(w / 8)` bytes;
then `j += 8` leaves the range of `int` and the row loop is not left. -/
theorem ascii_to_binary_bnw_wide_stuck (mc : Int) (w : Nat) (hw : 2147483641 ≤ w)
    (hw2 : w ≤ 2147483647) (row : List Tok) (hlen : row.length = w)
    (hwf : ∀ t ∈ row, t.WF ∧ t.val < 2147483648 ∧ (mc = 0 ∨ (t.val : Int) ≤ mc))
    (tail : List Nat) (htail : dropWs tail = tail) (out : List Nat) :
    ascii_to_binary_bnw (w : Int) 1 mc ⟨row.flatMap Tok.bytes ++ tail, out⟩ = .stuck := by
  unfold ascii_to_binary_bnw
  refine forTo_first_stuck _ _ _ _ (by decide) ?_
  have hfl : (chunks8 ((w + 7) / 8) row).flatMap (fun ch => ch.flatMap Tok.bytes)
      = row.flatMap Tok.bytes := by
    rw [flatMap_flatMap_flatten, chunks8_flatten]; omega
  have hg := ascii_to_binary_bnw_group mc w [row]
    (fun r hr => by rw [List.mem_singleton.1 hr]; exact hlen)
    (fun r hr => by rw [List.mem_singleton.1 hr]; exact hwf) (by omega) tail htail 0 (by simp)
  simp only [List.getElem_cons_zero, Nat.cast_zero, zero_add, List.length_singleton,
    Nat.cast_one, List.drop_succ_cons, List.drop_zero, List.flatMap_nil, List.nil_append] at hg
  have := forTo8_items_stuck w hw hw2 (fun j => do
      let byte ← forLoop (upper_bound (w : Int) j) 1 (fun k (byte : Nat) => do
          let is_last := check_last 1 (j + k - 1) (w : Int) 1
          let color ← get_ascii_num mc is_last
          pure (if color == 0 then byte ^^^ bitmask k else byte))
        (upper_bound (w : Int) j).toNat 1 255
      putchar byte) (chunks8 ((w + 7) / 8) row) (chunks8_length _ _)
    (fun ch => ch.flatMap Tok.bytes)
    (fun ch => [packByte (ch.map (fun t => decide (t.val ≠ 0)))]) tail hg out
  rw [hfl] at this
  exact this

/-- `for (j = 1; j <= w; j += 8)` with `w ≥ 2147483641` does not return: after
the round for `j = 2147483641` the increment leaves the range of `int`. -/
theorem forTo8_not_ok (w : Int) (hw : 2147483641 ≤ w) (body : Int → Prog Unit) (s s' : St) :
    forTo w 8 body s ≠ .ok () s' := by
  intro h
  unfold forTo at h
  have h' : forLoop w 8 (fun i _ => body i) w.toNat (1 + ((0 : Nat) : Int) * 8) () s
      = .ok () s' := by simpa using h
  obtain ⟨n, _, _, hend, hall⟩ := forLoop_inv w 8 (fun i _ => body i) 1 (fun _ _ _ => True)
    (fun _ _ _ _ _ _ _ _ => trivial) _ 0 () s () s' trivial h'
  by_cases h0 : n = 0
  · subst h0; simp at hend; omega
  · have := hall (n - 1) (by omega) (by omega)
    omega

/-- `for (i = 1; i <= h; i++)` with `h ≥ 2147483647` does not return: after the
round for `i = 2147483647` the increment leaves the range of `int`. -/
theorem forTo_not_ok (h : Int) (hh : 2147483647 ≤ h) (body : Int → Prog Unit) (s s' : St) :
    forTo h 1 body s ≠ .ok () s' := by
  intro hr
  unfold forTo at hr
  have h' : forLoop h 1 (fun i _ => body i) h.toNat (1 + ((0 : Nat) : Int) * 1) () s
      = .ok () s' := by simpa using hr
  obtain ⟨n, _, _, hend, hall⟩ := forLoop_inv h 1 (fun i _ => body i) 1 (fun _ _ _ => True)
    (fun _ _ _ _ _ _ _ _ => trivial) _ 0 () s () s' trivial h'
  by_cases h0 : n = 0
  · subst h0; simp at hend; omega
  · have := hall (n - 1) (by omega) (by omega)
    omega

/-- A loop `for (i = 1; i <= h; i += step)` with `h ≥ 1` whose first round does
not return does not return. -/
theorem forTo_first_not_ok (hi step : Int) (h1 : 1 ≤ hi) (body : Int → Prog Unit) (s : St)
    (hb : ∀ s', body 1 s ≠ .ok () s') : ∀ s', forTo hi step body s ≠ .ok () s' := by
  intro s' h
  unfold forTo at h
  obtain ⟨f, hf⟩ : ∃ f, hi.toNat = f + 1 := ⟨hi.toNat - 1, by omega⟩
  rw [hf, forLoop_succ, if_pos h1, bind_apply] at h
  cases hr : body 1 s with
  | ok a s1 => exact hb s1 (by cases a; exact hr)
  | exit o => rw [hr] at h; simp at h
  | stuck => rw [hr] at h; simp at h

/-- C3, with the loop counters in the range of `int`: bit-packing exactness.
Both producers of packed output return on well-formed data of width `w` with
`1 ≤ w ≤ 2147483640` and at most 2147483646 rows (`to_bnw_binary`, P5 -> P4, on
bytes up to the maximum; `ascii_to_binary_bnw`, P1 -> P4, on tokens that pass
the range check against whatever `max_color` holds).  And whenever one of them
returns, for any height `h` and any value of `max_color`, what it has written is
`h` rows of exactly `ceil(w / 8)` bytes each (`h * ceil(w / 8)` bytes in all),
and when `w` is not a multiple of 8 the low `8 - w % 8` bits of the last byte of
every row are 1. -/
theorem packed_rows_shape (w m : Nat) (mc : Int) (grays : List (List Nat))
    (toks : List (List Tok)) (hw1 : 1 ≤ w) (hwb : w ≤ 2147483640)
    (hgb : grays.length ≤ 2147483646) (htb : toks.length ≤ 2147483646)
    (hg : ∀ row ∈ grays, row.length = w ∧ ∀ v ∈ row, v ≤ m)
    (ht : ∀ row ∈ toks, row.length = w ∧
      ∀ t ∈ row, t.WF ∧ t.val < 2147483648 ∧ (mc = 0 ∨ (t.val : Int) ≤ mc)) :
    (∃ s', to_bnw_binary (w : Int) (grays.length : Int) (m : Int) ⟨grays.flatten, []⟩
      = .ok () s') ∧
    (∃ s', ascii_to_binary_bnw (w : Int) (toks.length : Int) mc ⟨rowsBytes toks, []⟩
      = .ok () s') ∧
    ∀ (h : Nat) (mx : Int) (s s' : St),
      (to_bnw_binary (w : Int) (h : Int) mx s = .ok () s' ∨
        ascii_to_binary_bnw (w : Int) (h : Int) mx s = .ok () s') →
      ∃ rows : List (List Nat), s'.out = s.out ++ rows.flatten ∧ rows.length = h ∧
        rows.flatten.length = h * ((w + 7) / 8) ∧
        ∀ row ∈ rows, row.length = (w + 7) / 8 ∧
          (w % 8 ≠ 0 → ∀ p, p < 8 - w % 8 →
            (row.getD ((w + 7) / 8 - 1) 0).testBit p = true) := by
  refine ⟨?_, ?_, ?_⟩
  · have := to_bnw_binary_ok m w grays (fun row h => (hg row h).1) (fun row h => (hg row h).2)
      hwb (by omega) [] []
    rw [List.append_nil] at this
    exact ⟨_, this⟩
  · have := ascii_to_binary_bnw_ok mc w hw1 toks (fun row h => (ht row h).1)
      (fun row h => (ht row h).2) hwb (by omega) [] rfl []
    rw [List.append_nil] at this
    exact ⟨_, this⟩
  · intro h mx s s' hrun
    have key : ∃ rows : List (List Nat), s'.out = s.out ++ rows.flatten ∧ rows.length = h ∧
        ∀ row ∈ rows, row.length = (w + 7) / 8 ∧
          (w % 8 ≠ 0 → ∀ p, p < 8 - w % 8 →
            (row.getD ((w + 7) / 8 - 1) 0).testBit p = true) := by
      rcases hrun with hrun | hrun
      · unfold to_bnw_binary at hrun
        exact pack_rows_inv w h (fun _ _ _ => get_binary_num mx)
          (fun color => color > Int.tdiv (mx + 1) 2)
          (fun _ _ _ s c s' hr => get_binary_num_ok_out mx s c s' hr) s s' hrun
      · unfold ascii_to_binary_bnw at hrun
        exact pack_rows_inv w h
          (fun i j k => get_ascii_num mx (check_last i (j + k - 1) (w : Int) (h : Int)))
          (fun color => (color == 0) = true)
          (fun _ _ _ s c s' hr => get_ascii_num_ok_out mx _ s c s' hr) s s' hrun
    obtain ⟨rows, h1, h2, h3⟩ := key
    refine ⟨rows, h1, h2, ?_, h3⟩
    rw [length_flatten_of_const _ rows (fun row hr => (h3 row hr).1), h2]

/-- C3 at width 10: one P5 row (bytes 255 255 255 0 0 255 128 129 0 200, maximum
255) and one P1 row (`1 0 1 1 0 0 0 1 1 0 `, `max_color` holding 0). -/
theorem packed_rows_shape_witness :
    (∃ s', to_bnw_binary ((10 : Nat) : Int)
        (([[255, 255, 255, 0, 0, 255, 128, 129, 0, 200]] : List (List Nat)).length : Int)
        ((255 : Nat) : Int) ⟨[[255, 255, 255, 0, 0, 255, 128, 129, 0, 200]].flatten, []⟩
      = .ok () s') ∧
    (∃ s', ascii_to_binary_bnw ((10 : Nat) : Int) (bilevelRowExample.length : Int) 0
        ⟨rowsBytes bilevelRowExample, []⟩ = .ok () s') ∧
    ∀ (h : Nat) (mx : Int) (s s' : St),
      (to_bnw_binary ((10 : Nat) : Int) (h : Int) mx s = .ok () s' ∨
        ascii_to_binary_bnw ((10 : Nat) : Int) (h : Int) mx s = .ok () s') →
      ∃ rows : List (List Nat), s'.out = s.out ++ rows.flatten ∧ rows.length = h ∧
        rows.flatten.length = h * ((10 + 7) / 8) ∧
        ∀ row ∈ rows, row.length = (10 + 7) / 8 ∧
          (10 % 8 ≠ 0 → ∀ p, p < 8 - 10 % 8 →
            (row.getD ((10 + 7) / 8 - 1) 0).testBit p = true) :=
  packed_rows_shape 10 255 0 [[255, 255, 255, 0, 0, 255, 128, 129, 0, 200]] bilevelRowExample
    (by decide) (by decide) (by decide) (by decide) (by decide) (by decide)

/-- C3 as stated fails at width 2147483641 (height 1): neither producer returns,
whatever the input and whatever `max_color` holds.  The row loop runs
`for (j = 1; j <= width; j += 8)`; its last round is the one for
`j = 2147483641`, after which `j += 8` leaves the range of `int`, so the loop is
not left after the `ceil(w / 8) = 268435456` bytes of the row.  On the P5 row
of 2147483641 bytes 0 the run reaches exactly that point: all samples are read,
then the counter overflows.  Likewise at a height of 2147483647 rows (width 1)
neither producer returns: after the last row `i++` leaves the range of `int`. -/
theorem packing_loop_not_left_at_wide_rows :
    (¬ ∃ (mx : Int) (s s' : St), to_bnw_binary 2147483641 1 mx s = .ok () s') ∧
      (¬ ∃ (mx : Int) (s s' : St), ascii_to_binary_bnw 2147483641 1 mx s = .ok () s') ∧
      to_bnw_binary 2147483641 1 255 ⟨List.replicate 2147483641 0, []⟩ = .stuck ∧
      (2147483641 + 7) / 8 = 268435456 ∧
      (¬ ∃ (mx : Int) (s s' : St), to_bnw_binary 1 2147483647 mx s = .ok () s') ∧
      ¬ ∃ (mx : Int) (s s' : St), ascii_to_binary_bnw 1 2147483647 mx s = .ok () s' := by
  refine ⟨?_, ?_, ?_, by decide, ?_, ?_⟩
  rotate_left 2
  · have := to_bnw_binary_wide_stuck 255 2147483641 (le_refl _) (by decide)
      (List.replicate 2147483641 0) (List.length_replicate _ _)
      (fun v hv => by rw [List.eq_of_mem_replicate hv]; exact Nat.zero_le _) [] []
    rw [List.append_nil] at this
    exact this
  · rintro ⟨mx, s, s', h⟩
    unfold to_bnw_binary at h
    exact forTo_not_ok _ (le_refl _) _ _ _ h
  · rintro ⟨mx, s, s', h⟩
    unfold ascii_to_binary_bnw at h
    exact forTo_not_ok _ (le_refl _) _ _ _ h
  · rintro ⟨mx, s, s', h⟩
    unfold to_bnw_binary at h
    exact forTo_first_not_ok _ _ (by decide) _ _ (fun s1 => forTo8_not_ok _ (by decide) _ _ _) _ h
  · rintro ⟨mx, s, s', h⟩
    unfold ascii_to_binary_bnw at h
    exact forTo_first_not_ok _ _ (by decide) _ _ (fun s1 => forTo8_not_ok _ (by decide) _ _ _) _ h

/-! ## Header rejections (C11) -/

theorem silent_bind {α β : Type} {x : Prog α} {f : α → Prog β} (hx : Silent x)
    (hf : ∀ a, Silent (f a)) : Silent (x >>= f) := by
  intro s
  rw [bind_apply]
  cases h : x s with
  | ok a s1 =>
    have e := (hx s).1 a s1 h
    refine ⟨fun b s' hb => ?_, fun o ho => ?_⟩
    · rw [← e]; exact (hf a s1).1 b s' hb
    · rw [← e]; exact (hf a s1).2 o ho
  | exit o =>
    have e := (hx s).2 o h
    refine ⟨fun b s' hb => absurd hb (by simp), fun o' ho => ?_⟩
    simp only [Res.exit.injEq] at ho
    rw [← ho]; exact e
  | stuck => exact ⟨fun b s' hb => absurd hb (by simp), fun o' ho => absurd ho (by simp)⟩

theorem silent_pure {α : Type} (a : α) : Silent (pure a : Prog α) := by
  intro s
  simp only [pure_apply, Res.ok.injEq, and_imp, reduceCtorEq, false_implies, implies_true, and_true]
  intro _ s' _ h
  rw [h]

theorem silent_getchar : Silent getchar := by
  intro s
  unfold getchar
  split <;> simp only [Res.ok.injEq, and_imp, reduceCtorEq, false_implies, implies_true, and_true]
    <;> intro _ s' _ h <;> rw [← h]

theorem silent_check_error (b : Bool) : Silent (check_error b) := by
  intro s
  unfold check_error
  split
  · simp only [reduceCtorEq, false_implies, implies_true, Res.exit.injEq, true_and]
    intro o h; exact h.symm
  · simp only [Res.ok.injEq, and_imp, reduceCtorEq, false_implies, implies_true, and_true]
    intro _ s' _ h; rw [h]

theorem silent_ungetc (c : Int) : Silent (ungetc c) := by
  intro s
  unfold ungetc
  split <;> simp only [Res.ok.injEq, and_imp, reduceCtorEq, false_implies, implies_true, and_true]
    <;> intro _ s' _ h <;> rw [← h]

theorem silent_ignore_whitespace (fin : Bool) : Silent (ignore_whitespace fin) := by
  intro s
  obtain ⟨inp, out⟩ := s
  rw [ignore_whitespace_eq]
  split
  · simp only [reduceCtorEq, false_implies, implies_true, Res.exit.injEq, true_and]
    intro o h; exact h.symm
  · simp only [Res.ok.injEq, and_imp, reduceCtorEq, false_implies, implies_true, and_true]
    intro _ s' _ h; rw [← h]

theorem silent_get_ascii_num (mc : Int) (fin : Bool) : Silent (get_ascii_num mc fin) := by
  intro s
  unfold get_ascii_num
  split
  · simp only [reduceCtorEq, false_implies, implies_true, Res.exit.injEq, true_and]
    intro o h; exact h.symm
  · exact (silent_bind (silent_check_error _) (fun _ =>
      silent_bind (silent_check_error _) (fun _ =>
        silent_bind (silent_ignore_whitespace _) (fun _ => silent_pure _)))) _

theorem silent_ignore_comments_loop : ∀ (fuel : Nat) (fh : Bool),
    Silent (ignore_comments_loop fuel fh) := by
  intro fuel
  induction fuel with
  | zero =>
    intro fh s
    simp [ignore_comments_loop]
  | succ f ih =>
    intro fh
    unfold ignore_comments_loop
    refine silent_bind silent_getchar (fun ch => ?_)
    split
    · exact silent_pure _
    · refine silent_bind ?_ (fun p => ?_)
      · split
        · exact silent_pure _
        · split
          · exact silent_bind (silent_ignore_whitespace _) (fun _ =>
              silent_bind silent_getchar (fun _ => silent_pure _))
          · exact silent_pure _
      · split
        · split
          · exact silent_pure _
          · split
            · exact silent_bind (silent_ungetc _) (fun _ => ih _)
            · exact silent_bind (silent_check_error _) (fun _ => ih _)
        · exact ih _

theorem silent_ignore_comments : Silent ignore_comments := by
  unfold ignore_comments
  refine silent_bind (silent_ignore_whitespace _) (fun _ => silent_bind ?_ (fun _ =>
    silent_bind (silent_check_error _) (fun _ => silent_ungetc _)))
  intro s
  exact silent_ignore_comments_loop _ _ s

/-- The header reads write nothing. -/
theorem silent_read_header (g : Int) : Silent (read_header g) := by
  unfold read_header
  refine silent_bind silent_getchar (fun _ =>
    silent_bind (silent_check_error _) (fun _ =>
      silent_bind silent_getchar (fun _ =>
        silent_bind (silent_check_error _) (fun _ =>
          silent_bind silent_ignore_comments (fun _ =>
            silent_bind (silent_get_ascii_num _ _) (fun _ =>
              silent_bind (silent_get_ascii_num _ _) (fun _ => ?_)))))))
  split
  · exact silent_bind (silent_get_ascii_num _ _) (fun _ =>
      silent_bind (silent_check_error _) (fun _ => silent_pure _))
  · exact silent_pure _

theorem get_ascii_num_loop_digits_any (ds : List Nat) (c : Nat) (rest : List Nat)
    (hds : ∀ d ∈ ds, isdigit ((d : Nat) : Int) = true) (hc : isspace (c : Int) = true) :
    ∀ a : Int, ∃ v : Int, get_ascii_num_loop (ds ++ c :: rest) a = some ((c : Int), v, rest) := by
  induction ds with
  | nil => intro a; exact ⟨a, by simp [get_ascii_num_loop, hc]⟩
  | cons d ds ih =>
    intro a
    have hd := hds d (List.mem_cons_self _ _)
    have hsp := isspace_of_isdigit hd
    simp only [List.cons_append, get_ascii_num_loop, hsp, hd, Bool.not_true, if_false,
      Bool.false_eq_true]
    exact ih (fun x hx => hds x (List.mem_cons_of_mem _ hx)) _

/-- A header field is read whatever its value: with `max_color` 0 there is no
range check. -/
theorem get_ascii_num_tok_any (t : Tok) (ht : t.WF) (after out : List Nat)
    (hafter : dropWs after = after) (hne : after ≠ []) :
    ∃ v : Int, get_ascii_num 0 false ⟨t.bytes ++ after, out⟩ = .ok v ⟨after, out⟩ := by
  obtain ⟨h1, h2, h3, h4⟩ := ht
  obtain ⟨c, ws, hsep⟩ : ∃ c ws, t.sep = c :: ws := by
    cases hs : t.sep with
    | nil => exact absurd hs h3
    | cons c ws => exact ⟨c, ws, rfl⟩
  have hc : isspace (c : Int) = true := h4 c (by rw [hsep]; exact List.mem_cons_self _ _)
  have hws : ∀ x ∈ ws, isspace ((x : Nat) : Int) = true :=
    fun x hx => h4 x (by rw [hsep]; exact List.mem_cons_of_mem _ hx)
  have e : t.bytes ++ after = t.digits ++ c :: (ws ++ after) := by
    simp [Tok.bytes, hsep]
  obtain ⟨v, hv⟩ := get_ascii_num_loop_digits_any t.digits c (ws ++ after) h2 hc 0
  refine ⟨v, ?_⟩
  rw [e]
  unfold get_ascii_num
  simp only [hv, bind_apply, natCast_ne_EOF, check_error_false, bne_self_eq_false,
    Bool.false_and, ignore_whitespace_eq, dropWs_append_of_spaces ws after hws, hafter, hne,
    false_and, if_false, pure_apply]

theorem run_exit_nil_of_head (mode : Mode) (g : Int) (X : List Nat) (hX : X.head? ≠ some 80) :
    run mode g X = .exit [] := by
  apply run_exit_of_header
  unfold read_header
  cases X with
  | nil => simp [bind_apply, getchar_nil, check_error_true, EOF]
  | cons c cs =>
    have hc : c ≠ 80 := by simpa using hX
    have : (((c : Nat) : Int) != 80) = true := by
      simp only [bne_iff_ne, ne_eq]; omega
    simp [bind_apply, getchar_cons, this, check_error_true]

theorem run_exit_nil_of_type (mode : Mode) (g : Int) (c2 : Nat) (Y : List Nat)
    (hc2 : c2 < 49 ∨ 54 < c2) : run mode g (80 :: c2 :: Y) = .exit [] := by
  apply run_exit_of_header
  unfold read_header
  have c1 : (((80 : Nat) : Int) != 80) = false := by decide
  have : (decide (((c2 : Nat) : Int) - 48 < 1) || decide (((c2 : Nat) : Int) - 48 > 6)) = true := by
    simp only [Bool.or_eq_true, decide_eq_true_eq]; omega
  simp [bind_apply, getchar_cons, c1, check_error_false, this, check_error_true]

theorem run_exit_nil_of_no_type (mode : Mode) (g : Int) : run mode g [80] = .exit [] := by
  apply run_exit_of_header
  unfold read_header
  have c1 : (((80 : Nat) : Int) != 80) = false := by decide
  have c2 : (decide (EOF - 48 < 1) || decide (EOF - 48 > 6)) = true := by decide
  simp [bind_apply, getchar_cons, getchar_nil, c1, check_error_false, c2, check_error_true]

/-- What the header read returns as the type is the second byte minus `'0'`,
and it lies in 1..6. -/
theorem read_header_type (g : Int) (c1 c2 : Nat) (Y out : List Nat) (hd : Header) (s : St)
    (h : read_header g ⟨c1 :: c2 :: Y, out⟩ = .ok hd s) :
    hd.type = (c2 : Int) - 48 ∧ 1 ≤ hd.type ∧ hd.type ≤ 6 := by
  unfold read_header at h
  simp only [bind_apply, getchar_cons] at h
  obtain ⟨_, s2, h2, hB⟩ := bind_ok_inv h
  obtain ⟨rfl, _⟩ := check_error_ok_inv h2
  simp only [bind_apply, getchar_cons] at hB
  obtain ⟨_, s4, h4, hD⟩ := bind_ok_inv hB
  obtain ⟨rfl, hty⟩ := check_error_ok_inv h4
  simp only [Bool.or_eq_false_iff, decide_eq_false_iff_not, not_lt] at hty
  obtain ⟨_, s5, h5, hE⟩ := bind_ok_inv hD
  obtain ⟨wd, s6, h6, hF⟩ := bind_ok_inv hE
  obtain ⟨ht, s7, h7, hG⟩ := bind_ok_inv hF
  split at hG
  · obtain ⟨mx, s8, h8, hH⟩ := bind_ok_inv hG
    obtain ⟨_, s9, h9, hI⟩ := bind_ok_inv hH
    simp only [pure_apply, Res.ok.injEq] at hI
    rw [← hI.1]
    refine ⟨rfl, ?_, ?_⟩ <;> simp only [] <;> omega
  · simp only [pure_apply, Res.ok.injEq] at hG
    rw [← hG.1]
    refine ⟨rfl, ?_, ?_⟩ <;> simp only [] <;> omega

/-- In the `TRANSFORM` build an input of type 1 or 4 ends the process with
nothing written. -/
theorem transform_bilevel_exit (g : Int) (c2 : Nat) (Y : List Nat) (hc : c2 = 49 ∨ c2 = 52) :
    run .TRANSFORM g (80 :: c2 :: Y) = .exit [] := by
  cases hr : read_header g ⟨80 :: c2 :: Y, []⟩ with
  | stuck => exact absurd hr (read_header_ne_stuck _ _)
  | exit o =>
    have := (silent_read_header g ⟨80 :: c2 :: Y, []⟩).2 o hr
    rw [run_exit_of_header hr, this]
  | ok hd s =>
    have hout := (silent_read_header g ⟨80 :: c2 :: Y, []⟩).1 hd s hr
    obtain ⟨hty, _, _⟩ := read_header_type g 80 c2 Y [] hd s hr
    refine run_eq_of hd s hr ?_
    obtain ⟨t, w, h, m⟩ := hd
    simp only [] at hty hout
    simp only [transcode]
    rcases hc with rfl | rfl
    · have : t = 1 := by rw [hty]; rfl
      subst this
      rw [transform_type1, hout]
    · have : t = 4 := by rw [hty]; rfl
      subst this
      rw [transform_type4, hout]

/-- The header read on a header whose third field is a maximum above 255. -/
theorem read_header_max_too_large (g : Int) (t : Nat) (segs : List (List Nat × List Nat))
    (ws : List Nat) (wt ht mt : Tok) (rest : List Nat)
    (htype : t = 2 ∨ t = 3 ∨ t = 5 ∨ t = 6)
    (hsegs : ∀ p ∈ segs, (∀ c ∈ p.1, isspace ((c : Nat) : Int) = true) ∧ ∀ c ∈ p.2, c ≠ 10)
    (hws : ∀ c ∈ ws, isspace ((c : Nat) : Int) = true)
    (hwt : wt.WF) (hht : ht.WF) (hmt : mt.WF) (hm : 255 < mt.val) (hm2 : mt.val < 2147483648) :
    read_header g ⟨80 :: (48 + t) :: (withComments segs ++ ws ++ wt.bytes ++ ht.bytes
        ++ mt.bytes ++ rest), []⟩ = .exit [] := by
  have hdw : ∀ (tk : Tok), tk.WF → ∀ after : List Nat, ∃ d r, tk.bytes ++ after = d :: r ∧
      isdigit ((d : Nat) : Int) = true := by
    intro tk htk after
    obtain ⟨h1, h2, -, -⟩ := htk
    cases hx : tk.digits with
    | nil => exact absurd hx h1
    | cons d r =>
      refine ⟨d, r ++ tk.sep ++ after, by simp [Tok.bytes, hx], h2 d (by rw [hx]; exact List.mem_cons_self _ _)⟩
  have e0 : withComments segs ++ ws ++ wt.bytes ++ ht.bytes ++ mt.bytes ++ rest
      = withComments segs ++ (ws ++ (wt.bytes ++ (ht.bytes ++ (mt.bytes ++ rest)))) := by
    simp only [List.append_assoc]
  obtain ⟨d, r, hd1, hd2⟩ := hdw wt hwt (ht.bytes ++ (mt.bytes ++ rest))
  have hic : ignore_comments ⟨withComments segs ++ (ws ++ (wt.bytes ++ (ht.bytes ++ (mt.bytes ++ rest)))), []⟩
      = .ok () ⟨wt.bytes ++ (ht.bytes ++ (mt.bytes ++ rest)), []⟩ := by
    rw [ignore_comments_strip segs _ _ hsegs, ← List.append_assoc, ignore_comments_spaces _ _ _ (by
      intro c hc
      rcases List.mem_append.1 hc with h | h
      · unfold withoutComments at h
        obtain ⟨p, hp, hcp⟩ := List.mem_flatMap.1 h
        exact (hsegs p hp).1 c hcp
      · exact hws c h)]
    rw [hd1]
    exact ignore_comments_digit _ _ d r (dropWs_cons_of_not_space _ (isspace_of_isdigit hd2)) hd2
  have a1 : dropWs (ht.bytes ++ (mt.bytes ++ rest)) = ht.bytes ++ (mt.bytes ++ rest) :=
    dropWs_tok_bytes ht hht _
  have n1 : ht.bytes ++ (mt.bytes ++ rest) ≠ [] := by
    intro h
    exact tok_bytes_ne_nil ht hht (List.append_eq_nil.1 h).1
  have a2 : dropWs (mt.bytes ++ rest) = mt.bytes ++ rest := dropWs_tok_bytes mt hmt _
  have n2 : mt.bytes ++ rest ≠ [] := by
    intro h
    exact tok_bytes_ne_nil mt hmt (List.append_eq_nil.1 h).1
  obtain ⟨vw, hgw⟩ := get_ascii_num_tok_any wt hwt (ht.bytes ++ (mt.bytes ++ rest)) [] a1 n1
  obtain ⟨vh, hgh⟩ := get_ascii_num_tok_any ht hht (mt.bytes ++ rest) [] a2 n2
  obtain ⟨m1, m2, m3, m4⟩ := hmt
  obtain ⟨c, cs, hsep⟩ : ∃ c cs, mt.sep = c :: cs := by
    cases hs : mt.sep with
    | nil => exact absurd hs m3
    | cons c cs => exact ⟨c, cs, rfl⟩
  have hc : isspace (c : Int) = true := m4 c (by rw [hsep]; exact List.mem_cons_self _ _)
  have e1 : mt.bytes ++ rest = mt.digits ++ c :: (cs ++ rest) := by simp [Tok.bytes, hsep]
  have hgm := get_ascii_num_digits 0 false mt.digits c (cs ++ rest) [] m2 hc hm2 (Or.inl rfl)
  rw [← e1] at hgm
  have c1 : (((80 : Nat) : Int) != 80) = false := by decide
  have c2 : (decide ((t : Int) < 1) || decide ((t : Int) > 6)) = false := by
    rcases htype with rfl | rfl | rfl | rfl <;> decide
  have c3 : ((t : Int) != 1 && (t : Int) != 4) = true := by
    rcases htype with rfl | rfl | rfl | rfl <;> decide
  have c4 : (decide (((decVal mt.digits : Nat) : Int) > 255)) = true := by
    simp only [decide_eq_true_eq]
    have : 255 < decVal mt.digits := hm
    omega
  have c5 : (((48 + t : Nat) : Int)) - 48 = (t : Int) := by push_cast; omega
  rw [e0]
  unfold read_header
  by_cases hq : dropWs (cs ++ rest) = [] ∧ false = false
  · rw [if_pos hq] at hgm
    simp only [bind_apply, getchar_cons, c1, check_error_false, c5, c2, hic, hgw, hgh, c3,
      if_true, hgm]
  · rw [if_neg hq] at hgm
    simp only [bind_apply, getchar_cons, c1, check_error_false, c5, c2, hic, hgw, hgh, c3,
      if_true, hgm, c4, check_error_true]

/-- C11, with the declared maximum in the range of `int`: header-level
rejections happen before anything is written.  The run ends through
`check_error` with no output byte (a) when the input does not start with `P`,
(b) when the byte after `P` is missing or is not one of `1`..`6`, (c) when the
type is 2, 3, 5 or 6 and the third header field, a maximum of at most
2147483647, exceeds 255: the process then ends inside the header read, before
any sample is read, and (d) in the `TRANSFORM` build when the type is 1 or 4.
More generally, whenever the header read ends the process, nothing has been
written. -/
theorem header_rejections_write_nothing (mode : Mode) (g : Int) (X Y rest ws : List Nat)
    (c2 t : Nat) (segs : List (List Nat × List Nat)) (wt ht mt : Tok)
    (hX : X.head? ≠ some 80) (hc2 : c2 < 49 ∨ 54 < c2)
    (htype : t = 2 ∨ t = 3 ∨ t = 5 ∨ t = 6)
    (hsegs : ∀ p ∈ segs, (∀ c ∈ p.1, isspace ((c : Nat) : Int) = true) ∧ ∀ c ∈ p.2, c ≠ 10)
    (hws : ∀ c ∈ ws, isspace ((c : Nat) : Int) = true)
    (hwt : wt.WF) (hht : ht.WF) (hmt : mt.WF) (hm : 255 < mt.val) (hm2 : mt.val < 2147483648) :
    run mode g X = .exit [] ∧
    run mode g [80] = .exit [] ∧ run mode g (80 :: c2 :: Y) = .exit [] ∧
    (read_header g ⟨80 :: (48 + t) :: (withComments segs ++ ws ++ wt.bytes ++ ht.bytes
        ++ mt.bytes ++ rest), []⟩ = .exit [] ∧
      run mode g (80 :: (48 + t) :: (withComments segs ++ ws ++ wt.bytes ++ ht.bytes
        ++ mt.bytes ++ rest)) = .exit []) ∧
    (run .TRANSFORM g (80 :: 49 :: Y) = .exit [] ∧ run .TRANSFORM g (80 :: 52 :: Y) = .exit []) ∧
    ∀ (Z o : List Nat), read_header g ⟨Z, []⟩ = .exit o → o = [] := by
  have hc := read_header_max_too_large g t segs ws wt ht mt rest htype hsegs hws hwt hht hmt hm hm2
  exact ⟨run_exit_nil_of_head mode g X hX, run_exit_nil_of_no_type mode g,
    run_exit_nil_of_type mode g c2 Y hc2, ⟨hc, run_exit_of_header hc⟩,
    ⟨transform_bilevel_exit g 49 Y (Or.inl rfl), transform_bilevel_exit g 52 Y (Or.inr rfl)⟩,
    fun Z o h => (silent_read_header g ⟨Z, []⟩).2 o h⟩

/-- C11 on `Q5 ...`, `P9 ...`, `P2\n# c\n 1 1 300\n5\n` and `P1 ...` / `P4 ...`
in the `TRANSFORM` build. -/
theorem header_rejections_write_nothing_witness :
    run .CONVERT 0 [81, 53, 32, 49, 32, 49, 10] = .exit [] ∧
    run .CONVERT 0 [80] = .exit [] ∧ run .CONVERT 0 (80 :: 57 :: [32, 49, 32, 49, 10]) = .exit [] ∧
    (read_header 0 ⟨80 :: (48 + 2) :: (withComments [([10], [32, 99])] ++ [32]
        ++ (⟨[49], [32]⟩ : Tok).bytes ++ (⟨[49], [32]⟩ : Tok).bytes
        ++ (⟨[51, 48, 48], [10]⟩ : Tok).bytes ++ [53, 10]), []⟩ = .exit [] ∧
      run .CONVERT 0 (80 :: (48 + 2) :: (withComments [([10], [32, 99])] ++ [32]
        ++ (⟨[49], [32]⟩ : Tok).bytes ++ (⟨[49], [32]⟩ : Tok).bytes
        ++ (⟨[51, 48, 48], [10]⟩ : Tok).bytes ++ [53, 10])) = .exit []) ∧
    (run .TRANSFORM 0 (80 :: 49 :: [32, 49, 32, 49, 10]) = .exit [] ∧
      run .TRANSFORM 0 (80 :: 52 :: [32, 49, 32, 49, 10]) = .exit []) ∧
    ∀ (Z o : List Nat), read_header 0 ⟨Z, []⟩ = .exit o → o = [] :=
  header_rejections_write_nothing .CONVERT 0 [81, 53, 32, 49, 32, 49, 10] [32, 49, 32, 49, 10]
    [53, 10] [32] 57 2 [([10], [32, 99])] ⟨[49], [32]⟩ ⟨[49], [32]⟩ ⟨[51, 48, 48], [10]⟩
    (by decide) (by decide) (by decide) (by decide) (by decide) (by decide) (by decide)
    (by decide) (by decide) (by decide)

/-- C11 as stated fails in case (c) on `P2 1 1 4294967296\n5\n`: the declared
maximum 4294967296 exceeds 255, but in the `int` accumulator of `get_ascii_num`
it comes out as 0, so the header read returns with the maximum 0, the sample is
read, and the `CONVERT` build returns, having written `P5 1 1 0\n` and the
byte 5. -/
theorem max_sample_beyond_int_accepted :
    decVal [52, 50, 57, 52, 57, 54, 55, 50, 57, 54] = 4294967296 ∧
      read_header 0 ⟨[80, 50, 32, 49, 32, 49, 32, 52, 50, 57, 52, 57, 54, 55, 50, 57, 54, 10,
        53, 10], []⟩ = .ok ⟨2, 1, 1, 0⟩ ⟨[53, 10], []⟩ ∧
      run .CONVERT 0 [80, 50, 32, 49, 32, 49, 32, 52, 50, 57, 52, 57, 54, 55, 50, 57, 54, 10,
        53, 10] = .ok () ⟨[], [80, 53, 32, 49, 32, 49, 32, 48, 10, 5]⟩ := by
  refine ⟨by decide, by decide, run_eq_of ⟨2, 1, 1, 0⟩ ⟨[53, 10], []⟩ (by decide) (by decide)⟩

/-! ## The output header (C12) -/

theorem appends_of_silent {α : Type} {x : Prog α} (hx : Silent x) : Appends x := by
  intro s a s' h
  exact ⟨[], by rw [(hx s).1 a s' h, List.append_nil]⟩

theorem appends_bind {α β : Type} {x : Prog α} {f : α → Prog β} (hx : Appends x)
    (hf : ∀ a, Appends (f a)) : Appends (x >>= f) := by
  intro s b s' h
  obtain ⟨a, s1, h1, h2⟩ := bind_ok_inv h
  obtain ⟨d1, e1⟩ := hx s a s1 h1
  obtain ⟨d2, e2⟩ := hf a s1 b s' h2
  exact ⟨d1 ++ d2, by rw [e2, e1, List.append_assoc]⟩

theorem appends_pure {α : Type} (a : α) : Appends (pure a : Prog α) :=
  appends_of_silent (silent_pure a)

theorem appends_puts (bs : List Nat) : Appends (puts bs) := by
  intro s a s' h
  simp only [puts, Res.ok.injEq] at h
  exact ⟨bs, by rw [← h.2]⟩

theorem appends_putchar (c : Int) : Appends (putchar c) := by
  intro s a s' h
  simp only [putchar, Res.ok.injEq] at h
  exact ⟨_, by rw [← h.2]⟩

theorem appends_forLoop {β : Type} (hi step : Int) (body : Int → β → Prog β)
    (hbody : ∀ i b, Appends (body i b)) :
    ∀ (fuel : Nat) (i : Int) (b : β), Appends (forLoop hi step body fuel i b) := by
  intro fuel
  induction fuel with
  | zero =>
    intro i b
    rw [forLoop_zero]
    split
    · intro s a s' h; exact absurd h (by simp)
    · exact appends_pure _
  | succ f ih =>
    intro i b
    rw [forLoop_succ]
    split
    · refine appends_bind (hbody i b) (fun b2 => ?_)
      split
      · intro s a s' h; exact absurd h (by simp)
      · exact ih _ _
    · exact appends_pure _

theorem appends_forTo (hi step : Int) (body : Int → Prog Unit) (hbody : ∀ i, Appends (body i)) :
    Appends (forTo hi step body) :=
  appends_forLoop hi step _ (fun i _ => hbody i) _ _ _

theorem appends_get_ascii_num (mc : Int) (fin : Bool) : Appends (get_ascii_num mc fin) :=
  appends_of_silent (silent_get_ascii_num mc fin)

theorem appends_get_binary_num (mc : Int) : Appends (get_binary_num mc) := by
  unfold get_binary_num
  exact appends_bind (appends_of_silent silent_getchar) (fun _ =>
    appends_bind (appends_of_silent (silent_check_error _)) (fun _ =>
      appends_bind (appends_of_silent (silent_check_error _)) (fun _ => appends_pure _)))

theorem appends_to_bnw_binary (w h m : Int) : Appends (to_bnw_binary w h m) := by
  unfold to_bnw_binary
  exact appends_forTo _ _ _ (fun _ => appends_forTo _ _ _ (fun _ =>
    appends_bind (appends_forLoop _ _ _ (fun _ _ =>
      appends_bind (appends_get_binary_num _) (fun _ => appends_pure _)) _ _ _)
      (fun _ => appends_putchar _)))

theorem appends_to_bnw_ascii (w h m : Int) : Appends (to_bnw_ascii w h m) := by
  unfold to_bnw_ascii
  exact appends_forTo _ _ _ (fun _ =>
    appends_bind (appends_forTo _ _ _ (fun _ =>
      appends_bind (appends_get_ascii_num _ _) (fun _ => by
        split
        · exact appends_puts _
        · exact appends_puts _))) (fun _ => appends_putchar _))

theorem appends_to_gray_scale_binary (w h m : Int) : Appends (to_gray_scale_binary w h m) := by
  unfold to_gray_scale_binary
  exact appends_forTo _ _ _ (fun _ => appends_forTo _ _ _ (fun _ =>
    appends_bind (appends_get_binary_num _) (fun _ =>
      appends_bind (appends_get_binary_num _) (fun _ =>
        appends_bind (appends_get_binary_num _) (fun _ => appends_putchar _)))))

theorem appends_to_gray_scale_ascii (w h m : Int) : Appends (to_gray_scale_ascii w h m) := by
  unfold to_gray_scale_ascii
  exact appends_forTo _ _ _ (fun _ =>
    appends_bind (appends_forTo _ _ _ (fun _ =>
      appends_bind (appends_get_ascii_num _ _) (fun _ =>
        appends_bind (appends_get_ascii_num _ _) (fun _ =>
          appends_bind (appends_get_ascii_num _ _) (fun _ => appends_puts _)))))
      (fun _ => appends_putchar _))

theorem appends_binary_to_ascii_bnw (w h m : Int) : Appends (binary_to_ascii_bnw w h m) := by
  unfold binary_to_ascii_bnw
  exact appends_forTo _ _ _ (fun _ =>
    appends_bind (appends_forTo _ _ _ (fun _ =>
      appends_bind (appends_get_binary_num _) (fun _ =>
        appends_forLoop _ _ _ (fun _ _ => appends_puts _) _ _ _)))
      (fun _ => appends_putchar _))

theorem appends_binary_to_ascii_cg (w h m : Int) : Appends (binary_to_ascii_cg w h m) := by
  unfold binary_to_ascii_cg
  exact appends_forTo _ _ _ (fun _ =>
    appends_bind (appends_forTo _ _ _ (fun _ =>
      appends_bind (appends_get_binary_num _) (fun _ => appends_puts _)))
      (fun _ => appends_putchar _))

theorem appends_ascii_to_binary_bnw (w h m : Int) : Appends (ascii_to_binary_bnw w h m) := by
  unfold ascii_to_binary_bnw
  exact appends_forTo _ _ _ (fun _ => appends_forTo _ _ _ (fun _ =>
    appends_bind (appends_forLoop _ _ _ (fun _ _ =>
      appends_bind (appends_get_ascii_num _ _) (fun _ => appends_pure _)) _ _ _)
      (fun _ => appends_putchar _)))

theorem appends_ascii_to_binary_cg (w h m : Int) : Appends (ascii_to_binary_cg w h m) := by
  unfold ascii_to_binary_cg
  exact appends_forTo _ _ _ (fun _ => appends_forTo _ _ _ (fun _ =>
    appends_bind (appends_get_ascii_num _ _) (fun _ => appends_putchar _)))

/-- The type the header read returns lies in 1..6, and nothing was written. -/
theorem read_header_type_range (g : Int) (s0 : St) (hd : Header) (s : St)
    (h : read_header g s0 = .ok hd s) : 1 ≤ hd.type ∧ hd.type ≤ 6 := by
  unfold read_header at h
  obtain ⟨c, s1, h1, hA⟩ := bind_ok_inv h
  obtain ⟨_, s2, h2, hB⟩ := bind_ok_inv hA
  obtain ⟨c2, s3, h3, hC⟩ := bind_ok_inv hB
  obtain ⟨_, s4, h4, hD⟩ := bind_ok_inv hC
  obtain ⟨_, hty⟩ := check_error_ok_inv h4
  simp only [Bool.or_eq_false_iff, decide_eq_false_iff_not, not_lt] at hty
  obtain ⟨_, s5, h5, hE⟩ := bind_ok_inv hD
  obtain ⟨wd, s6, h6, hF⟩ := bind_ok_inv hE
  obtain ⟨ht, s7, h7, hG⟩ := bind_ok_inv hF
  split at hG
  · obtain ⟨mx, s8, h8, hH⟩ := bind_ok_inv hG
    obtain ⟨_, s9, h9, hI⟩ := bind_ok_inv hH
    simp only [pure_apply, Res.ok.injEq] at hI
    rw [← hI.1]
    refine ⟨?_, ?_⟩ <;> simp only [] <;> omega
  · simp only [pure_apply, Res.ok.injEq] at hG
    rw [← hG.1]
    refine ⟨?_, ?_⟩ <;> simp only [] <;> omega

/-- A returning transcoder has written its header first. -/
theorem transcode_ok_header (mode : Mode) (t w h m : Int) (s s' : St)
    (ht : 1 ≤ t ∧ t ≤ 6) (hrun : transcode mode ⟨t, w, h, m⟩ s = .ok () s') :
    (mode = .TRANSFORM → t = 2 ∨ t = 3 ∨ t = 5 ∨ t = 6) ∧
    ∃ data, s'.out = s.out ++ ([80] ++ fmt_d (target_type mode t) ++ [32] ++ fmt_d w ++ [32]
      ++ fmt_d h ++ (if target_type mode t = 1 ∨ target_type mode t = 4 then []
        else [32] ++ fmt_d m) ++ [10] ++ data) := by
  have f1 : fmt_d 1 = [49] := by decide
  have f2 : fmt_d 2 = [50] := by decide
  have f3 : fmt_d 3 = [51] := by decide
  have f4 : fmt_d 4 = [52] := by decide
  have f5 : fmt_d 5 = [53] := by decide
  have f6 : fmt_d 6 = [54] := by decide
  have key : ∀ (hdr : List Nat) (body : Prog Unit), Appends body →
      (puts hdr >>= fun _ => body) s = .ok () s' → ∃ data, s'.out = s.out ++ (hdr ++ data) := by
    intro hdr body hb hr
    rw [bind_ok (puts_apply _ _ _)] at hr
    obtain ⟨d, hd⟩ := hb _ _ _ hr
    exact ⟨d, by rw [hd, List.append_assoc]⟩
  have hcases : t = 1 ∨ t = 2 ∨ t = 3 ∨ t = 4 ∨ t = 5 ∨ t = 6 := by omega
  cases mode with
  | TRANSFORM =>
    simp only [transcode] at hrun
    rcases hcases with rfl | rfl | rfl | rfl | rfl | rfl
    · rw [transform_type1] at hrun; exact absurd hrun (by simp)
    · rw [transform_type2] at hrun
      obtain ⟨d, hd⟩ := key _ _ (appends_to_bnw_ascii _ _ _) hrun
      exact ⟨fun _ => by omega, d, by simp [hd, target_type, f1]⟩
    · rw [transform_type3] at hrun
      obtain ⟨d, hd⟩ := key _ _ (appends_to_gray_scale_ascii _ _ _) hrun
      exact ⟨fun _ => by omega, d, by simp [hd, target_type, f2]⟩
    · rw [transform_type4] at hrun; exact absurd hrun (by simp)
    · rw [transform_type5] at hrun
      obtain ⟨d, hd⟩ := key _ _ (appends_to_bnw_binary _ _ _) hrun
      exact ⟨fun _ => by omega, d, by simp [hd, target_type, f4]⟩
    · rw [transform_type6] at hrun
      obtain ⟨d, hd⟩ := key _ _ (appends_to_gray_scale_binary _ _ _) hrun
      exact ⟨fun _ => by omega, d, by simp [hd, target_type, f5]⟩
  | CONVERT =>
    simp only [transcode] at hrun
    refine ⟨fun hc => Mode.noConfusion hc, ?_⟩
    rcases hcases with rfl | rfl | rfl | rfl | rfl | rfl
    · rw [convert_type1] at hrun
      obtain ⟨d, hd⟩ := key _ _ (appends_ascii_to_binary_bnw _ _ _) hrun
      exact ⟨d, by simp [hd, target_type, new_type, f4]⟩
    · rw [convert_type2] at hrun
      obtain ⟨d, hd⟩ := key _ _ (appends_ascii_to_binary_cg _ _ _) hrun
      exact ⟨d, by simp [hd, target_type, new_type, f5]⟩
    · rw [convert_type3] at hrun
      obtain ⟨d, hd⟩ := key _ _ (appends_ascii_to_binary_cg _ _ _) hrun
      exact ⟨d, by simp [hd, target_type, new_type, f6]⟩
    · rw [convert_type4] at hrun
      obtain ⟨d, hd⟩ := key _ _ (appends_binary_to_ascii_bnw _ _ _) hrun
      exact ⟨d, by simp [hd, target_type, new_type, f1]⟩
    · rw [convert_type5] at hrun
      obtain ⟨d, hd⟩ := key _ _ (appends_binary_to_ascii_cg _ _ _) hrun
      exact ⟨d, by simp [hd, target_type, new_type, f2]⟩
    · rw [convert_type6] at hrun
      obtain ⟨d, hd⟩ := key _ _ (appends_binary_to_ascii_cg _ _ _) hrun
      exact ⟨d, by simp [hd, target_type, new_type, f3]⟩

/-- C12: output header shape.  When a run returns, the header read had returned
fields `hd` (type in 1..6, and one of 2, 3, 5, 6 in the `TRANSFORM` build), and
the output is `P<g> <width> <height>` with the width and height of `hd`, where
`g` is `type - 1` in the `TRANSFORM` build and `new_type` (`type + 3` up to 3,
else `type - 3`) in the `CONVERT` build, then a fourth field, the maximum of
`hd`, exactly when `g` is not 1 or 4, then a newline and the pixel data.
`new_type` maps 1..6 to 1..6 and is its own inverse there. -/
theorem output_header_shape (mode : Mode) (g : Int) (X : List Nat) (s' : St)
    (hrun : run mode g X = .ok () s') :
    (∃ (hd : Header) (s : St) (data : List Nat), read_header g ⟨X, []⟩ = .ok hd s ∧
      (1 ≤ hd.type ∧ hd.type ≤ 6) ∧
      (mode = .TRANSFORM → hd.type = 2 ∨ hd.type = 3 ∨ hd.type = 5 ∨ hd.type = 6) ∧
      s'.out = [80] ++ fmt_d (target_type mode hd.type) ++ [32] ++ fmt_d hd.width ++ [32]
        ++ fmt_d hd.height
        ++ (if target_type mode hd.type = 1 ∨ target_type mode hd.type = 4 then []
          else [32] ++ fmt_d hd.max_color)
        ++ [10] ++ data) ∧
    (∀ f : Int, target_type .TRANSFORM f = f - 1 ∧
      target_type .CONVERT f = (if f ≤ 3 then f + 3 else f - 3)) ∧
    ∀ f : Int, 1 ≤ f → f ≤ 6 →
      1 ≤ new_type f ∧ new_type f ≤ 6 ∧ new_type (new_type f) = f := by
  refine ⟨?_, ?_, ?_⟩
  · unfold run main at hrun
    obtain ⟨hd, s, h1, h2⟩ := bind_ok_inv hrun
    have hout := (silent_read_header g ⟨X, []⟩).1 hd s h1
    have hty := read_header_type_range g _ hd s h1
    obtain ⟨t, w, h, m⟩ := hd
    obtain ⟨hT, data, hdata⟩ := transcode_ok_header mode t w h m s s' hty h2
    refine ⟨⟨t, w, h, m⟩, s, data, h1, hty, hT, ?_⟩
    rw [hdata, hout]
    rfl
  · intro f
    refine ⟨rfl, ?_⟩
    simp only [target_type, new_type]
    split_ifs <;> first | rfl | omega
  · intro f h1 h6
    unfold new_type
    split_ifs <;> omega

/-- C12 on the P5 stream `P5 2 1 255\n` with the bytes 7 and 200, converted to
P2. -/
theorem output_header_shape_witness :
    (∃ (hd : Header) (s : St) (data : List Nat),
        read_header 0 ⟨headerShapeExample, []⟩ = .ok hd s ∧
      (1 ≤ hd.type ∧ hd.type ≤ 6) ∧
      (Mode.CONVERT = .TRANSFORM → hd.type = 2 ∨ hd.type = 3 ∨ hd.type = 5 ∨ hd.type = 6) ∧
      (⟨[], [80, 50, 32, 50, 32, 49, 32, 50, 53, 53, 10,
          32, 32, 55, 32, 50, 48, 48, 32, 10]⟩ : St).out
        = [80] ++ fmt_d (target_type .CONVERT hd.type) ++ [32] ++ fmt_d hd.width ++ [32]
        ++ fmt_d hd.height
        ++ (if target_type .CONVERT hd.type = 1 ∨ target_type .CONVERT hd.type = 4 then []
          else [32] ++ fmt_d hd.max_color)
        ++ [10] ++ data) ∧
    (∀ f : Int, target_type .TRANSFORM f = f - 1 ∧
      target_type .CONVERT f = (if f ≤ 3 then f + 3 else f - 3)) ∧
    ∀ f : Int, 1 ≤ f → f ≤ 6 →
      1 ≤ new_type f ∧ new_type f ≤ 6 ∧ new_type (new_type f) = f :=
  output_header_shape .CONVERT 0 headerShapeExample
    ⟨[], [80, 50, 32, 50, 32, 49, 32, 50, 53, 53, 10, 32, 32, 55, 32, 50, 48, 48, 32, 10]⟩
    (run_eq_of ⟨5, 2, 1, 255⟩ ⟨[7, 200], []⟩ (by decide) (by decide))

/-! ## Where binary pixel data starts (C13, C14, C15) -/

/-- C13 on the P5 stream `P5 1 1 255\n` followed by the one pixel byte 32: the
header read takes the pixel byte for white space and ends the process at the
end of the stream, with nothing written.  With a second byte 65 after it the
run returns with the token 65, not 32; with the pixel byte 65 alone the run
returns with the token 65.  The stream is what the `CONVERT` build itself
writes for `P2 1 1 255\n32\n`. -/
theorem binary_data_start_skips_white_space :
    run .CONVERT 0 [80, 53, 32, 49, 32, 49, 32, 50, 53, 53, 10, 32] = .exit [] ∧
    run .CONVERT 0 [80, 53, 32, 49, 32, 49, 32, 50, 53, 53, 10, 32, 65]
      = .ok () ⟨[], [80, 50, 32, 49, 32, 49, 32, 50, 53, 53, 10, 32, 54, 53, 32, 10]⟩ ∧
    run .CONVERT 0 [80, 53, 32, 49, 32, 49, 32, 50, 53, 53, 10, 65]
      = .ok () ⟨[], [80, 50, 32, 49, 32, 49, 32, 50, 53, 53, 10, 32, 54, 53, 32, 10]⟩ ∧
    run .CONVERT 0 [80, 50, 32, 49, 32, 49, 32, 50, 53, 53, 10, 51, 50, 10]
      = .ok () ⟨[], [80, 53, 32, 49, 32, 49, 32, 50, 53, 53, 10, 32]⟩ ∧
    run .TRANSFORM 0 [80, 53, 32, 49, 32, 49, 32, 50, 53, 53, 10, 32] = .exit [] :=
  ⟨run_exit_of_header (by decide),
    run_eq_of ⟨5, 1, 1, 255⟩ ⟨[65], []⟩ (by decide) (by decide),
    run_eq_of ⟨5, 1, 1, 255⟩ ⟨[65], []⟩ (by decide) (by decide),
    run_eq_of ⟨2, 1, 1, 255⟩ ⟨[51, 50, 10], []⟩ (by decide) (by decide),
    run_exit_of_header (by decide)⟩

/-- C14 on the P5 stream `P5 2 1 255\n` with the pixel bytes 32 and 65, and on
the P6 stream `P6 1 1 255\n` with the pixel bytes 10, 20, 30: the first pixel
byte is skipped as white space by the header read, so the first token written
is the second byte and the process ends when the data runs out.  On the pixel
bytes 7 and 200 the tokens are `  7 ` and `200 `, and the P2 stream
`P2 2 1 255\n7 200\n` gives back the bytes 7 and 200. -/
theorem radix_convert_first_byte_skipped :
    run .CONVERT 0 [80, 53, 32, 50, 32, 49, 32, 50, 53, 53, 10, 32, 65]
      = .exit [80, 50, 32, 50, 32, 49, 32, 50, 53, 53, 10, 32, 54, 53, 32] ∧
    run .CONVERT 0 [80, 54, 32, 49, 32, 49, 32, 50, 53, 53, 10, 10, 20, 30]
      = .exit [80, 51, 32, 49, 32, 49, 32, 50, 53, 53, 10, 32, 50, 48, 32, 32, 51, 48, 32] ∧
    run .CONVERT 0 [80, 53, 32, 50, 32, 49, 32, 50, 53, 53, 10, 7, 200]
      = .ok () ⟨[], [80, 50, 32, 50, 32, 49, 32, 50, 53, 53, 10,
          32, 32, 55, 32, 50, 48, 48, 32, 10]⟩ ∧
    run .CONVERT 0 [80, 50, 32, 50, 32, 49, 32, 50, 53, 53, 10, 55, 32, 50, 48, 48, 10]
      = .ok () ⟨[], [80, 53, 32, 50, 32, 49, 32, 50, 53, 53, 10, 7, 200]⟩ :=
  ⟨run_eq_of ⟨5, 2, 1, 255⟩ ⟨[65], []⟩ (by decide) (by decide),
    run_eq_of ⟨6, 1, 1, 255⟩ ⟨[20, 30], []⟩ (by decide) (by decide),
    run_eq_of ⟨5, 2, 1, 255⟩ ⟨[7, 200], []⟩ (by decide) (by decide),
    run_eq_of ⟨2, 2, 1, 255⟩ ⟨[55, 32, 50, 48, 48, 10], []⟩ (by decide) (by decide)⟩

/-- C15 on two P4 streams of width 8 and height 1.  On `P4 8 1\n` followed by
the byte `0x20` the header read takes the pixel byte for white space and ends
the process at the end of the stream with nothing written, whatever the
unassigned `max_color` holds.  On `P4 8 1\n` followed by the byte `0x80`,
`get_binary_num` compares the byte with `max_color`, which `main` never assigns
for type 4: when the variable holds 0 the byte is rejected and only the header
is written; when it holds 255 the run returns with the tokens
`1 0 0 0 0 0 0 0 `.  On `P4 10 1\n` with the bytes `0x80 0x7F` (and 255 in the
variable) the ten tokens are `1 0 0 0 0 0 0 0 0 1 `: the six padding bits give
no token. -/
theorem p4_to_p1_valid_input_rejected :
    (∀ g : Int, run .CONVERT g [80, 52, 32, 56, 32, 49, 10, 32] = .exit []) ∧
    run .CONVERT 0 [80, 52, 32, 56, 32, 49, 10, 128] = .exit [80, 49, 32, 56, 32, 49, 10] ∧
    run .CONVERT 255 [80, 52, 32, 56, 32, 49, 10, 128]
      = .ok () ⟨[], [80, 49, 32, 56, 32, 49, 10,
          49, 32, 48, 32, 48, 32, 48, 32, 48, 32, 48, 32, 48, 32, 48, 32, 10]⟩ ∧
    run .CONVERT 255 [80, 52, 32, 49, 48, 32, 49, 10, 128, 127]
      = .ok () ⟨[], [80, 49, 32, 49, 48, 32, 49, 10, 49, 32, 48, 32, 48, 32, 48, 32, 48, 32,
          48, 32, 48, 32, 48, 32, 48, 32, 49, 32, 10]⟩ :=
  ⟨fun _ => run_exit_of_header rfl,
    run_eq_of ⟨4, 8, 1, 0⟩ ⟨[128], []⟩ (by decide) (by decide),
    run_eq_of ⟨4, 8, 1, 255⟩ ⟨[128], []⟩ (by decide) (by decide),
    run_eq_of ⟨4, 10, 1, 255⟩ ⟨[128, 127], []⟩ (by decide) (by decide)⟩

/-! ## Unpacking (P4 -> P1) -/

theorem and_bitmask_ne_zero (b i : Nat) :
    (b &&& bitmask ((i : Int) + 1) ≠ 0) ↔ b.testBit (7 - i) = true := by
  rw [bitmask_succ, Nat.one_shiftLeft, Nat.and_two_pow]
  cases h : b.testBit (7 - i) <;> simp

/-- The bit loop of `binary_to_ascii_bnw` on one byte. -/
theorem binary_to_ascii_bnw_bits (color : Nat) (bits : List Bool)
    (hbits : ∀ (i : Nat) (hi : i < bits.length), bits[i] = color.testBit (7 - i))
    (hbl : bits.length ≤ 8) (inp out : List Nat) :
    forLoop (bits.length : Int) 1 (fun k (_ : Unit) =>
        puts (fmt_d (if (color : Int).toNat &&& bitmask k ≠ 0 then 1 else 0) ++ [32]))
      bits.length 1 () ⟨inp, out⟩
      = .ok () ⟨inp, out ++ bitTokens bits⟩ := by
  have hnil : ∀ l : List Bool, l.flatMap (fun _ => ([] : List Nat)) = [] := by
    intro l
    induction l with
    | nil => rfl
    | cons a l ih => simp [List.flatMap_cons, ih]
  have := forLoop_items (bits.length : Int) 1 1 (fun k (_ : Unit) =>
        puts (fmt_d (if (color : Int).toNat &&& bitmask k ≠ 0 then 1 else 0) ++ [32]))
    bits (fun _ => []) (fun b => [if b then 49 else 48, 32]) inp
    (fun k hk => by omega) (by omega) (fun k hk => by omega)
    (fun k hk out => by
      have e : (1 : Int) + (k : Int) * 1 = (k : Int) + 1 := by ring
      have f1 : fmt_d 1 = [49] := by decide
      have f0 : fmt_d 0 = [48] := by decide
      simp only [hnil, List.nil_append, puts_apply, e, Int.toNat_ofNat]
      congr 2
      rw [hbits k hk]
      by_cases hb : color.testBit (7 - k) = true
      · rw [if_pos ((and_bitmask_ne_zero color k).2 hb), hb, f1]; rfl
      · have hb' : color.testBit (7 - k) = false := by simpa using hb
        rw [if_neg (fun h => hb ((and_bitmask_ne_zero color k).1 h)), hb', f0]; rfl)
    bits.length (le_refl _) out
  simpa only [hnil, List.nil_append, bitTokens] using this

theorem rowBits_length (w : Nat) (row : List Nat) : (rowBits w row).length = w := by
  simp [rowBits]

/-- One row of `binary_to_ascii_bnw` without its newline: `ceil(w / 8)` bytes
are read and `w` tokens written. -/
theorem binary_to_ascii_bnw_row (mc : Int) (w : Nat) (row : List Nat)
    (hlen : row.length = (w + 7) / 8) (hm : ∀ b ∈ row, (b : Int) ≤ mc)
    (hwb : w ≤ 2147483640) (tail out : List Nat) :
    forTo (w : Int) 8 (fun j => do
        let color ← get_binary_num mc
        forLoop (upper_bound (w : Int) j) 1 (fun k (_ : Unit) =>
            puts (fmt_d (if color.toNat &&& bitmask k ≠ 0 then 1 else 0) ++ [32]))
          (upper_bound (w : Int) j).toNat 1 ()) ⟨row ++ tail, out⟩
      = .ok () ⟨tail, out ++ bitTokens (rowBits w row)⟩ := by
  have hcl : (chunks8 ((w + 7) / 8) (rowBits w row)).length = (w + 7) / 8 := chunks8_length _ _
  have hzl : (row.zip (chunks8 ((w + 7) / 8) (rowBits w row))).length = (w + 7) / 8 := by
    rw [List.length_zip, hcl, hlen, Nat.min_self]
  have := forTo8_items w hwb (fun j => do
        let color ← get_binary_num mc
        forLoop (upper_bound (w : Int) j) 1 (fun k (_ : Unit) =>
            puts (fmt_d (if color.toNat &&& bitmask k ≠ 0 then 1 else 0) ++ [32]))
          (upper_bound (w : Int) j).toNat 1 ())
    (row.zip (chunks8 ((w + 7) / 8) (rowBits w row))) hzl (fun p => [p.1])
    (fun p => bitTokens p.2) tail
    (fun k hk out => by
      have hk' : k < (w + 7) / 8 := by rw [hzl] at hk; exact hk
      have hkr : k < row.length := by rw [hlen]; exact hk'
      have hkc : k < (chunks8 ((w + 7) / 8) (rowBits w row)).length := by rw [hcl]; exact hk'
      have h8 : 8 * k < w := by omega
      have hz : (row.zip (chunks8 ((w + 7) / 8) (rowBits w row)))[k]
          = (row[k], (chunks8 ((w + 7) / 8) (rowBits w row))[k]) := List.getElem_zip
      have hchl := chunks8_getElem_length ((w + 7) / 8) (rowBits w row) k hkc
      rw [rowBits_length] at hchl
      have hle : ¬ ((row[k] : Int) > mc) := not_lt.2 (hm _ (List.getElem_mem _))
      have hub : upper_bound (w : Int) (1 + (k : Int) * 8)
          = (((chunks8 ((w + 7) / 8) (rowBits w row))[k]).length : Int) := by
        rw [upper_bound_natCast w k h8, hchl]
      rw [hz]
      simp only [List.singleton_append, bind_apply, get_binary_num_cons, hle, if_false, hub,
        Int.toNat_ofNat]
      refine binary_to_ascii_bnw_bits row[k] _ (fun i hi => ?_) (by omega) _ _
      have hi8 : i < min 8 (w - 8 * k) := by rw [← hchl]; exact hi
      have hb : 8 * k + i < (rowBits w row).length := by rw [rowBits_length]; omega
      have e1 : ((chunks8 ((w + 7) / 8) (rowBits w row))[k])[i] = (rowBits w row)[8 * k + i] := by
        simp only [chunks8_getElem, List.getElem_take, List.getElem_drop]
      rw [e1]
      simp only [rowBits, List.getElem_map, List.getElem_range]
      have e2 : (8 * k + i) / 8 = k := by omega
      have e3 : (8 * k + i) % 8 = i := by omega
      rw [e2, e3]
      simp [List.getD, hkr])
    out
  have henc : (row.zip (chunks8 ((w + 7) / 8) (rowBits w row))).flatMap (fun p => [p.1])
      = row := by
    rw [flatMap_singleton_map]
    exact List.map_fst_zip _ _ (by rw [hcl, hlen])
  have hemit : (row.zip (chunks8 ((w + 7) / 8) (rowBits w row))).flatMap
        (fun p => bitTokens p.2) = bitTokens (rowBits w row) := by
    have h1 : (row.zip (chunks8 ((w + 7) / 8) (rowBits w row))).flatMap
          (fun p => bitTokens p.2)
        = ((row.zip (chunks8 ((w + 7) / 8) (rowBits w row))).map Prod.snd).flatMap
          bitTokens := by
      rw [List.flatMap_map]
    rw [h1, List.map_snd_zip _ _ (by rw [hcl, hlen])]
    unfold bitTokens
    rw [flatMap_flatMap_flatten, chunks8_flatten _ _ (by rw [rowBits_length]; omega)]
  rw [henc, hemit] at this
  exact this

/-- The rows of `binary_to_ascii_bnw` (P4 -> P1): from every row `ceil(w / 8)`
bytes are read, and `w` tokens and a newline are written. -/
theorem binary_to_ascii_bnw_ok (mc : Int) (w : Nat) (rows : List (List Nat))
    (hw : ∀ row ∈ rows, row.length = (w + 7) / 8)
    (hm : ∀ row ∈ rows, ∀ b ∈ row, (b : Int) ≤ mc) (hwb : w ≤ 2147483640)
    (hhb : rows.length < 2147483647) (tail out : List Nat) :
    binary_to_ascii_bnw (w : Int) (rows.length : Int) mc ⟨rows.flatten ++ tail, out⟩
      = .ok () ⟨tail, out ++ rows.flatMap (fun row => bitTokens (rowBits w row) ++ [10])⟩ := by
  unfold binary_to_ascii_bnw
  rw [← flatMap_id_eq_flatten]
  apply forTo_items
  · exact hhb
  intro r hr out
  have hlen := hw _ (List.getElem_mem hr)
  have hmr := hm _ (List.getElem_mem hr)
  have h10 : (((10 : Int) % 256).toNat) = 10 := by decide
  simp only [id, bind_apply,
    binary_to_ascii_bnw_row mc w rows[r] hlen hmr hwb _ out, putchar_apply, h10,
    List.append_assoc]

/-! ## Packing and unpacking a row (C18) -/

theorem rowBits_packRow (bits : List Bool) : rowBits bits.length (packRow bits) = bits := by
  apply List.ext_getElem
  · rw [rowBits_length]
  · intro c h1 h2
    simp only [rowBits, List.getElem_map, List.getElem_range]
    rw [packRow_testBit bits c h2]
    simp [List.getD, h2]

theorem mem_packRow_lt (bits : List Bool) (b : Nat) (hb : b ∈ packRow bits) : b < 256 := by
  unfold packRow at hb
  obtain ⟨ch, _, rfl⟩ := List.mem_map.1 hb
  exact packByte_lt ch

/-! ## Zero dimensions (C16) -/

theorem forTo_nonpos (hi step : Int) (body : Int → Prog Unit) (h : hi ≤ 0) (s : St) :
    forTo hi step body s = .ok () s := by
  unfold forTo
  exact forLoop_done _ _ _ _ _ _ _ (by omega)

/-- A loop whose every round reads nothing and writes the same text. -/
theorem forTo_const (hi : Int) (hmax : hi ≤ 2147483646) (body : Int → Prog Unit) (e : List Nat)
    (hbody : ∀ i inp out, body i ⟨inp, out⟩ = .ok () ⟨inp, out ++ e⟩) (inp out : List Nat) :
    forTo hi 1 body ⟨inp, out⟩ = .ok () ⟨inp, out ++ (List.replicate hi.toNat e).flatten⟩ := by
  unfold forTo
  have := forLoop_ok hi 1 (fun i _ => body i) hi.toNat hi.toNat 1
    (fun k => ((), ⟨inp, out ++ (List.replicate k e).flatten⟩)) (le_refl _)
    (fun k hk => by omega) (by omega) (fun k hk => by omega)
    (fun k _ => by
      simp only [hbody, List.replicate_succ', List.flatten_append, List.flatten_cons,
        List.flatten_nil, List.append_nil, List.append_assoc])
  simpa using this

theorem flatten_replicate_nil (n : Nat) :
    (List.replicate n ([] : List Nat)).flatten = [] := by
  induction n with
  | zero => rfl
  | succ n ih => simp [List.replicate_succ, ih]

theorem flatten_replicate_singleton (n : Nat) (c : Nat) :
    (List.replicate n [c]).flatten = List.replicate n c := by
  induction n with
  | zero => rfl
  | succ n ih => simp [List.replicate_succ, ih]

/-- A transcoder with binary output on an image without pixels: nothing is
read and nothing is written. -/
theorem binary_out_zero (w h : Int) (hz : w = 0 ∨ h = 0) (hhb : h ≤ 2147483646)
    (inner : Int → Int → Prog Unit) (inp out : List Nat) :
    forTo h 1 (fun i => forTo w 8 (inner i)) ⟨inp, out⟩ = .ok () ⟨inp, out⟩ ∧
    forTo h 1 (fun i => forTo w 1 (inner i)) ⟨inp, out⟩ = .ok () ⟨inp, out⟩ := by
  rcases hz with rfl | rfl
  · constructor
    · have := forTo_const h hhb (fun i => forTo 0 8 (inner i)) []
        (fun i inp out => by
          simp only [forTo_nonpos _ _ _ (le_refl _), List.append_nil]) inp out
      rwa [flatten_replicate_nil, List.append_nil] at this
    · have := forTo_const h hhb (fun i => forTo 0 1 (inner i)) []
        (fun i inp out => by
          simp only [forTo_nonpos _ _ _ (le_refl _), List.append_nil]) inp out
      rwa [flatten_replicate_nil, List.append_nil] at this
  · exact ⟨forTo_nonpos _ _ _ (le_refl _) _, forTo_nonpos _ _ _ (le_refl _) _⟩

/-- A transcoder with ASCII output on an image without pixels: nothing is read
and one newline is written for every row. -/
theorem ascii_out_zero (w h : Int) (hz : w = 0 ∨ h = 0) (hhb : h ≤ 2147483646)
    (inner : Int → Int → Prog Unit) (inp out : List Nat) :
    forTo h 1 (fun i => do forTo w 8 (inner i); putchar 10) ⟨inp, out⟩
        = .ok () ⟨inp, out ++ List.replicate h.toNat 10⟩ ∧
    forTo h 1 (fun i => do forTo w 1 (inner i); putchar 10) ⟨inp, out⟩
        = .ok () ⟨inp, out ++ List.replicate h.toNat 10⟩ := by
  have h10 : (((10 : Int) % 256).toNat) = 10 := by decide
  rcases hz with rfl | rfl
  · constructor
    · have := forTo_const h hhb (fun i => do forTo 0 8 (inner i); putchar 10) [10]
        (fun i inp out => by
          simp only [bind_apply, forTo_nonpos _ _ _ (le_refl _), putchar_apply, h10]) inp out
      rwa [flatten_replicate_singleton] at this
    · have := forTo_const h hhb (fun i => do forTo 0 1 (inner i); putchar 10) [10]
        (fun i inp out => by
          simp only [bind_apply, forTo_nonpos _ _ _ (le_refl _), putchar_apply, h10]) inp out
      rwa [flatten_replicate_singleton] at this
  · simp only [forTo_nonpos _ _ _ (le_refl _), Int.toNat_zero, List.replicate_zero,
      List.append_nil, and_self]

/-- After a successful header read some input is left, and it does not start
with white space. -/
theorem read_header_ok_ne_nil (g : Int) (s : St) (hd : Header) (s' : St)
    (h : read_header g s = .ok hd s') : s'.inp ≠ [] := by
  have key : ∀ (s1 : St) (v : Int) (s2 : St), get_ascii_num 0 false s1 = .ok v s2 →
      s2.inp ≠ [] := by
    intro s1 v s2 h1
    unfold get_ascii_num at h1
    cases hl : get_ascii_num_loop s1.inp 0 with
    | none => rw [hl] at h1; exact absurd h1 (by simp)
    | some r =>
      obtain ⟨ch, num, rest⟩ := r
      rw [hl] at h1
      obtain ⟨_, t1, e1, hA⟩ := bind_ok_inv h1
      obtain ⟨_, t2, e2, hB⟩ := bind_ok_inv hA
      obtain ⟨_, t3, e3, hC⟩ := bind_ok_inv hB
      obtain ⟨rfl, _⟩ := check_error_ok_inv e1
      obtain ⟨rfl, _⟩ := check_error_ok_inv e2
      rw [ignore_whitespace_eq] at e3
      split at e3
      · exact absurd e3 (by simp)
      · rename_i hne
        simp only [Res.ok.injEq] at e3
        simp only [pure_apply, Res.ok.injEq] at hC
        rw [← hC.2, ← e3.2]
        simpa using hne
  unfold read_header at h
  obtain ⟨c, s1, h1, hA⟩ := bind_ok_inv h
  obtain ⟨_, s2, h2, hB⟩ := bind_ok_inv hA
  obtain ⟨c2, s3, h3, hC⟩ := bind_ok_inv hB
  obtain ⟨_, s4, h4, hD⟩ := bind_ok_inv hC
  obtain ⟨_, s5, h5, hE⟩ := bind_ok_inv hD
  obtain ⟨wd, s6, h6, hF⟩ := bind_ok_inv hE
  obtain ⟨ht, s7, h7, hG⟩ := bind_ok_inv hF
  split at hG
  · obtain ⟨mx, s8, h8, hH⟩ := bind_ok_inv hG
    obtain ⟨_, s9, h9, hI⟩ := bind_ok_inv hH
    obtain ⟨rfl, _⟩ := check_error_ok_inv h9
    simp only [pure_apply, Res.ok.injEq] at hI
    rw [← hI.2]
    exact key _ _ _ h8
  · simp only [pure_apply, Res.ok.injEq] at hG
    rw [← hG.2]
    exact key _ _ _ h7

theorem transcoders_zero (w h m : Int) (hz : w = 0 ∨ h = 0) (hhb : h ≤ 2147483646)
    (inp out : List Nat) :
    (to_bnw_binary w h m ⟨inp, out⟩ = .ok () ⟨inp, out⟩ ∧
      to_gray_scale_binary w h m ⟨inp, out⟩ = .ok () ⟨inp, out⟩ ∧
      ascii_to_binary_bnw w h m ⟨inp, out⟩ = .ok () ⟨inp, out⟩ ∧
      ascii_to_binary_cg w h m ⟨inp, out⟩ = .ok () ⟨inp, out⟩) ∧
    (to_bnw_ascii w h m ⟨inp, out⟩ = .ok () ⟨inp, out ++ List.replicate h.toNat 10⟩ ∧
      to_gray_scale_ascii w h m ⟨inp, out⟩ = .ok () ⟨inp, out ++ List.replicate h.toNat 10⟩ ∧
      binary_to_ascii_bnw w h m ⟨inp, out⟩ = .ok () ⟨inp, out ++ List.replicate h.toNat 10⟩ ∧
      binary_to_ascii_cg w h m ⟨inp, out⟩ = .ok () ⟨inp, out ++ List.replicate h.toNat 10⟩) := by
  refine ⟨⟨?_, ?_, ?_, ?_⟩, ?_, ?_, ?_, ?_⟩
  · unfold to_bnw_binary; exact (binary_out_zero w h hz hhb _ inp out).1
  · unfold to_gray_scale_binary; exact (binary_out_zero w h hz hhb _ inp out).2
  · unfold ascii_to_binary_bnw; exact (binary_out_zero w h hz hhb _ inp out).1
  · unfold ascii_to_binary_cg; exact (binary_out_zero w h hz hhb _ inp out).2
  · unfold to_bnw_ascii; exact (ascii_out_zero w h hz hhb _ inp out).2
  · unfold to_gray_scale_ascii; exact (ascii_out_zero w h hz hhb _ inp out).2
  · unfold binary_to_ascii_bnw; exact (ascii_out_zero w h hz hhb _ inp out).1
  · unfold binary_to_ascii_cg; exact (ascii_out_zero w h hz hhb _ inp out).2

/-- The transcoding part of `main` on an image without pixels. -/
theorem transcode_zero (mode : Mode) (t w h m : Int) (inp : List Nat)
    (ht : 1 ≤ t ∧ t ≤ 6) (hz : w = 0 ∨ h = 0) (hhb : h ≤ 2147483646)
    (hsup : mode = .TRANSFORM → t ≠ 1 ∧ t ≠ 4) :
    transcode mode ⟨t, w, h, m⟩ ⟨inp, []⟩ = .ok () ⟨inp, outputHeader mode ⟨t, w, h, m⟩
      ++ (if target_type mode t ≤ 3 then List.replicate h.toNat 10 else [])⟩ := by
  have f1 : fmt_d 1 = [49] := by decide
  have f2 : fmt_d 2 = [50] := by decide
  have f3 : fmt_d 3 = [51] := by decide
  have f4 : fmt_d 4 = [52] := by decide
  have f5 : fmt_d 5 = [53] := by decide
  have f6 : fmt_d 6 = [54] := by decide
  have hz3 : wrap32 (3 * w) = 0 ∨ h = 0 := by
    rcases hz with rfl | rfl
    · left; decide
    · right; rfl
  have hcases : t = 1 ∨ t = 2 ∨ t = 3 ∨ t = 4 ∨ t = 5 ∨ t = 6 := by omega
  cases mode with
  | TRANSFORM =>
    obtain ⟨n1, n4⟩ := hsup rfl
    simp only [transcode]
    rcases hcases with rfl | rfl | rfl | rfl | rfl | rfl
    · exact absurd rfl n1
    · rw [transform_type2, bind_ok (puts_apply _ _ _), (transcoders_zero w h m hz hhb _ _).2.1]
      simp [outputHeader, target_type, f1]
    · rw [transform_type3, bind_ok (puts_apply _ _ _), (transcoders_zero w h m hz hhb _ _).2.2.1]
      simp [outputHeader, target_type, f2]
    · exact absurd rfl n4
    · rw [transform_type5, bind_ok (puts_apply _ _ _), (transcoders_zero w h m hz hhb _ _).1.1]
      simp [outputHeader, target_type, f4]
    · rw [transform_type6, bind_ok (puts_apply _ _ _), (transcoders_zero w h m hz hhb _ _).1.2.1]
      simp [outputHeader, target_type, f5]
  | CONVERT =>
    simp only [transcode]
    rcases hcases with rfl | rfl | rfl | rfl | rfl | rfl
    · rw [convert_type1, bind_ok (puts_apply _ _ _), (transcoders_zero w h m hz hhb _ _).1.2.2.1]
      simp [outputHeader, target_type, new_type, f4]
    · rw [convert_type2, bind_ok (puts_apply _ _ _), (transcoders_zero w h m hz hhb _ _).1.2.2.2]
      simp [outputHeader, target_type, new_type, f5]
    · rw [convert_type3, bind_ok (puts_apply _ _ _), (transcoders_zero _ h m hz3 hhb _ _).1.2.2.2]
      simp [outputHeader, target_type, new_type, f6]
    · rw [convert_type4, bind_ok (puts_apply _ _ _), (transcoders_zero w h m hz hhb _ _).2.2.2.1]
      simp [outputHeader, target_type, new_type, f1]
    · rw [convert_type5, bind_ok (puts_apply _ _ _), (transcoders_zero w h m hz hhb _ _).2.2.2.2]
      simp [outputHeader, target_type, new_type, f2]
    · rw [convert_type6, bind_ok (puts_apply _ _ _), (transcoders_zero _ h m hz3 hhb _ _).2.2.2.2]
      simp [outputHeader, target_type, new_type, f3]

/-- C16, as the code has it: zero dimensions are not rejected, but the header
read needs a byte after the last header field.  Whenever the header read
returns with width 0 or height 0 and a height of at most 2147483646 (then some
input that does not start with white space is left), the run returns, in the
`CONVERT` build for every type and in the `TRANSFORM` build for the types other
than 1 and 4; no sample is read, and the output is the header line, followed
for ASCII output (target type up to 3) by one newline for every row.  The
bound keeps the row counter `i` in the range of `int`. -/
theorem zero_dimensions_accepted (mode : Mode) (g : Int) (X : List Nat) (hd : Header) (s : St)
    (hhdr : read_header g ⟨X, []⟩ = .ok hd s) (hz : hd.width = 0 ∨ hd.height = 0)
    (hhb : hd.height ≤ 2147483646)
    (hsup : mode = .TRANSFORM → hd.type ≠ 1 ∧ hd.type ≠ 4) :
    (s.inp ≠ [] ∧ dropWs s.inp = s.inp) ∧
    run mode g X = .ok () ⟨s.inp, outputHeader mode hd
      ++ (if target_type mode hd.type ≤ 3 then List.replicate hd.height.toNat 10 else [])⟩ := by
  refine ⟨⟨read_header_ok_ne_nil g _ hd s hhdr, read_header_ok_inv g _ hd s hhdr⟩, ?_⟩
  have hout := (silent_read_header g ⟨X, []⟩).1 hd s hhdr
  have hty := read_header_type_range g _ hd s hhdr
  refine run_eq_of hd s hhdr ?_
  obtain ⟨t, w, h, m⟩ := hd
  obtain ⟨inp, out⟩ := s
  simp only [] at hout hz hsup hty hhb
  subst hout
  exact transcode_zero mode t w h m inp hty hz hhb hsup

/-- C16 on `P2 0 0 255\n0`: the `CONVERT` build writes `P5 0 0 255\n` and leaves
the byte `0` unread. -/
theorem zero_dimensions_accepted_witness :
    ((⟨[48], []⟩ : St).inp ≠ [] ∧ dropWs (⟨[48], []⟩ : St).inp = (⟨[48], []⟩ : St).inp) ∧
    run .CONVERT 0 [80, 50, 32, 48, 32, 48, 32, 50, 53, 53, 10, 48]
      = .ok () ⟨(⟨[48], []⟩ : St).inp, outputHeader .CONVERT ⟨2, 0, 0, 255⟩
        ++ (if target_type .CONVERT (⟨2, 0, 0, 255⟩ : Header).type ≤ 3
          then List.replicate (⟨2, 0, 0, 255⟩ : Header).height.toNat 10 else [])⟩ :=
  zero_dimensions_accepted .CONVERT 0 [80, 50, 32, 48, 32, 48, 32, 50, 53, 53, 10, 48]
    ⟨2, 0, 0, 255⟩ ⟨[48], []⟩ (by decide) (by decide) (by decide) (by decide)

/-- C16 as stated fails: the complete empty image `P2 0 0 255\n` is rejected.
After the maximum the header read skips the white space, meets the end of the
stream and ends the process with nothing written, in both builds; with one
more byte (`P2 0 0 255\n0`) the run returns with just the output header, and
`P5 0 2 255\n0` gives the header `P2 0 2 255\n` and one newline for each of the
two rows. -/
theorem empty_image_rejected :
    run .CONVERT 0 [80, 50, 32, 48, 32, 48, 32, 50, 53, 53, 10] = .exit [] ∧
    run .TRANSFORM 0 [80, 50, 32, 48, 32, 48, 32, 50, 53, 53, 10] = .exit [] ∧
    run .CONVERT 0 [80, 50, 32, 48, 32, 48, 32, 50, 53, 53, 10, 48]
      = .ok () ⟨[48], [80, 53, 32, 48, 32, 48, 32, 50, 53, 53, 10]⟩ ∧
    run .CONVERT 0 [80, 53, 32, 48, 32, 50, 32, 50, 53, 53, 10, 48]
      = .ok () ⟨[48], [80, 50, 32, 48, 32, 50, 32, 50, 53, 53, 10, 10, 10]⟩ :=
  ⟨run_exit_of_header (by decide), run_exit_of_header (by decide),
    run_eq_of ⟨2, 0, 0, 255⟩ ⟨[48], []⟩ (by decide) (by decide),
    run_eq_of ⟨5, 0, 2, 255⟩ ⟨[48], []⟩ (by decide) (by decide)⟩

/-- A loop `for (i = ...; i <= h; i++)` with `h ≥ 2147483647` whose body always
returns is not left: the counter reaches `INT_MAX`, and its increment leaves
the range of `int`. -/
theorem forLoop_const_stuck {β : Type} (hi : Int) (hhi : 2147483647 ≤ hi)
    (body : Int → β → Prog β) (hbody : ∀ i b s, ∃ b' s', body i b s = .ok b' s') :
    ∀ (fuel : Nat) (i : Int) (b : β) (s : St), i ≤ hi →
      forLoop hi 1 body fuel i b s = .stuck := by
  intro fuel
  induction fuel with
  | zero =>
    intro i b s hle
    rw [forLoop_zero, if_pos hle]
  | succ f ih =>
    intro i b s hle
    obtain ⟨b', s', hb⟩ := hbody i b s
    by_cases hov : i + 1 > 2147483647
    · exact forLoop_overflow _ _ _ _ _ _ _ hle hov _ _ hb
    · rw [forLoop_round _ _ _ _ _ _ hle (by omega), bind_ok hb]
      exact ih _ _ _ (by omega)

theorem forTo_const_stuck (hi : Int) (hhi : 2147483647 ≤ hi) (body : Int → Prog Unit)
    (hbody : ∀ i s, ∃ s', body i s = .ok () s') (s : St) : forTo hi 1 body s = .stuck := by
  unfold forTo
  exact forLoop_const_stuck hi hhi _
    (fun i b s => by obtain ⟨s', h⟩ := hbody i s; exact ⟨(), s', h⟩) _ _ _ _ (by omega)

/-- With width 0 a height of 2147483647 is more than the row loop can count:
on the 21 bytes `P5 0 2147483647 255\n0` the header read returns with width 0,
and the row loop
`for (i = 1; i <= height; i++)` of `binary_to_ascii_cg`, whose every round
writes a newline, reaches `i = INT_MAX`; the increment leaves the range of
`int` and the run does not return. -/
theorem zero_width_rows_not_left :
    read_header 0 ⟨[80, 53, 32, 48, 32, 50, 49, 52, 55, 52, 56, 51, 54, 52, 55, 32, 50, 53, 53, 10,
        48], []⟩ = .ok ⟨5, 0, 2147483647, 255⟩ ⟨[48], []⟩ ∧
      run .CONVERT 0 [80, 53, 32, 48, 32, 50, 49, 52, 55, 52, 56, 51, 54, 52, 55, 32, 50, 53, 53, 10,
        48] = .stuck := by
  refine ⟨by decide, run_eq_of ⟨5, 0, 2147483647, 255⟩ ⟨[48], []⟩ (by decide) ?_⟩
  simp only [transcode, convert_type5, bind_ok (puts_apply _ _ _)]
  unfold binary_to_ascii_cg
  refine forTo_const_stuck _ (le_refl _) _ (fun i s => ?_) _
  obtain ⟨inp, out⟩ := s
  refine ⟨⟨inp, out ++ [10]⟩, ?_⟩
  simp only [bind_apply, forTo_nonpos _ _ _ (le_refl _), putchar_apply]
  rfl

/-! ## The postcondition of `ignore_comments` (C17) -/

theorem dropWs_split (l : List Nat) :
    ∃ ws : List Nat, (∀ c ∈ ws, isspace ((c : Nat) : Int) = true) ∧ l = ws ++ dropWs l := by
  induction l with
  | nil => exact ⟨[], by simp, rfl⟩
  | cons c cs ih =>
    by_cases hc : isspace (c : Int) = true
    · obtain ⟨ws, h1, h2⟩ := ih
      refine ⟨c :: ws, ?_, ?_⟩
      · intro x hx
        rcases List.mem_cons.1 hx with rfl | h
        · exact hc
        · exact h1 x h
      · rw [dropWs_cons_of_space _ hc, List.cons_append, ← h2]
    · have hc' : isspace (c : Int) = false := by simpa using hc
      exact ⟨[], by simp, by rw [dropWs_cons_of_not_space _ hc']; rfl⟩

theorem split_newline (l : List Nat) :
    (∃ body rest : List Nat, l = body ++ 10 :: rest ∧ ∀ c ∈ body, c ≠ 10) ∨
      ∀ c ∈ l, c ≠ 10 := by
  induction l with
  | nil => right; simp
  | cons c cs ih =>
    by_cases hc : c = 10
    · left; exact ⟨[], cs, by rw [hc]; rfl, by simp⟩
    · rcases ih with ⟨body, rest, h1, h2⟩ | h
      · left
        refine ⟨c :: body, rest, by rw [h1]; rfl, ?_⟩
        intro x hx
        rcases List.mem_cons.1 hx with rfl | h
        · exact hc
        · exact h2 x h
      · right
        intro x hx
        rcases List.mem_cons.1 hx with rfl | h'
        · exact hc
        · exact h x h'

/-- Inside a comment that no newline ends, the loop runs to the end of the
stream. -/
theorem ignore_comments_loop_unterminated (body : List Nat) (hb : ∀ c ∈ body, c ≠ 10)
    (out : List Nat) : ∀ f : Nat,
    ignore_comments_loop (f + body.length + 1) true ⟨body, out⟩ = .ok EOF ⟨[], out⟩ := by
  induction body with
  | nil => intro f; exact ignore_comments_loop_nil _ _ _
  | cons c cs ih =>
    intro f
    have hc : c ≠ 10 := hb c (List.mem_cons_self _ _)
    have e : f + (c :: cs).length + 1 = (f + cs.length + 1) + 1 := by simp; omega
    rw [e]
    by_cases h1 : c = 35
    · subst h1
      rw [ignore_comments_loop_hash]
      exact ih (fun d hd => hb d (List.mem_cons_of_mem _ hd)) f
    · rw [ignore_comments_loop_other_in _ _ _ _ h1 hc]
      exact ih (fun d hd => hb d (List.mem_cons_of_mem _ hd)) f

/-- A comment that no newline ends is an input error. -/
theorem ignore_comments_unterminated (ws body out : List Nat)
    (hws : ∀ c ∈ ws, isspace ((c : Nat) : Int) = true) (hb : ∀ c ∈ body, c ≠ 10) :
    ignore_comments ⟨ws ++ 35 :: body, out⟩ = .exit out := by
  rw [ignore_comments_eq, dropWs_append_of_spaces _ _ hws,
    dropWs_cons_of_not_space _ (by decide)]
  simp only [bind_apply]
  have e : (35 :: body).length + 1 = (0 + body.length + 1) + 1 := by simp
  rw [e, ignore_comments_loop_hash, ignore_comments_loop_unterminated body hb out]
  rfl

/-- A byte that is neither white space, nor `#`, nor a digit is an input
error. -/
theorem ignore_comments_other (inp out : List Nat) (d : Nat) (ds : List Nat)
    (hd : dropWs inp = d :: ds) (hdig : isdigit (d : Int) = false) (h35 : d ≠ 35) :
    ignore_comments ⟨inp, out⟩ = .exit out := by
  rw [ignore_comments_eq, hd]
  have h10 : d ≠ 10 := by
    rintro rfl
    exact absurd (dropWs_head_not_space inp 10 ds hd) (by decide)
  simp only [bind_apply, ignore_comments_loop_other_out _ _ _ _ h35 h10, hdig,
    Bool.false_eq_true, if_false]

theorem ignore_comments_nil_exit (inp out : List Nat) (hd : dropWs inp = []) :
    ignore_comments ⟨inp, out⟩ = .exit out := by
  rw [ignore_comments_eq, hd]

/-- What a returning `ignore_comments` has consumed. -/
theorem ignore_comments_ok_inv : ∀ (n : Nat) (inp out : List Nat) (s' : St), inp.length ≤ n →
    ignore_comments ⟨inp, out⟩ = .ok () s' →
    ∃ (segs : List (List Nat × List Nat)) (ws : List Nat) (d : Nat) (tl : List Nat),
      (∀ p ∈ segs, (∀ c ∈ p.1, isspace ((c : Nat) : Int) = true) ∧ ∀ c ∈ p.2, c ≠ 10) ∧
      (∀ c ∈ ws, isspace ((c : Nat) : Int) = true) ∧ isdigit (d : Int) = true ∧
      inp = withComments segs ++ (ws ++ d :: tl) ∧ s' = ⟨d :: tl, out⟩ := by
  intro n
  induction n with
  | zero =>
    intro inp out s' hn h
    have : inp = [] := List.length_eq_zero.1 (by omega)
    subst this
    rw [ignore_comments_nil_exit [] out rfl] at h
    exact absurd h (by simp)
  | succ n ih =>
    intro inp out s' hn h
    obtain ⟨ws0, hws0, hsplit⟩ := dropWs_split inp
    cases hd : dropWs inp with
    | nil =>
      rw [ignore_comments_nil_exit inp out hd] at h
      exact absurd h (by simp)
    | cons d ds =>
      rw [hd] at hsplit
      by_cases hdig : isdigit (d : Int) = true
      · rw [ignore_comments_digit inp out d ds hd hdig] at h
        simp only [Res.ok.injEq, true_and] at h
        exact ⟨[], ws0, d, ds, by simp, hws0, hdig, by simpa [withComments] using hsplit, h.symm⟩
      · have hdig' : isdigit (d : Int) = false := by simpa using hdig
        by_cases h35 : d = 35
        · subst h35
          rcases split_newline ds with ⟨body, rest, hb1, hb2⟩ | hno
          · rw [hsplit, hb1, ignore_comments_skip ws0 body rest out hws0 hb2] at h
            have hlen : rest.length ≤ n := by
              have := congrArg List.length hsplit
              rw [hb1] at this
              simp only [List.length_append, List.length_cons] at this
              omega
            obtain ⟨segs, ws, d', tl, h1, h2, h3, h4, h5⟩ := ih rest out s' hlen h
            refine ⟨(ws0, body) :: segs, ws, d', tl, ?_, h2, h3, ?_, h5⟩
            · intro p hp
              rcases List.mem_cons.1 hp with rfl | hp'
              · exact ⟨hws0, hb2⟩
              · exact h1 p hp'
            · rw [hsplit, hb1, h4]
              simp [withComments, List.flatMap_cons]
          · rw [hsplit, ignore_comments_unterminated ws0 ds out hws0 hno] at h
            exact absurd h (by simp)
        · rw [ignore_comments_other inp out d ds hd hdig' h35] at h
          exact absurd h (by simp)

/-- C17: the postcondition of `ignore_comments`.  It returns exactly when the
input is a (possibly empty) sequence of comments, each after a run of white
space and running from `#` to the next newline, then a run of white space,
then a decimal digit; it then leaves the input at that digit, with everything
before it consumed and nothing written.  In every other case (another byte
outside a comment, or the end of the stream before a digit) it ends the
process with the input error. -/
theorem ignore_comments_postcondition (inp out : List Nat) :
    (∀ s' : St, ignore_comments ⟨inp, out⟩ = .ok () s' ↔
      ∃ (segs : List (List Nat × List Nat)) (ws : List Nat) (d : Nat) (tl : List Nat),
        (∀ p ∈ segs, (∀ c ∈ p.1, isspace ((c : Nat) : Int) = true) ∧ ∀ c ∈ p.2, c ≠ 10) ∧
        (∀ c ∈ ws, isspace ((c : Nat) : Int) = true) ∧ isdigit (d : Int) = true ∧
        inp = withComments segs ++ (ws ++ d :: tl) ∧ s' = ⟨d :: tl, out⟩) ∧
    ((∀ s' : St, ignore_comments ⟨inp, out⟩ ≠ .ok () s') →
      ignore_comments ⟨inp, out⟩ = .exit out) := by
  constructor
  · intro s'
    constructor
    · exact ignore_comments_ok_inv inp.length inp out s' (le_refl _)
    · rintro ⟨segs, ws, d, tl, h1, h2, h3, rfl, rfl⟩
      rw [ignore_comments_strip segs _ _ h1, ignore_comments_spaces _ _ _ (by
        intro c hc
        unfold withoutComments at hc
        obtain ⟨p, hp, hcp⟩ := List.mem_flatMap.1 hc
        exact (h1 p hp).1 c hcp), ignore_comments_spaces _ _ _ h2]
      exact ignore_comments_digit _ _ d tl (dropWs_cons_of_not_space _ (isspace_of_isdigit h3)) h3
  · intro hno
    cases hr : ignore_comments ⟨inp, out⟩ with
    | ok a s' => exact absurd hr (hno s')
    | exit o => rw [(silent_ignore_comments ⟨inp, out⟩).2 o hr]
    | stuck => exact absurd hr (ignore_comments_ne_stuck _)

/-! ## The range of `luminosity` (C19) -/

theorem luminosity_eq_ediv (r g b : Int) (hr : 0 ≤ r ∧ r ≤ 255) (hg : 0 ≤ g ∧ g ≤ 255)
    (hb : 0 ≤ b ∧ b ≤ 255) : luminosity r g b = (299 * r + 587 * g + 114 * b) / 1000 := by
  unfold luminosity
  rw [wrap32_of_lt (by omega) (by omega), Int.tdiv_eq_ediv (by omega) (by omega)]

/-- C19: the range of `luminosity`, and where the emitted gray sample exceeds
the maximum.  For samples in 0..255 the result lies between the least and the
greatest of the three samples, a gray pixel `(v, v, v)` gives `v`, and samples
in `0..m` with `m ≤ 255` give a value in `0..m`, which fits in one byte.  But
`to_gray_scale_ascii` reads its samples with `get_ascii_num`, which makes no
range check when the maximum is 0: on `P3 1 1 0\n5 5 5\n` the run returns with
`P2 1 1 0\n  5 \n`, the gray sample 5 under the maximum 0 of the header, while
on the P6 stream with the same pixel `get_binary_num` ends the process. -/
theorem luminosity_range_and_unchecked_zero_maximum :
    (∀ r g b : Int, 0 ≤ r ∧ r ≤ 255 → 0 ≤ g ∧ g ≤ 255 → 0 ≤ b ∧ b ≤ 255 →
      min r (min g b) ≤ luminosity r g b ∧ luminosity r g b ≤ max r (max g b)) ∧
    (∀ v : Int, 0 ≤ v ∧ v ≤ 255 → luminosity v v v = v) ∧
    (∀ m r g b : Int, m ≤ 255 → 0 ≤ r ∧ r ≤ m → 0 ≤ g ∧ g ≤ m → 0 ≤ b ∧ b ≤ m →
      0 ≤ luminosity r g b ∧ luminosity r g b ≤ m ∧
        ((luminosity r g b % 256).toNat : Int) = luminosity r g b) ∧
    run .TRANSFORM 0 [80, 51, 32, 49, 32, 49, 32, 48, 10, 53, 32, 53, 32, 53, 10]
      = .ok () ⟨[], [80, 50, 32, 49, 32, 49, 32, 48, 10, 32, 32, 53, 32, 10]⟩ ∧
    run .TRANSFORM 0 [80, 54, 32, 49, 32, 49, 32, 48, 10, 5, 5, 5]
      = .exit [80, 53, 32, 49, 32, 49, 32, 48, 10] := by
  refine ⟨?_, ?_, ?_, ?_, ?_⟩
  · intro r g b hr hg hb
    rw [luminosity_eq_ediv r g b hr hg hb]
    simp only [min_def, max_def]
    split_ifs <;> omega
  · intro v hv
    rw [luminosity_eq_ediv v v v hv hv hv]
    omega
  · intro m r g b hm hr hg hb
    rw [luminosity_eq_ediv r g b ⟨hr.1, by omega⟩ ⟨hg.1, by omega⟩ ⟨hb.1, by omega⟩]
    omega
  · exact run_eq_of ⟨3, 1, 1, 0⟩ ⟨[53, 32, 53, 32, 53, 10], []⟩ (by decide) (by decide)
  · exact run_eq_of ⟨6, 1, 1, 0⟩ ⟨[5, 5, 5], []⟩ (by decide) (by decide)

/-! ## The two bilevel reductions (C20) -/

theorem downsampleByPath_eq (g : Int) (X : List Nat) (s1 s2 : St) (r : Res Unit)
    (h1 : run .CONVERT g X = .ok () s1) (h2 : run .TRANSFORM g s1.out = .ok () s2)
    (h3 : run .CONVERT g s2.out = r) : downsampleByPath g X = r := by
  unfold downsampleByPath
  rw [h1]
  simp only []
  rw [h2]
  simp only []
  exact h3

/-- C20 on the P5 stream `P5 2 1 255\n` with the bytes 200 and 7: `TRANSFORM`
writes `P4 2 1\n` and the byte `0x7F`.  The path through P2 and P1 ends in a
stream of type 1, for which `main` never assigns `max_color`: when the variable
holds -1 the last run rejects the first token and writes only `P4 2 1\n`; when
it holds 0 the path gives the same bytes as `TRANSFORM`. -/
theorem bilevel_path_unassigned_max_color :
    run .TRANSFORM (-1) grayPairExample = .ok () ⟨[], [80, 52, 32, 50, 32, 49, 10, 127]⟩ ∧
    downsampleByPath (-1) grayPairExample = .exit [80, 52, 32, 50, 32, 49, 10] ∧
    run .TRANSFORM 0 grayPairExample = .ok () ⟨[], [80, 52, 32, 50, 32, 49, 10, 127]⟩ ∧
    downsampleByPath 0 grayPairExample = .ok () ⟨[], [80, 52, 32, 50, 32, 49, 10, 127]⟩ :=
  ⟨run_eq_of ⟨5, 2, 1, 255⟩ ⟨[200, 7], []⟩ (by decide) (by decide),
    downsampleByPath_eq (-1) grayPairExample
      ⟨[], [80, 50, 32, 50, 32, 49, 32, 50, 53, 53, 10, 50, 48, 48, 32, 32, 32, 55, 32, 10]⟩
      ⟨[], [80, 49, 32, 50, 32, 49, 10, 48, 32, 49, 32, 10]⟩ _
      (run_eq_of ⟨5, 2, 1, 255⟩ ⟨[200, 7], []⟩ (by decide) (by decide))
      (run_eq_of ⟨2, 2, 1, 255⟩ ⟨[50, 48, 48, 32, 32, 32, 55, 32, 10], []⟩ (by decide) (by decide))
      (run_eq_of ⟨1, 2, 1, -1⟩ ⟨[48, 32, 49, 32, 10], []⟩ (by decide) (by decide)),
    run_eq_of ⟨5, 2, 1, 255⟩ ⟨[200, 7], []⟩ (by decide) (by decide),
    downsampleByPath_eq 0 grayPairExample
      ⟨[], [80, 50, 32, 50, 32, 49, 32, 50, 53, 53, 10, 50, 48, 48, 32, 32, 32, 55, 32, 10]⟩
      ⟨[], [80, 49, 32, 50, 32, 49, 10, 48, 32, 49, 32, 10]⟩ _
      (run_eq_of ⟨5, 2, 1, 255⟩ ⟨[200, 7], []⟩ (by decide) (by decide))
      (run_eq_of ⟨2, 2, 1, 255⟩ ⟨[50, 48, 48, 32, 32, 32, 55, 32, 10], []⟩ (by decide) (by decide))
      (run_eq_of ⟨1, 2, 1, 0⟩ ⟨[48, 32, 49, 32, 10], []⟩ (by decide) (by decide))⟩

/-! ## The path P5 -> P2 -> P1 -> P4 -/

/-- `to_bnw_ascii` on pixel data in the program's own ASCII layout. -/
theorem to_bnw_ascii_printed (m w : Nat) (hm : m ≤ 255)
    (rows : List (List Nat)) (hw : ∀ row ∈ rows, row.length = w)
    (hv : ∀ row ∈ rows, ∀ v ∈ row, v ≤ m) (hwb : w < 2147483647)
    (hhb : rows.length < 2147483647) (out : List Nat) :
    to_bnw_ascii (w : Int) (rows.length : Int) (m : Int) ⟨dropWs (asciiData rows), out⟩
      = .ok () ⟨[], out ++ rows.flatMap (fun row =>
          bitTokens (row.map (thresholdBit m)) ++ [10])⟩ := by
  unfold to_bnw_ascii asciiData
  have h10 : (((10 : Int) % 256).toNat) = 10 := by decide
  have := forTo_items_ws (fun i => do
      forTo (w : Int) 1 (fun j => do
        let is_last := check_last i j (w : Int) (rows.length : Int)
        let color ← get_ascii_num (m : Int) is_last
        if color > Int.tdiv ((m : Int) + 1) 2 then puts [48, 32] else puts [49, 32])
      putchar 10) rows
    (fun row => row.flatMap (fun v => fmt_3d (v : Int) ++ [32]) ++ [10])
    (fun row => bitTokens (row.map (thresholdBit m)) ++ [10]) [] hhb
    (fun r hr out => by
      have hlen : rows[r].length = w := hw _ (List.getElem_mem _)
      have := forTo_items_ws (fun j => do
          let is_last := check_last ((r : Int) + 1) j (w : Int) (rows.length : Int)
          let color ← get_ascii_num (m : Int) is_last
          if color > Int.tdiv ((m : Int) + 1) 2 then puts [48, 32] else puts [49, 32])
        rows[r] (fun v => fmt_3d (v : Int) ++ [32])
        (fun v => [if thresholdBit m v then 49 else 48, 32])
        (10 :: ((rows.drop (r + 1)).flatMap
          (fun row => row.flatMap (fun v => fmt_3d (v : Int) ++ [32]) ++ [10]) ++ []))
        (by omega) (fun k hk out => by
          have hvk : rows[r][k] ≤ m := hv _ (List.getElem_mem hr) _ (List.getElem_mem hk)
          rw [List.append_assoc, dropWs_fmt_3d]
          simp only [bind_apply, List.singleton_append]
          rw [get_ascii_num_decDigits _ _ _ 32 _ _ (by omega) (by decide)
            (Or.inr (by exact_mod_cast hvk))]
          have hfin : ¬ (dropWs ((rows[r].drop (k + 1)).flatMap (fun v => fmt_3d (v : Int) ++ [32])
              ++ 10 :: ((rows.drop (r + 1)).flatMap
                (fun row => row.flatMap (fun v => fmt_3d (v : Int) ++ [32]) ++ [10]) ++ [])) = [] ∧
              check_last ((r : Int) + 1) ((k : Int) + 1) (w : Int) (rows.length : Int) = false) := by
            rintro ⟨h1, h2⟩
            by_cases hk1 : k + 1 < rows[r].length
            · exact dropWs_printed_ne_nil _ (by
                intro he
                have := congrArg List.length he
                simp at this
                omega) _ h1
            · rw [List.drop_of_length_le (by omega)] at h1
              simp only [List.flatMap_nil, List.nil_append] at h1
              rw [dropWs_cons_of_space _ (by decide)] at h1
              by_cases hr1 : r + 1 < rows.length
              · rw [List.drop_eq_getElem_cons hr1, List.flatMap_cons, List.append_assoc,
                  List.append_assoc] at h1
                exact dropWs_printed_ne_nil _ (by
                  intro he
                  have := hw _ (List.getElem_mem hr1)
                  rw [he] at this
                  simp at this
                  omega) _ h1
              · have e1 : (r : Int) + 1 = (rows.length : Int) := by omega
                have e2 : (k : Int) + 1 = (w : Int) := by omega
                simp [check_last, e1, e2] at h2
          rw [if_neg hfin, tdiv_two_natCast]
          simp only []
          unfold thresholdBit
          by_cases hc : rows[r][k] > (m + 1) / 2
          · have : (rows[r][k] : Int) > (((m + 1) / 2 : Nat) : Int) := by exact_mod_cast hc
            rw [if_pos this, puts_apply]; simp [hc]
          · have : ¬ (rows[r][k] : Int) > (((m + 1) / 2 : Nat) : Int) := by
              intro h; apply hc; exact_mod_cast h
            rw [if_neg this, puts_apply]; simp [hc]) out
      rw [hlen] at this
      simp only [id, List.append_assoc, List.singleton_append, bind_apply] at this ⊢
      rw [this, dropWs_cons_of_space _ (by decide)]
      simp only [putchar_apply, h10, bitTokens, List.flatMap_map, List.append_assoc])
    out
  simp only [List.append_nil] at this
  rw [this]
  simp [dropWs]

theorem bitToks_bytes : ∀ bs : List Bool, bs ≠ [] →
    (bitToks bs).flatMap Tok.bytes = bitTokens bs ++ [10]
  | [], h => absurd rfl h
  | [b], _ => by simp [bitToks, bitTokens, Tok.bytes]
  | b :: b2 :: bs, _ => by
    have ih := bitToks_bytes (b2 :: bs) (by simp)
    rw [bitToks, List.flatMap_cons, ih]
    simp [bitTokens, Tok.bytes]

theorem bitToks_length : ∀ bs : List Bool, (bitToks bs).length = bs.length
  | [] => rfl
  | [b] => rfl
  | b :: b2 :: bs => by
    rw [bitToks, List.length_cons, bitToks_length (b2 :: bs)]
    rfl

theorem bitToks_spec : ∀ bs : List Bool,
    (∀ t ∈ bitToks bs, t.WF ∧ t.val ≤ 1) ∧
      (bitToks bs).map (fun t => decide (t.val ≠ 0)) = bs
  | [] => by simp [bitToks]
  | [b] => by
    cases b <;> simp [bitToks] <;> decide
  | b :: b2 :: bs => by
    obtain ⟨h1, h2⟩ := bitToks_spec (b2 :: bs)
    rw [bitToks]
    constructor
    · intro t ht
      rcases List.mem_cons.1 ht with rfl | ht'
      · cases b <;> decide
      · exact h1 t ht'
    · rw [List.map_cons, h2]
      cases b <;> simp <;> decide

/-- Reading the header `P<t> <w> <h>\n` of a type without a maximum: the
variable `max_color` keeps the value `g` it happens to hold. -/
theorem read_header_bilevel (g : Int) (t w h : Nat) (D : List Nat)
    (ht : t = 1 ∨ t = 4) (hw : w < 2147483648) (hh : h < 2147483648) (hD : dropWs D ≠ []) :
    read_header g ⟨[80, 48 + t, 32] ++ decDigits w ++ [32] ++ decDigits h ++ [10] ++ D, []⟩
      = .ok ⟨t, w, h, g⟩ ⟨dropWs D, []⟩ := by
  obtain ⟨w1, w2, _⟩ := decDigits_spec w
  obtain ⟨h1, h2, _⟩ := decDigits_spec h
  obtain ⟨dw, rw', hdw⟩ : ∃ d r, decDigits w = d :: r := by
    cases hx : decDigits w with
    | nil => exact absurd hx w1
    | cons d r => exact ⟨d, r, rfl⟩
  have hdwd : isdigit (dw : Int) = true := w2 dw (by rw [hdw]; exact List.mem_cons_self _ _)
  have e0 : [80, 48 + t, 32] ++ decDigits w ++ [32] ++ decDigits h ++ [10] ++ D
      = 80 :: (48 + t) :: (32 :: (decDigits w ++ 32 :: (decDigits h ++ 10 :: D))) := by
    simp
  have hic : ignore_comments ⟨32 :: (decDigits w ++ 32 :: (decDigits h ++ 10 :: D)), []⟩
      = .ok () ⟨decDigits w ++ 32 :: (decDigits h ++ 10 :: D), []⟩ := by
    have := ignore_comments_digit (32 :: (decDigits w ++ 32 :: (decDigits h ++ 10 :: D))) [] dw
      (rw' ++ 32 :: (decDigits h ++ 10 :: D))
      (by
        rw [dropWs_cons_of_space _ (by decide), hdw, List.cons_append]
        exact dropWs_cons_of_not_space _ (isspace_of_isdigit hdwd)) hdwd
    rw [this, hdw, List.cons_append]
  have hgw := get_ascii_num_decDigits 0 false w 32 (decDigits h ++ 10 :: D)
    [] hw (by decide) (Or.inl rfl)
  rw [dropWs_of_head_digit _ _ h1 h2, if_neg (by simp [h1])] at hgw
  have hgh := get_ascii_num_decDigits 0 false h 10 D [] hh (by decide) (Or.inl rfl)
  rw [if_neg (by simp [hD])] at hgh
  have c1 : (((80 : Nat) : Int) != 80) = false := by decide
  have c2 : (decide ((t : Int) < 1) || decide ((t : Int) > 6)) = false := by
    rcases ht with rfl | rfl <;> decide
  have c3 : ((t : Int) != 1 && (t : Int) != 4) = false := by
    rcases ht with rfl | rfl <;> decide
  have c5 : (((48 + t : Nat) : Int)) - 48 = (t : Int) := by push_cast; omega
  rw [e0]
  unfold read_header
  simp only [bind_apply, getchar_cons, c1, check_error_false, c5, c2, hic, hgw, hgh, c3,
    Bool.false_eq_true, if_false, pure_apply]

theorem rowsBytes_bitToks (rows : List (List Bool)) (hne : ∀ row ∈ rows, row ≠ []) :
    rowsBytes (rows.map bitToks) = rows.flatMap (fun row => bitTokens row ++ [10]) := by
  unfold rowsBytes
  rw [List.flatMap_map]
  apply List.flatMap_congr
  intro row hr
  exact bitToks_bytes row (hne row hr)

/-- The `CONVERT` build on a P1 stream in the layout `to_bnw_ascii` writes, when
the unassigned `max_color` holds 0 or a positive value. -/
theorem convert_bilevel_printed (g : Int) (hg : g = 0 ∨ 1 ≤ g) (w : Nat) (hw1 : 1 ≤ w)
    (hwb : w ≤ 2147483640) (rows : List (List Bool)) (hrows : rows ≠ [])
    (hhb : rows.length < 2147483647) (hlen : ∀ row ∈ rows, row.length = w) :
    run .CONVERT g ([80, 48 + 1, 32] ++ decDigits w ++ [32] ++ decDigits rows.length ++ [10]
        ++ rows.flatMap (fun row => bitTokens row ++ [10]))
      = .ok () ⟨[], [80, 52, 32] ++ decDigits w ++ [32] ++ decDigits rows.length ++ [10]
          ++ rows.flatMap packRow⟩ := by
  have hne : ∀ row ∈ rows, row ≠ [] := by
    intro row hr he
    have := hlen row hr
    rw [he] at this
    simp at this
    omega
  have htoks : ∀ row ∈ rows.map bitToks, row ≠ [] ∧ ∀ t ∈ row, t.WF := by
    intro trow ht
    obtain ⟨row, hr, rfl⟩ := List.mem_map.1 ht
    refine ⟨?_, fun t htk => ((bitToks_spec row).1 t htk).1⟩
    intro he
    have := bitToks_length row
    rw [he, hlen row hr] at this
    simp at this
    omega
  have hD : dropWs (rowsBytes (rows.map bitToks)) = rowsBytes (rows.map bitToks) := by
    have := dropWs_rowsBytes (rows.map bitToks) htoks [] rfl
    rwa [List.append_nil] at this
  have hDne : rowsBytes (rows.map bitToks) ≠ [] := by
    have := rowsBytes_ne_nil (rows.map bitToks) htoks (by simpa using hrows) []
    rwa [List.append_nil] at this
  rw [← rowsBytes_bitToks rows hne]
  have hhdr := read_header_bilevel g 1 w rows.length (rowsBytes (rows.map bitToks)) (Or.inl rfl)
    (by omega) (by omega) (by rw [hD]; exact hDne)
  rw [hD] at hhdr
  refine run_eq_of _ _ hhdr ?_
  have hbody := ascii_to_binary_bnw_ok g w hw1 (rows.map bitToks)
    (fun trow ht => by
      obtain ⟨row, hr, rfl⟩ := List.mem_map.1 ht
      rw [bitToks_length, hlen row hr])
    (fun trow ht t htk => by
      obtain ⟨row, hr, rfl⟩ := List.mem_map.1 ht
      obtain ⟨h1, h2⟩ := (bitToks_spec row).1 t htk
      refine ⟨h1, by omega, ?_⟩
      rcases hg with h0 | h0
      · exact Or.inl h0
      · right
        have : (t.val : Int) ≤ 1 := by exact_mod_cast h2
        omega) hwb (by rw [List.length_map]; exact hhb) [] rfl
  have hlen2 : (rows.map bitToks).length = rows.length := List.length_map _ _
  rw [hlen2] at hbody
  have hout : (rows.map bitToks).flatMap (fun row => packRow (row.map (fun t => decide (t.val ≠ 0))))
      = rows.flatMap packRow := by
    rw [List.flatMap_map]
    apply List.flatMap_congr
    intro row _
    rw [(bitToks_spec row).2]
  simp only [List.append_nil] at hbody
  simp only [transcode, Nat.cast_ofNat, Nat.cast_one, convert_type1, bind_ok (puts_apply _ _ _),
    hbody, hout]
  simp [fmt_d_natCast]

/-- For a P5 stream whose header read leaves `rows` of `w ≥ 1` bytes up to the
maximum, the `TRANSFORM` build and the path P5 -> P2 -> P1 -> P4 write the same
bytes, provided the unassigned `max_color` of the last run holds 0 or a
positive value. -/
theorem downsampleByPath_agrees (g : Int) (hg : g = 0 ∨ 1 ≤ g) (X tail : List Nat) (w m : Nat)
    (rows : List (List Nat)) (hw1 : 1 ≤ w) (hrows : rows ≠ []) (hwb : w ≤ 2147483640)
    (hhb : rows.length < 2147483647) (hm : m ≤ 255)
    (hlen : ∀ row ∈ rows, row.length = w) (hv : ∀ row ∈ rows, ∀ v ∈ row, v ≤ m)
    (hhdr : read_header g ⟨X, []⟩ = .ok ⟨5, w, rows.length, m⟩ ⟨rows.flatten ++ tail, []⟩) :
    run .TRANSFORM g X = .ok () ⟨tail, [80, 52, 32] ++ decDigits w ++ [32]
        ++ decDigits rows.length ++ [10]
        ++ rows.flatMap (fun row => packRow (row.map (thresholdBit m)))⟩ ∧
    downsampleByPath g X = .ok () ⟨[], [80, 52, 32] ++ decDigits w ++ [32]
        ++ decDigits rows.length ++ [10]
        ++ rows.flatMap (fun row => packRow (row.map (thresholdBit m)))⟩ := by
  have h1 : run .TRANSFORM g X = .ok () ⟨tail, [80, 52, 32] ++ decDigits w ++ [32]
        ++ decDigits rows.length ++ [10]
        ++ rows.flatMap (fun row => packRow (row.map (thresholdBit m)))⟩ := by
    refine run_eq_of _ _ hhdr ?_
    simp only [transcode, Nat.cast_ofNat, transform_type5, bind_ok (puts_apply _ _ _),
      to_bnw_binary_ok m w rows hlen hv hwb hhb tail]
    simp [fmt_d_natCast]
  have h2 : run .CONVERT g X = .ok () ⟨tail, headerText 2 w rows.length m ++ asciiData rows⟩ := by
    refine run_eq_of _ _ hhdr ?_
    have hbody := binary_to_ascii_cg_ok (m : Int) w rows hlen
      (fun row hr v hvm => by exact_mod_cast hv row hr v hvm) (by omega) hhb tail
    simp only [transcode, Nat.cast_ofNat, convert_type5, bind_ok (puts_apply _ _ _), hbody]
    simp [headerText, asciiData, fmt_d_natCast, decDigits_lt_10]
  have h3 : run .TRANSFORM g (headerText 2 w rows.length m ++ asciiData rows)
      = .ok () ⟨[], [80, 48 + 1, 32] ++ decDigits w ++ [32] ++ decDigits rows.length ++ [10]
          ++ (rows.map (fun row => row.map (thresholdBit m))).flatMap
            (fun row => bitTokens row ++ [10])⟩ := by
    have hh := read_header_canonical g 2 w rows.length m (asciiData rows) (by simp) (by omega)
      (by omega) hm
      (asciiData_dropWs_ne_nil w hw1 rows hrows hlen)
    refine run_eq_of _ _ hh ?_
    simp only [transcode, Nat.cast_ofNat, transform_type2, bind_ok (puts_apply _ _ _),
      to_bnw_ascii_printed m w hm rows hlen hv (by omega) hhb]
    simp [fmt_d_natCast, List.flatMap_map]
  have h4 := convert_bilevel_printed g hg w hw1 hwb (rows.map (fun row => row.map (thresholdBit m)))
    (by simpa using hrows) (by rw [List.length_map]; exact hhb)
    (fun brow hb => by
      obtain ⟨row, hr, rfl⟩ := List.mem_map.1 hb
      rw [List.length_map, hlen row hr])
  have e : (rows.map (fun row => row.map (thresholdBit m))).flatMap packRow
      = rows.flatMap (fun row => packRow (row.map (thresholdBit m))) := List.flatMap_map _ _ _
  rw [List.length_map, e] at h4
  exact ⟨h1, downsampleByPath_eq g X _ _ _ h2 h3 h4⟩

/-- The `CONVERT` build on a P4 stream `P4 <w> <h>\n` followed by rows of
`ceil(w / 8)` bytes, the first of them not a white space value, when the
unassigned `max_color` holds at least 255: every row gives `w` tokens and a
newline. -/
theorem convert_packed_canonical (g : Int) (hg : 255 ≤ g) (w : Nat) (hwb : w ≤ 2147483640)
    (rows : List (List Nat)) (hhb : rows.length < 2147483647)
    (hlen : ∀ row ∈ rows, row.length = (w + 7) / 8) (hv : ∀ row ∈ rows, ∀ b ∈ row, b < 256)
    (hne : rows.flatten ≠ []) (hfirst : isspace ((rows.flatten.headD 0 : Nat) : Int) = false) :
    run .CONVERT g ([80, 48 + 4, 32] ++ decDigits w ++ [32] ++ decDigits rows.length ++ [10]
        ++ rows.flatten)
      = .ok () ⟨[], [80, 49, 32] ++ decDigits w ++ [32] ++ decDigits rows.length ++ [10]
          ++ rows.flatMap (fun row => bitTokens (rowBits w row) ++ [10])⟩ := by
  have hD := dropWs_eq_self_of_head _ hfirst
  have hhdr := read_header_bilevel g 4 w rows.length rows.flatten (Or.inr rfl) (by omega) (by omega)
    (by rw [hD]; exact hne)
  rw [hD] at hhdr
  refine run_eq_of _ _ hhdr ?_
  have hbody := binary_to_ascii_bnw_ok g w rows hlen
    (fun row hr b hb => by have := hv row hr b hb; omega) hwb hhb []
  simp only [List.append_nil] at hbody
  simp only [transcode, Nat.cast_ofNat, convert_type4, bind_ok (puts_apply _ _ _), hbody]
  simp [fmt_d_natCast]

/-! ## What a returning unpacking has read -/

theorem readsUpTo_bind {α β : Type} {mc : Int} {x : Prog α} {f : α → Prog β}
    (hx : ReadsUpTo mc x) (hf : ∀ a, ReadsUpTo mc (f a)) : ReadsUpTo mc (x >>= f) := by
  intro s b s' h
  obtain ⟨a, s1, h1, h2⟩ := bind_ok_inv h
  obtain ⟨p1, e1, q1⟩ := hx s a s1 h1
  obtain ⟨p2, e2, q2⟩ := hf a s1 b s' h2
  refine ⟨p1 ++ p2, by rw [e1, e2, List.append_assoc], ?_⟩
  intro v hv
  rcases List.mem_append.1 hv with h | h
  · exact q1 v h
  · exact q2 v h

theorem readsUpTo_pure {α : Type} (mc : Int) (a : α) : ReadsUpTo mc (pure a : Prog α) := by
  intro s b s' h
  simp only [pure_apply, Res.ok.injEq] at h
  exact ⟨[], by rw [← h.2]; rfl, by simp⟩

theorem readsUpTo_puts (mc : Int) (bs : List Nat) : ReadsUpTo mc (puts bs) := by
  intro s b s' h
  simp only [puts, Res.ok.injEq] at h
  exact ⟨[], by rw [← h.2]; rfl, by simp⟩

theorem readsUpTo_putchar (mc : Int) (c : Int) : ReadsUpTo mc (putchar c) := by
  intro s b s' h
  simp only [putchar, Res.ok.injEq] at h
  exact ⟨[], by rw [← h.2]; rfl, by simp⟩

theorem readsUpTo_get_binary_num (mc : Int) : ReadsUpTo mc (get_binary_num mc) := by
  intro s b s' h
  obtain ⟨inp, out⟩ := s
  cases inp with
  | nil => rw [get_binary_num_nil] at h; exact absurd h (by simp)
  | cons c cs =>
    rw [get_binary_num_cons] at h
    split at h
    · exact absurd h (by simp)
    · rename_i hc
      simp only [Res.ok.injEq] at h
      refine ⟨[c], by rw [← h.2]; rfl, ?_⟩
      intro v hv
      rw [List.mem_singleton.1 hv]
      omega

theorem readsUpTo_forLoop {β : Type} (mc : Int) (hi step : Int) (body : Int → β → Prog β)
    (hbody : ∀ i b, ReadsUpTo mc (body i b)) :
    ∀ (fuel : Nat) (i : Int) (b : β), ReadsUpTo mc (forLoop hi step body fuel i b) := by
  intro fuel
  induction fuel with
  | zero =>
    intro i b
    rw [forLoop_zero]
    split
    · intro s a s' h; exact absurd h (by simp)
    · exact readsUpTo_pure _ _
  | succ f ih =>
    intro i b
    rw [forLoop_succ]
    split
    · refine readsUpTo_bind (hbody i b) (fun b2 => ?_)
      split
      · intro s a s' h; exact absurd h (by simp)
      · exact ih _ _
    · exact readsUpTo_pure _ _

theorem readsUpTo_binary_to_ascii_bnw (w h mc : Int) :
    ReadsUpTo mc (binary_to_ascii_bnw w h mc) := by
  unfold binary_to_ascii_bnw forTo
  exact readsUpTo_forLoop _ _ _ _ (fun _ _ =>
    readsUpTo_bind (readsUpTo_forLoop _ _ _ _ (fun _ _ =>
      readsUpTo_bind (readsUpTo_get_binary_num _) (fun _ =>
        readsUpTo_forLoop _ _ _ _ (fun _ _ => readsUpTo_puts _ _) _ _ _)) _ _ _)
      (fun _ => readsUpTo_putchar _ _)) _ _ _

/-- When `binary_to_ascii_bnw` returns on exactly `h` rows of `ceil(w / 8)`
bytes, every byte has passed the range check, so the output is the `w` tokens
of every row. -/
theorem binary_to_ascii_bnw_returns (mc : Int) (w : Nat) (rows : List (List Nat))
    (hw : ∀ row ∈ rows, row.length = (w + 7) / 8) (hwb : w ≤ 2147483640)
    (hhb : rows.length < 2147483647) (out : List Nat) (s' : St)
    (h : binary_to_ascii_bnw (w : Int) (rows.length : Int) mc ⟨rows.flatten, out⟩ = .ok () s') :
    s' = ⟨[], out ++ rows.flatMap (fun row => bitTokens (rowBits w row) ++ [10])⟩ := by
  obtain ⟨pre, e1, q1⟩ := readsUpTo_binary_to_ascii_bnw _ _ _ _ _ _ h
  have hc := (consumes_binary_to_ascii_bnw w rows.length mc _ _ _ trivial h).2
  simp only [] at e1 hc
  have hl := length_flatten_of_const ((w + 7) / 8) rows hw
  have hnil : s'.inp = [] := List.length_eq_zero.1 (by omega)
  rw [hnil, List.append_nil] at e1
  have hm : ∀ row ∈ rows, ∀ b ∈ row, (b : Int) ≤ mc := by
    intro row hr b hb
    apply q1
    rw [← e1]
    exact List.mem_flatten.2 ⟨row, hr, hb⟩
  have := binary_to_ascii_bnw_ok mc w rows hw hm hwb hhb [] out
  rw [List.append_nil, h] at this
  simp only [Res.ok.injEq, true_and] at this
  exact this

/-! ## When the packing loop meets a sample it rejects -/

theorem forLoop_first_exit {β : Type} (hi step : Int) (body : Int → β → Prog β) (fuel : Nat)
    (i : Int) (b : β) (s : St) (o : List Nat) (hi1 : i ≤ hi) (hb : body i b s = .exit o) :
    forLoop hi step body (fuel + 1) i b s = .exit o := by
  rw [forLoop_succ, if_pos hi1]
  exact bind_exit hb

theorem forTo_first_exit (hi step : Int) (body : Int → Prog Unit) (s : St) (o : List Nat)
    (hi1 : 1 ≤ hi) (hb : body 1 s = .exit o) : forTo hi step body s = .exit o := by
  unfold forTo
  obtain ⟨n, hn⟩ : ∃ n, hi.toNat = n + 1 := ⟨hi.toNat - 1, by omega⟩
  rw [hn]
  exact forLoop_first_exit _ _ _ _ _ _ _ _ hi1 hb

/-- With a negative `max_color` the packing loop rejects its first sample. -/
theorem ascii_to_binary_bnw_negative (mc : Int) (hmc : mc < 0) (w h : Nat) (hw1 : 1 ≤ w)
    (hh1 : 1 ≤ h) (t : Tok) (ht : t.WF) (hv : t.val < 2147483648) (after out : List Nat) :
    ascii_to_binary_bnw (w : Int) (h : Int) mc ⟨t.bytes ++ after, out⟩ = .exit out := by
  unfold ascii_to_binary_bnw
  refine forTo_first_exit _ _ _ _ _ (by omega) ?_
  refine forTo_first_exit _ _ _ _ _ (by omega) ?_
  refine bind_exit ?_
  have hub : 1 ≤ upper_bound (w : Int) 1 := by
    unfold upper_bound
    split <;> omega
  obtain ⟨n, hn⟩ : ∃ n, (upper_bound (w : Int) 1).toNat = n + 1 :=
    ⟨(upper_bound (w : Int) 1).toNat - 1, by omega⟩
  rw [hn]
  refine forLoop_first_exit _ _ _ _ _ _ _ _ hub ?_
  refine bind_exit ?_
  obtain ⟨h1, h2, h3, h4⟩ := ht
  obtain ⟨c, ws, hsep⟩ : ∃ c ws, t.sep = c :: ws := by
    cases hs : t.sep with
    | nil => exact absurd hs h3
    | cons c ws => exact ⟨c, ws, rfl⟩
  have hc : isspace (c : Int) = true := h4 c (by rw [hsep]; exact List.mem_cons_self _ _)
  have e : t.bytes ++ after = t.digits ++ c :: (ws ++ after) := by
    simp [Tok.bytes, hsep]
  rw [e]
  exact get_ascii_num_too_big mc _ t.digits c (ws ++ after) out h2 hc hv
    ⟨by omega, by have : (0 : Int) ≤ (decVal t.digits : Int) := Int.ofNat_nonneg _; omega⟩

/-! ## The bilevel round trip (C18) -/

theorem unpack_packed_rows (w : Nat) (rows : List (List Tok))
    (hrows : ∀ row ∈ rows, row.length = w ∧ ∀ t ∈ row, t.WF ∧ (t.val = 0 ∨ t.val = 1)) :
    (rows.map (fun row => packRow (row.map (fun t => decide (t.val ≠ 0))))).flatMap
        (fun row => bitTokens (rowBits w row) ++ [10])
      = rows.flatMap (fun row => row.flatMap (fun t => [48 + t.val, 32]) ++ [10]) := by
  rw [List.flatMap_map]
  apply List.flatMap_congr
  intro row hr
  have hl : (row.map (fun t => decide (t.val ≠ 0))).length = w := by
    rw [List.length_map, (hrows row hr).1]
  have hb := rowBits_packRow (row.map (fun t => decide (t.val ≠ 0)))
  rw [hl] at hb
  rw [hb]
  unfold bitTokens
  rw [List.flatMap_map]
  congr 1
  apply List.flatMap_congr
  intro t ht
  rcases ((hrows row hr).2 t ht).2 with e | e <;> rw [e] <;> rfl

/-- What a returning `ascii_to_binary_bnw` has written for rows of samples 0
and 1, whatever `max_color` holds: with a negative `max_color` it does not
return unless there is no row. -/
theorem ascii_to_binary_bnw_returns (w : Nat) (mc : Int) (rows : List (List Tok)) (hw1 : 1 ≤ w)
    (hrows : ∀ row ∈ rows, row.length = w ∧ ∀ t ∈ row, t.WF ∧ (t.val = 0 ∨ t.val = 1))
    (hwb : w ≤ 2147483640) (hhb : rows.length < 2147483647) (s1 : St)
    (h : ascii_to_binary_bnw (w : Int) (rows.length : Int) mc ⟨rowsBytes rows, []⟩ = .ok () s1) :
    s1 = ⟨[], (rows.map (fun row => packRow (row.map (fun t => decide (t.val ≠ 0))))).flatten⟩ := by
  have hgood : rows = [] ∨ mc = 0 ∨ 1 ≤ mc := by
    by_contra hcon
    simp only [not_or] at hcon
    obtain ⟨hne, h0, h1⟩ := hcon
    have hneg : mc < 0 := by omega
    cases rows with
    | nil => exact hne rfl
    | cons row rest =>
      obtain ⟨hl, ht⟩ := hrows row (List.mem_cons_self _ _)
      cases row with
      | nil => simp at hl; omega
      | cons t ts =>
        obtain ⟨hwf, hval⟩ := ht t (List.mem_cons_self _ _)
        have e : rowsBytes ((t :: ts) :: rest)
            = t.bytes ++ (ts.flatMap Tok.bytes ++ rowsBytes rest) := by
          simp [rowsBytes, List.flatMap_cons]
        rw [e, ascii_to_binary_bnw_negative mc hneg w _ hw1 (by simp) t hwf (by omega)] at h
        exact absurd h (by simp)
  have := ascii_to_binary_bnw_ok mc w hw1 rows (fun row h => (hrows row h).1)
    (fun row hr t ht => by
      obtain ⟨h1, h2⟩ := (hrows row hr).2 t ht
      refine ⟨h1, by omega, ?_⟩
      rcases hgood with h0 | h0 | h0
      · rw [h0] at hr; exact absurd hr (List.not_mem_nil _)
      · exact Or.inl h0
      · right
        have : (t.val : Int) ≤ 1 := by
          rcases h2 with e | e <;> rw [e] <;> decide
        omega) hwb hhb [] rfl []
  rw [List.append_nil, h] at this
  simp only [Res.ok.injEq, true_and] at this
  rw [this, List.nil_append, flatMap_eq_flatten_map]

/-- C18, with the loop counters in the range of `int`: row-level bilevel round
trip.  For a width `w` with `1 ≤ w ≤ 2147483640` and rows of `w` tokens each
denoting 0 or 1 (one row, or any number of rows up to 2147483646): whatever
values `max_color` holds in the two routines, whenever `ascii_to_binary_bnw`
returns and `binary_to_ascii_bnw` returns on the bytes it wrote, these are
`ceil(w / 8)` bytes for every row and the unpacking has written exactly the
original samples in the original order, each as its digit and a space, with a
newline after every row.  And both do return when the range checks pass: with
a `max_color` that is 0 or at least 1 in the packing and at least 255 in the
unpacking. -/
theorem bilevel_rows_round_trip (w : Nat) (rows : List (List Tok)) (hw1 : 1 ≤ w)
    (hwb : w ≤ 2147483640) (hhb : rows.length ≤ 2147483646)
    (hrows : ∀ row ∈ rows, row.length = w ∧ ∀ t ∈ row, t.WF ∧ (t.val = 0 ∨ t.val = 1)) :
    (∀ (mc mc2 : Int) (s1 s2 : St),
      ascii_to_binary_bnw (w : Int) (rows.length : Int) mc ⟨rowsBytes rows, []⟩ = .ok () s1 →
      binary_to_ascii_bnw (w : Int) (rows.length : Int) mc2 ⟨s1.out, []⟩ = .ok () s2 →
      s1.out.length = rows.length * ((w + 7) / 8) ∧
        s2 = ⟨[], rows.flatMap (fun row => row.flatMap (fun t => [48 + t.val, 32]) ++ [10])⟩) ∧
    ∀ (mc mc2 : Int), mc = 0 ∨ 1 ≤ mc → 255 ≤ mc2 →
      ∃ s1 : St,
        ascii_to_binary_bnw (w : Int) (rows.length : Int) mc ⟨rowsBytes rows, []⟩ = .ok () s1 ∧
        binary_to_ascii_bnw (w : Int) (rows.length : Int) mc2 ⟨s1.out, []⟩
          = .ok () ⟨[], rows.flatMap (fun row =>
              row.flatMap (fun t => [48 + t.val, 32]) ++ [10])⟩ := by
  have hhb' : rows.length < 2147483647 := by omega
  have hpl : ∀ p ∈ rows.map (fun row => packRow (row.map (fun t => decide (t.val ≠ 0)))),
      p.length = (w + 7) / 8 := by
    intro p hp
    obtain ⟨row, hr, rfl⟩ := List.mem_map.1 hp
    rw [packRow_length, List.length_map, (hrows row hr).1]
  have hlen : (rows.map (fun row => packRow (row.map (fun t => decide (t.val ≠ 0))))).length
      = rows.length := List.length_map _ _
  constructor
  · intro mc mc2 s1 s2 h1 h2
    have e1 := ascii_to_binary_bnw_returns w mc rows hw1 hrows hwb hhb' s1 h1
    rw [e1] at h2 ⊢
    simp only [] at h2 ⊢
    rw [← hlen] at h2
    have e2 := binary_to_ascii_bnw_returns mc2 w _ hpl hwb (by rw [hlen]; exact hhb') [] s2 h2
    rw [List.nil_append, unpack_packed_rows w rows hrows] at e2
    exact ⟨by rw [length_flatten_of_const _ _ hpl, hlen], e2⟩
  · intro mc mc2 hmc hmc2
    have hp := ascii_to_binary_bnw_ok mc w hw1 rows (fun row h => (hrows row h).1)
      (fun row hr t ht => by
        obtain ⟨h1, h2⟩ := (hrows row hr).2 t ht
        refine ⟨h1, by omega, ?_⟩
        rcases hmc with h0 | h0
        · exact Or.inl h0
        · right
          have : (t.val : Int) ≤ 1 := by
            rcases h2 with e | e <;> rw [e] <;> decide
          omega) hwb hhb' [] rfl []
    rw [List.append_nil, List.nil_append, flatMap_eq_flatten_map] at hp
    refine ⟨_, hp, ?_⟩
    have hu := binary_to_ascii_bnw_ok mc2 w
      (rows.map (fun row => packRow (row.map (fun t => decide (t.val ≠ 0))))) hpl
      (fun p hp b hb => by
        obtain ⟨row, hr, rfl⟩ := List.mem_map.1 hp
        have := mem_packRow_lt _ b hb
        omega) hwb (by rw [hlen]; exact hhb') [] []
    rw [hlen, List.append_nil, List.nil_append, unpack_packed_rows w rows hrows] at hu
    exact hu

/-- C18 on one row of width 10: `1 0 1 1 0 0 0 1 1 0 `. -/
theorem bilevel_rows_round_trip_witness :
    (∀ (mc mc2 : Int) (s1 s2 : St),
      ascii_to_binary_bnw ((10 : Nat) : Int) (bilevelRowExample.length : Int) mc
          ⟨rowsBytes bilevelRowExample, []⟩ = .ok () s1 →
      binary_to_ascii_bnw ((10 : Nat) : Int) (bilevelRowExample.length : Int) mc2
          ⟨s1.out, []⟩ = .ok () s2 →
      s1.out.length = bilevelRowExample.length * ((10 + 7) / 8) ∧
        s2 = ⟨[], bilevelRowExample.flatMap (fun row =>
          row.flatMap (fun t => [48 + t.val, 32]) ++ [10])⟩) ∧
    ∀ (mc mc2 : Int), mc = 0 ∨ 1 ≤ mc → 255 ≤ mc2 →
      ∃ s1 : St,
        ascii_to_binary_bnw ((10 : Nat) : Int) (bilevelRowExample.length : Int) mc
          ⟨rowsBytes bilevelRowExample, []⟩ = .ok () s1 ∧
        binary_to_ascii_bnw ((10 : Nat) : Int) (bilevelRowExample.length : Int) mc2
            ⟨s1.out, []⟩
          = .ok () ⟨[], bilevelRowExample.flatMap (fun row =>
              row.flatMap (fun t => [48 + t.val, 32]) ++ [10])⟩ :=
  bilevel_rows_round_trip 10 bilevelRowExample (by decide) (by decide) (by decide) (by decide)

theorem bind_not_ok {α β : Type} (x : Prog α) (f : α → Prog β) (s : St)
    (hx : ∀ a s', x s ≠ .ok a s') : ∀ b s', (x >>= f) s ≠ .ok b s' := by
  intro b s' h
  obtain ⟨a, s1, h1, _⟩ := bind_ok_inv h
  exact hx a s1 h1

/-- C18 as stated fails at width 2147483641: for a row of that width neither the
packing loop of `ascii_to_binary_bnw` nor the row loop of `binary_to_ascii_bnw`
returns, whatever the input and whatever `max_color` holds, so no bytes are
handed from the one to the other and no samples come back.  Both loops run
`for (j = 1; j <= width; j += 8)`; the last round is the one for
`j = 2147483641`, and the `j += 8` after it leaves the range of `int`.  On the
row of 2147483641 samples `1 ` the packing loop reaches exactly that point: all
samples are read, then the counter overflows. -/
theorem bilevel_round_trip_not_left_at_wide_rows :
    (¬ ∃ (mc : Int) (s s1 : St), ascii_to_binary_bnw 2147483641 1 mc s = .ok () s1) ∧
      (¬ ∃ (mc2 : Int) (s s2 : St), binary_to_ascii_bnw 2147483641 1 mc2 s = .ok () s2) ∧
      ascii_to_binary_bnw 2147483641 1 0
        ⟨(List.replicate 2147483641 (⟨[49], [32]⟩ : Tok)).flatMap Tok.bytes, []⟩ = .stuck := by
  refine ⟨?_, ?_, ?_⟩
  rotate_left 2
  · have := ascii_to_binary_bnw_wide_stuck 0 2147483641 (le_refl _) (by decide)
      (List.replicate 2147483641 (⟨[49], [32]⟩ : Tok)) (List.length_replicate _ _)
      (fun t ht => by
        rw [List.eq_of_mem_replicate ht]
        exact ⟨by decide, by decide, Or.inl rfl⟩) [] rfl []
    rw [List.append_nil] at this
    exact this
  · rintro ⟨mc, s, s1, h⟩
    unfold ascii_to_binary_bnw at h
    exact forTo_first_not_ok _ _ (by decide) _ _ (fun s1 => forTo8_not_ok _ (by decide) _ _ _) _ h
  · rintro ⟨mc, s, s2, h⟩
    unfold binary_to_ascii_bnw at h
    exact forTo_first_not_ok _ _ (by decide) _ _
      (fun s1 => bind_not_ok _ _ _ (fun _ s3 => forTo8_not_ok _ (by decide) _ _ _) _ _) _ h

end Figproc
